import Mathlib

/-!
# Symbolic differentiation: expression tree, simplifier, printer, parser

A shallow embedding of `src/derivative/tree.h`, `tree.cpp`, `parser.cpp` and
`main.cpp`.

* The class hierarchy below `expression` is one inductive type with one
  constructor per concrete class; virtual dispatch is pattern matching.
* `std::unique_ptr` ownership is value semantics: a tree is a value.
* The payload of `const_` is a `double` in the source.  It is embedded as the
  rational number the double is equal to; a literal is rounded to the
  nearest double when it is read (`round_to_double`).  Signed zero,
  infinities and NaN are outside the embedding; no arithmetic is ever
  performed on a payload by the program, which only compares it with `0.`
  and `1.`, copies it and prints it.
* An output stream is the list of characters written to it.
-/

namespace Derivative

/-! ## tree.h -/

/-- The `enum class precedence` of `tree.h`, in declaration order. -/
inductive precedence where
  | addition
  | multiplication
  | unary
  deriving DecidableEq, Repr

/-- The underlying value of an enumerator; `<` and `<=` on the enum compare these. -/
def precedence.rank : precedence → Nat
  | .addition => 0
  | .multiplication => 1
  | .unary => 2

/-- The concrete subclasses of `struct expression`, one constructor each. -/
inductive expression where
  | negation (arg : expression)
  | addition (lhs rhs : expression)
  | subtraction (lhs rhs : expression)
  | multiplication (lhs rhs : expression)
  | division (lhs rhs : expression)
  | variable_
  | const_ (value : ℚ)
  | sine (arg : expression)
  | cosine (arg : expression)
  | tangent (arg : expression)
  | exponentiation (arg : expression)
  | logarithm (arg : expression)
  deriving DecidableEq, Repr

open expression

/-! ## tree.cpp -/

/-- The `get_precedence` overrides. -/
def get_precedence : expression → precedence
  | negation _ => .unary
  | addition _ _ => .addition
  | subtraction _ _ => .addition
  | multiplication _ _ => .multiplication
  | division _ _ => .multiplication
  | variable_ => .unary
  | const_ _ => .unary
  | sine _ => .unary
  | cosine _ => .unary
  | tangent _ => .unary
  | exponentiation _ => .unary
  | logarithm _ => .unary

/-- The helper `is_zero`: a `const_` whose value compares equal to `0.`. -/
def is_zero : expression → Bool
  | const_ value => decide (value = 0)
  | _ => false

/-- The helper `is_one`: a `const_` whose value compares equal to `1.`. -/
def is_one : expression → Bool
  | const_ value => decide (value = 1)
  | _ => false

/-- The `identity` overrides: a deep copy, node by node. -/
def identity : expression → expression
  | negation arg => negation (identity arg)
  | addition lhs rhs => addition (identity lhs) (identity rhs)
  | subtraction lhs rhs => subtraction (identity lhs) (identity rhs)
  | multiplication lhs rhs => multiplication (identity lhs) (identity rhs)
  | division lhs rhs => division (identity lhs) (identity rhs)
  | variable_ => variable_
  | const_ value => const_ value
  | sine arg => sine (identity arg)
  | cosine arg => cosine (identity arg)
  | tangent arg => tangent (identity arg)
  | exponentiation arg => exponentiation (identity arg)
  | logarithm arg => logarithm (identity arg)

/-- The `derivative` overrides. `exponentiation::derivative` copies the whole
node with `identity()`; the others copy the operands they reuse. -/
def derivative : expression → expression
  | negation arg => negation (derivative arg)
  | addition lhs rhs => addition (derivative lhs) (derivative rhs)
  | subtraction lhs rhs => subtraction (derivative lhs) (derivative rhs)
  | multiplication lhs rhs =>
      addition (multiplication (derivative lhs) (identity rhs))
               (multiplication (identity lhs) (derivative rhs))
  | division lhs rhs =>
      division (subtraction (multiplication (derivative lhs) (identity rhs))
                            (multiplication (derivative rhs) (identity lhs)))
               (multiplication (identity rhs) (identity rhs))
  | variable_ => const_ 1
  | const_ _ => const_ 0
  | sine arg => multiplication (cosine (identity arg)) (derivative arg)
  | cosine arg => multiplication (negation (sine (identity arg))) (derivative arg)
  | tangent arg =>
      multiplication (division (const_ 1) (multiplication (identity arg) (identity arg)))
                     (derivative arg)
  | exponentiation arg => multiplication (identity (exponentiation arg)) (derivative arg)
  | logarithm arg => multiplication (division (const_ 1) (identity arg)) (derivative arg)

/-- Number of nodes of a tree. -/
def node_count : expression → Nat
  | negation arg => node_count arg + 1
  | addition lhs rhs => node_count lhs + node_count rhs + 1
  | subtraction lhs rhs => node_count lhs + node_count rhs + 1
  | multiplication lhs rhs => node_count lhs + node_count rhs + 1
  | division lhs rhs => node_count lhs + node_count rhs + 1
  | variable_ => 1
  | const_ _ => 1
  | sine arg => node_count arg + 1
  | cosine arg => node_count arg + 1
  | tangent arg => node_count arg + 1
  | exponentiation arg => node_count arg + 1
  | logarithm arg => node_count arg + 1

/-- The `simplify` overrides, with a budget on the depth of nested calls:
`none` means the budget ran out.  `subtraction::simplify` calls `simplify`
on a freshly built `negation`, which is not a subterm of the receiver, so
the recursion is not structural in the tree.  `sine`, `cosine`, `tangent`
and `logarithm` inherit `expression::simplify`, which is `identity()`. -/
def simplify_fuel : Nat → expression → Option expression
  | 0, _ => none
  | fuel + 1, negation arg =>
      match simplify_fuel fuel arg with
      | none => none
      | some s_arg =>
          if is_zero s_arg then some (const_ 0)
          else some (negation s_arg)
  | fuel + 1, addition lhs rhs =>
      match simplify_fuel fuel lhs, simplify_fuel fuel rhs with
      | some s_lhs, some s_rhs =>
          if is_zero s_lhs then some s_rhs
          else if is_zero s_rhs then some s_lhs
          else some (addition s_lhs s_rhs)
      | _, _ => none
  | fuel + 1, subtraction lhs rhs =>
      match simplify_fuel fuel lhs, simplify_fuel fuel rhs with
      | some s_lhs, some s_rhs =>
          if is_zero s_lhs then simplify_fuel fuel (negation s_rhs)
          else if is_zero s_rhs then some s_lhs
          else some (subtraction s_lhs s_rhs)
      | _, _ => none
  | fuel + 1, multiplication lhs rhs =>
      match simplify_fuel fuel lhs, simplify_fuel fuel rhs with
      | some s_lhs, some s_rhs =>
          if is_zero s_lhs then some (const_ 0)
          else if is_one s_lhs then some s_rhs
          else if is_zero s_rhs then some (const_ 0)
          else if is_one s_rhs then some s_lhs
          else some (multiplication s_lhs s_rhs)
      | _, _ => none
  | fuel + 1, division lhs rhs =>
      match simplify_fuel fuel lhs, simplify_fuel fuel rhs with
      | some s_lhs, some s_rhs =>
          if is_zero s_lhs then some (const_ 0)
          else if is_one s_rhs then some s_lhs
          else some (division s_lhs s_rhs)
      | _, _ => none
  | _ + 1, variable_ => some (identity variable_)
  | _ + 1, const_ value => some (identity (const_ value))
  | _ + 1, sine arg => some (identity (sine arg))
  | _ + 1, cosine arg => some (identity (cosine arg))
  | _ + 1, tangent arg => some (identity (tangent arg))
  | fuel + 1, exponentiation arg =>
      match simplify_fuel fuel arg with
      | none => none
      | some s_arg =>
          if is_zero s_arg then some (const_ 1)
          else some (exponentiation s_arg)
  | _ + 1, logarithm arg => some (identity (logarithm arg))

/-- The method `simplify`: the budgeted version run with one unit of budget
per node of the receiver, which `simplify_fuel_node_count` shows is enough. -/
def simplify (e : expression) : expression :=
  match simplify_fuel (node_count e) e with
  | some r => r
  | none => e

/-! ### Printing -/

/-- Decimal digits of a natural number, most significant first. -/
def nat_digits (n : Nat) : List Char := Nat.toDigits 10 n

/-- Pads a digit string with zeros on the left up to `width` characters. -/
def pad_zeros (width : Nat) (ds : List Char) : List Char :=
  List.replicate (width - ds.length) '0' ++ ds

/-- Drops the zeros at the end of a digit string. -/
def strip_zeros (ds : List Char) : List Char :=
  (ds.reverse.dropWhile (fun c => c = '0')).reverse

/-- The fractional digits as printed: trailing zeros removed, and the
decimal point with them when nothing is left. -/
def fraction_text (ds : List Char) : List Char :=
  if strip_zeros ds = [] then [] else '.' :: strip_zeros ds

/-- Nearest integer to `num / den`, ties to even. -/
def round_half_even (num den : Nat) : Nat :=
  let q := num / den
  let r := num % den
  if den < 2 * r ∨ (2 * r = den ∧ q % 2 = 1) then q + 1 else q

/-- Fixed notation of `m / 10 ^ places`. -/
def fixed_text (m places : Nat) : List Char :=
  nat_digits (m / 10 ^ places) ++
    fraction_text (pad_zeros places (nat_digits (m % 10 ^ places)))

/-- Scientific notation of a six-digit significand `m` with decimal exponent
`x`: one digit, the fraction, `e`, the sign and at least two exponent digits. -/
def scientific_text (m : Nat) (x : Int) : List Char :=
  (nat_digits m).take 1 ++ fraction_text ((nat_digits m).drop 1) ++
    ['e', if x < 0 then '-' else '+'] ++ pad_zeros 2 (nat_digits x.natAbs)

/-- Modelled from the spec: `std::ostream::operator<<(double)`, which
`const_::print` calls and which is library code outside the repository.
Section 8 has `5.` print as `5` and the constants `0`, `1`, `2` print as one
digit; the model is the default stream format (the `%g` conversion with
precision 6): six significant digits, fixed notation when the decimal
exponent `x` of the rounded value satisfies `-4 ≤ x < 6` and scientific
notation otherwise, trailing zeros removed. -/
def print_double (value : ℚ) : List Char :=
  let n := value.num.natAbs
  let d := value.den
  if n = 0 then ['0']
  else
    let a := (nat_digits n).length - 1
    let b := (nat_digits d).length - 1
    let x0 : Int := if d * 10 ^ a ≤ n * 10 ^ b then (a : Int) - b else (a : Int) - b - 1
    let m0 := round_half_even (n * 10 ^ (5 - x0).toNat) (d * 10 ^ (x0 - 5).toNat)
    let m := if m0 = 10 ^ 6 then 10 ^ 5 else m0
    let x := if m0 = 10 ^ 6 then x0 + 1 else x0
    (if value.num < 0 then ['-'] else []) ++
      (if -4 ≤ x ∧ x < 6 then fixed_text m (5 - x).toNat else scientific_text m x)

/-- The helper `print_lhs`; `text` is what `os << e` writes. -/
def print_lhs (text : List Char) (e : expression) (parent_precedence : precedence) :
    List Char :=
  if (get_precedence e).rank < parent_precedence.rank then ['('] ++ text ++ [')']
  else text

/-- The helper `print_rhs`; `text` is what `os << e` writes. -/
def print_rhs (text : List Char) (e : expression) (parent_precedence : precedence) :
    List Char :=
  if (get_precedence e).rank ≤ parent_precedence.rank then ['('] ++ text ++ [')']
  else text

/-- The `print` overrides: the characters written to the stream. -/
def print : expression → List Char
  | negation arg =>
      ['-'] ++ print_lhs (print arg) arg (get_precedence (negation arg))
  | addition lhs rhs =>
      print_lhs (print lhs) lhs (get_precedence (addition lhs rhs)) ++ [' ', '+', ' '] ++
        print_rhs (print rhs) rhs (get_precedence (addition lhs rhs))
  | subtraction lhs rhs =>
      print_lhs (print lhs) lhs (get_precedence (subtraction lhs rhs)) ++ [' ', '-', ' '] ++
        print_rhs (print rhs) rhs (get_precedence (subtraction lhs rhs))
  | multiplication lhs rhs =>
      print_lhs (print lhs) lhs (get_precedence (multiplication lhs rhs)) ++ [' ', '*', ' '] ++
        print_rhs (print rhs) rhs (get_precedence (multiplication lhs rhs))
  | division lhs rhs =>
      print_lhs (print lhs) lhs (get_precedence (division lhs rhs)) ++ [' ', '/', ' '] ++
        print_rhs (print rhs) rhs (get_precedence (division lhs rhs))
  | variable_ => ['x']
  | const_ value => print_double value
  | sine arg =>
      ['s', 'i', 'n', ' '] ++ print_lhs (print arg) arg (get_precedence (sine arg))
  | cosine arg =>
      ['c', 'o', 's', ' '] ++ print_lhs (print arg) arg (get_precedence (cosine arg))
  | tangent arg =>
      ['t', 'a', 'n', ' '] ++ print_lhs (print arg) arg (get_precedence (tangent arg))
  | exponentiation arg =>
      ['e', 'x', 'p', ' '] ++ print_lhs (print arg) arg (get_precedence (exponentiation arg))
  | logarithm arg =>
      ['l', 'o', 'g', ' '] ++ print_lhs (print arg) arg (get_precedence (logarithm arg))

/-! ## parser.cpp -/

/-- What a parse can throw: a `std::runtime_error` with its message, or the
`boost::bad_lexical_cast` of the numeric conversion.  `out_of_budget` is not
an exception of the program: it marks a run of the embedding that used up
its recursion budget, and `parse` never returns it. -/
inductive parse_error where
  | runtime_error (what : String)
  | bad_lexical_cast
  | out_of_budget
  deriving DecidableEq, Repr

deriving instance DecidableEq for Except

/-- A value together with the position `pos` after it: the characters from
`pos` to `end`. -/
abbrev parse_result := Except parse_error (expression × List Char)

def is_digit_or_dot (c : Char) : Bool := c.isDigit || c = '.'

/-- Value of a run of decimal digits. -/
def digits_value (ds : List Char) : Nat :=
  ds.foldl (fun acc c => 10 * acc + (c.toNat - '0'.toNat)) 0

/-- The recursion of `floor_log2`, `fuel` bounding the number of halvings. -/
def log2_fuel : Nat → Nat → Nat
  | 0, _ => 0
  | fuel + 1, n => if 2 ≤ n then log2_fuel fuel (n / 2) + 1 else 0

/-- The position of the leading binary digit of `n`: the largest `k` with
`2 ^ k ≤ n`, for `0 < n`. -/
def floor_log2 (n : Nat) : Nat := log2_fuel n n

/-- Modelled from the spec: the conversion of the decimal value `n / d` to a
`double`, which is library code outside the repository.  Section 1 has only
finite floating-point literals and section 4.1 has the text converted to a
floating value: the result is the nearest binary64 number, a significand
below `2 ^ 53` times a power of two from `2 ^ (-1074)` to `2 ^ 971`, ties to
the even significand; a value too small rounds to zero and a value beyond
the largest double has no result. -/
def round_to_double (n d : Nat) : Option ℚ :=
  if n = 0 then some 0
  else
    let a := floor_log2 n
    let b := floor_log2 d
    let k : Int := if d * 2 ^ a ≤ n * 2 ^ b then (a : Int) - b else (a : Int) - b - 1
    let e : Int := max (k - 52) (-1074)
    let m0 := round_half_even (n * 2 ^ (-e).toNat) (d * 2 ^ e.toNat)
    let m := if m0 = 2 ^ 53 then 2 ^ 52 else m0
    let e1 := if m0 = 2 ^ 53 then e + 1 else e
    if 971 < e1 then none else some (mkRat (m * 2 ^ e1.toNat) (2 ^ (-e1).toNat))

/-- Modelled from the spec: `boost::lexical_cast<double>` on the text that
`parse_literal` returns, a run of digits and dots; library code outside the
repository.  Section 6 has literals of digits and a single decimal point and
section 4.1 has a second dot rejected; `main.cpp` reads `5.`.  The result is
the double nearest to the decimal value, and there is none when that value
is beyond the range of a double. -/
def lexical_cast (lit : List Char) : Option ℚ :=
  let int_digits := lit.takeWhile Char.isDigit
  match lit.dropWhile Char.isDigit with
  | [] => if int_digits = [] then none else round_to_double (digits_value int_digits) 1
  | c :: frac_digits =>
      if c = '.' ∧ frac_digits.all Char.isDigit = true ∧
          (int_digits ≠ [] ∨ frac_digits ≠ []) then
        round_to_double (digits_value (int_digits ++ frac_digits)) (10 ^ frac_digits.length)
      else none

/-- The member `skip_ws`: moves `pos` past space characters. -/
def skip_ws : List Char → List Char
  | [] => []
  | c :: s => if c = ' ' then skip_ws s else c :: s

/-- The member `eof`: `skip_ws()`, then `pos == end`; it leaves `pos` at
`skip_ws s`. -/
def eof (s : List Char) : Bool := (skip_ws s).isEmpty

/-- The member `peek`: `skip_ws()`, then `*pos`; it leaves `pos` at
`skip_ws s`.  Every call is guarded by `eof()`. -/
def peek (s : List Char) : Char := (skip_ws s).headD (Char.ofNat 0)

/-- The member `advance`: `skip_ws()`, then `++pos`. -/
def advance (s : List Char) : List Char := (skip_ws s).tail

/-- The loop of `parse_identifier`: collects alphabetic characters. Each
`advance()` in it starts at an alphabetic character, so skips nothing. -/
def identifier_loop : List Char → List Char × List Char
  | [] => ([], [])
  | c :: s =>
      if c.isAlpha then ((identifier_loop s).1.cons c, (identifier_loop s).2)
      else ([], c :: s)

/-- The member `parse_identifier`: the identifier and the position after it. -/
def parse_identifier (s : List Char) : List Char × List Char :=
  identifier_loop (skip_ws s)

/-- The loop of `parse_literal`: collects digits and dots. -/
def literal_loop : List Char → List Char × List Char
  | [] => ([], [])
  | c :: s =>
      if is_digit_or_dot c then ((literal_loop s).1.cons c, (literal_loop s).2)
      else ([], c :: s)

/-- The member `parse_literal`: the literal text and the position after it. -/
def parse_literal (s : List Char) : List Char × List Char :=
  literal_loop (skip_ws s)

mutual

/-- The member `parse_addition`: one `parse_multiplication`, then the loop. -/
def parse_addition : Nat → List Char → parse_result
  | 0, _ => .error .out_of_budget
  | fuel + 1, s =>
      match parse_multiplication fuel s with
      | .error err => .error err
      | .ok (lhs, s1) => addition_loop fuel lhs s1

/-- The `for (;;)` of `parse_addition`, `lhs` being the tree built so far. -/
def addition_loop : Nat → expression → List Char → parse_result
  | 0, _, _ => .error .out_of_budget
  | fuel + 1, lhs, s =>
      if eof s then .ok (lhs, skip_ws s)
      else if peek s = '+' then
        match parse_multiplication fuel (advance s) with
        | .error err => .error err
        | .ok (rhs, s1) => addition_loop fuel (addition lhs rhs) s1
      else if peek s = '-' then
        match parse_multiplication fuel (advance s) with
        | .error err => .error err
        | .ok (rhs, s1) => addition_loop fuel (subtraction lhs rhs) s1
      else .ok (lhs, skip_ws s)

/-- The member `parse_multiplication`: one `parse_unary`, then the loop. -/
def parse_multiplication : Nat → List Char → parse_result
  | 0, _ => .error .out_of_budget
  | fuel + 1, s =>
      match parse_unary fuel s with
      | .error err => .error err
      | .ok (lhs, s1) => multiplication_loop fuel lhs s1

/-- The `for (;;)` of `parse_multiplication`. -/
def multiplication_loop : Nat → expression → List Char → parse_result
  | 0, _, _ => .error .out_of_budget
  | fuel + 1, lhs, s =>
      if eof s then .ok (lhs, skip_ws s)
      else if peek s = '*' then
        match parse_unary fuel (advance s) with
        | .error err => .error err
        | .ok (rhs, s1) => multiplication_loop fuel (multiplication lhs rhs) s1
      else if peek s = '/' then
        match parse_unary fuel (advance s) with
        | .error err => .error err
        | .ok (rhs, s1) => multiplication_loop fuel (division lhs rhs) s1
      else .ok (lhs, skip_ws s)

/-- The member `parse_unary`. -/
def parse_unary : Nat → List Char → parse_result
  | 0, _ => .error .out_of_budget
  | fuel + 1, s =>
      if eof s then .error (.runtime_error "unexcepted eof")
      else if peek s = '(' then parse_parenthesis fuel s
      else if peek s = '+' then parse_unary fuel (advance s)
      else if peek s = '-' then
        match parse_unary fuel (advance s) with
        | .error err => .error err
        | .ok (arg, s1) => .ok (negation arg, s1)
      else if (peek s).isAlpha then
        if (parse_identifier s).1 = ['x'] then .ok (variable_, (parse_identifier s).2)
        else if (parse_identifier s).1 = ['s', 'i', 'n'] then
          match parse_unary fuel (parse_identifier s).2 with
          | .error err => .error err
          | .ok (arg, s1) => .ok (sine arg, s1)
        else if (parse_identifier s).1 = ['c', 'o', 's'] then
          match parse_unary fuel (parse_identifier s).2 with
          | .error err => .error err
          | .ok (arg, s1) => .ok (cosine arg, s1)
        else if (parse_identifier s).1 = ['t', 'a', 'n'] then
          match parse_unary fuel (parse_identifier s).2 with
          | .error err => .error err
          | .ok (arg, s1) => .ok (tangent arg, s1)
        else if (parse_identifier s).1 = ['e', 'x', 'p'] then
          match parse_unary fuel (parse_identifier s).2 with
          | .error err => .error err
          | .ok (arg, s1) => .ok (exponentiation arg, s1)
        else if (parse_identifier s).1 = ['l', 'o', 'g'] then
          match parse_unary fuel (parse_identifier s).2 with
          | .error err => .error err
          | .ok (arg, s1) => .ok (logarithm arg, s1)
        else .error (.runtime_error "syntax error")
      else if is_digit_or_dot (peek s) then
        match lexical_cast (parse_literal s).1 with
        | none => .error .bad_lexical_cast
        | some value => .ok (const_ value, (parse_literal s).2)
      else .error (.runtime_error "syntax error")

/-- The member `parse_parenthesis`; `parse_unary` calls it at a `(`. -/
def parse_parenthesis : Nat → List Char → parse_result
  | 0, _ => .error .out_of_budget
  | fuel + 1, s =>
      match parse_addition fuel (advance s) with
      | .error err => .error err
      | .ok (inner, s1) =>
          if eof s1 || peek s1 != ')' then .error (.runtime_error "expected ')'")
          else .ok (inner, advance s1)

end

/-- Recursion budget for a text: four nested calls for every character and
four more, which `parse_addition_in_budget` shows is never used up. -/
def parse_budget (s : List Char) : Nat := 4 * s.length + 4

/-- The function `parse`. -/
def parse (s : String) : Except parse_error expression :=
  match parse_addition (parse_budget s.toList) s.toList with
  | .error err => .error err
  | .ok (r, s1) =>
      if !eof s1 then .error (.runtime_error "expected eof")
      else .ok r

/-- The body of `test` in `main.cpp`: the three trees it prints, each as the
characters written for it, without the `  : ` prefix and the line end. -/
def test (text : String) : Except parse_error (List Char × List Char × List Char) :=
  match parse text with
  | .error err => .error err
  | .ok a => .ok (print a, print (derivative a), print (simplify (derivative a)))

/-! ### Auxiliary definitions for reasoning about the parser -/

/-- Wraps the tree of a successful result in a node. -/
def apply_node (f : expression → expression) (r : parse_result) : parse_result :=
  match r with
  | .error err => .error err
  | .ok (arg, s1) => .ok (f arg, s1)

/-- The node built for a function name, as tested in `parse_unary`. -/
def function_node (ident : List Char) : Option (expression → expression) :=
  if ident = ['s', 'i', 'n'] then some sine
  else if ident = ['c', 'o', 's'] then some cosine
  else if ident = ['t', 'a', 'n'] then some tangent
  else if ident = ['e', 'x', 'p'] then some exponentiation
  else if ident = ['l', 'o', 'g'] then some logarithm
  else none

/-- `parse_unary` reads the tree `e` from `s` and stops at `s1`. -/
def unary_parses (s : List Char) (e : expression) (s1 : List Char) : Prop :=
  ∃ n, parse_unary n s = .ok (e, s1)

/-- `parse_multiplication` reads the tree `e` from `s` and stops at `s1`. -/
def multiplication_parses (s : List Char) (e : expression) (s1 : List Char) : Prop :=
  ∃ n, parse_multiplication n s = .ok (e, s1)

/-- `parse_addition` reads the tree `e` from `s` and stops at `s1`. -/
def addition_parses (s : List Char) (e : expression) (s1 : List Char) : Prop :=
  ∃ n, parse_addition n s = .ok (e, s1)

/-- The loop of `parse_multiplication`, entered with `lhs` at `s`, returns
`e` and stops at `s1`. -/
def multiplication_loop_parses (lhs : expression) (s : List Char) (e : expression)
    (s1 : List Char) : Prop :=
  ∃ n, multiplication_loop n lhs s = .ok (e, s1)

/-- The loop of `parse_addition`, entered with `lhs` at `s`, returns `e` and
stops at `s1`. -/
def addition_loop_parses (lhs : expression) (s : List Char) (e : expression)
    (s1 : List Char) : Prop :=
  ∃ n, addition_loop n lhs s = .ok (e, s1)

/-- The text at `rest` cannot extend an identifier or a literal that ends
just before it. -/
def token_end (rest : List Char) : Prop :=
  ∀ c ∈ rest.head?, c.isAlpha = false ∧ is_digit_or_dot c = false

/-- The loop of `parse_multiplication` stops at `rest`. -/
def stops_multiplication (rest : List Char) : Prop :=
  eof rest = true ∨ (peek rest ≠ '*' ∧ peek rest ≠ '/')

/-- The loop of `parse_addition` stops at `rest`. -/
def stops_addition (rest : List Char) : Prop :=
  eof rest = true ∨ (peek rest ≠ '+' ∧ peek rest ≠ '-')

/-- The printed form of `value` is a literal that converts back to `value`. -/
def printable (value : ℚ) : Prop := lexical_cast (print_double value) = some value

/-- Every constant of the tree is `printable`. -/
def all_printable : expression → Prop
  | negation arg => all_printable arg
  | addition lhs rhs => all_printable lhs ∧ all_printable rhs
  | subtraction lhs rhs => all_printable lhs ∧ all_printable rhs
  | multiplication lhs rhs => all_printable lhs ∧ all_printable rhs
  | division lhs rhs => all_printable lhs ∧ all_printable rhs
  | variable_ => True
  | const_ value => printable value
  | sine arg => all_printable arg
  | cosine arg => all_printable arg
  | tangent arg => all_printable arg
  | exponentiation arg => all_printable arg
  | logarithm arg => all_printable arg

/-- What the parser functions do on the printed form of `e` followed by
`rest`: `parse_unary` reads `e` when `e` is of class `unary`;
`parse_multiplication` reads `e` and enters its loop at `rest` when `e` is
not of class `addition`; `parse_addition` reads `e` and enters its loop at
`rest`. -/
def reads_back (e : expression) : Prop :=
  (get_precedence e = .unary →
    ∀ rest, token_end rest → unary_parses (print e ++ rest) e rest) ∧
  (get_precedence e ≠ .addition →
    ∀ rest e1 s1, token_end rest → multiplication_loop_parses e rest e1 s1 →
      multiplication_parses (print e ++ rest) e1 s1) ∧
  (∀ rest e1 s1, token_end rest → stops_multiplication rest →
    addition_loop_parses e rest e1 s1 → addition_parses (print e ++ rest) e1 s1)

instance (value : ℚ) : Decidable (printable value) := by
  unfold printable; infer_instance

/-- A character of the representable subset of section 8: a digit or a dot
of a literal, `x`, an operator, a parenthesis or a blank. -/
def arith_char (c : Char) : Bool :=
  is_digit_or_dot c || c = 'x' || c = '+' || c = '-' || c = '*' || c = '/' ||
    c = '(' || c = ')' || c = ' '

/-- A text that uses only literals, `x`, `+ - * /`, unary signs and
parentheses. -/
def arith_text (s : String) : Bool := s.toList.all arith_char

/-- A text between parentheses. -/
def wrapped (text : List Char) : List Char := ['('] ++ text ++ [')']

/-- A binary node: `addition`, `subtraction`, `multiplication` or `division`. -/
def is_binary : expression → Bool
  | addition _ _ => true
  | subtraction _ _ => true
  | multiplication _ _ => true
  | division _ _ => true
  | _ => false

/-! ### Chains of operands joined by operators -/

/-- An operand token: `x` or a run of digits. -/
inductive operand_token where
  | x
  | literal (digits : List Char)

/-- The text of an operand token. -/
def operand_token.text : operand_token → List Char
  | .x => ['x']
  | .literal digits => digits

/-- A literal token is a non-empty run of digits that the numeric conversion
accepts. -/
def operand_token.well_formed : operand_token → Prop
  | .x => True
  | .literal digits =>
      digits ≠ [] ∧ (∀ c ∈ digits, c.isDigit = true) ∧ (lexical_cast digits).isSome = true

/-- The tree an operand token stands for: a literal is the constant of the
converted value. -/
def operand_token.tree : operand_token → expression
  | .x => variable_
  | .literal digits => const_ ((lexical_cast digits).getD 0)

/-- An operator and the operand after it, with the number of blanks written
before and after the operator. -/
structure chain_item where
  before : Nat
  op : Char
  after : Nat
  operand : operand_token

/-- The text of the items of a chain. -/
def items_text : List chain_item → List Char
  | [] => []
  | it :: items =>
      List.replicate it.before ' ' ++ [it.op] ++ List.replicate it.after ' ' ++
        it.operand.text ++ items_text items

/-- The node of a binary operator. -/
def binary_node (op : Char) (lhs rhs : expression) : expression :=
  if op = '+' then addition lhs rhs
  else if op = '-' then subtraction lhs rhs
  else if op = '*' then multiplication lhs rhs
  else division lhs rhs

/-- The left-nested tree of a chain that starts with the tree `lhs`. -/
def chain_tree : expression → List chain_item → expression
  | lhs, [] => lhs
  | lhs, it :: items => chain_tree (binary_node it.op lhs it.operand.tree) items

/-! ### The function a tree denotes -/

/-- The real function of `x` that a tree denotes: a constant its value,
`variable_` the argument, the arithmetic nodes the arithmetic operations,
`sine`, `cosine`, `tangent` the trigonometric functions, `exponentiation`
the exponential of base `e` and `logarithm` the natural logarithm. -/
noncomputable def eval : expression → ℝ → ℝ
  | negation arg, x => -eval arg x
  | addition lhs rhs, x => eval lhs x + eval rhs x
  | subtraction lhs rhs, x => eval lhs x - eval rhs x
  | multiplication lhs rhs, x => eval lhs x * eval rhs x
  | division lhs rhs, x => eval lhs x / eval rhs x
  | variable_, x => x
  | const_ value, _ => (value : ℝ)
  | sine arg, x => Real.sin (eval arg x)
  | cosine arg, x => Real.cos (eval arg x)
  | tangent arg, x => Real.tan (eval arg x)
  | exponentiation arg, x => Real.exp (eval arg x)
  | logarithm arg, x => Real.log (eval arg x)

/-- At the point `x`, every denominator in the tree is nonzero, every
operand of a logarithm is positive and every operand of a tangent has a
nonzero cosine. -/
def defined_at : expression → ℝ → Prop
  | negation arg, x => defined_at arg x
  | addition lhs rhs, x => defined_at lhs x ∧ defined_at rhs x
  | subtraction lhs rhs, x => defined_at lhs x ∧ defined_at rhs x
  | multiplication lhs rhs, x => defined_at lhs x ∧ defined_at rhs x
  | division lhs rhs, x => defined_at lhs x ∧ defined_at rhs x ∧ eval rhs x ≠ 0
  | variable_, _ => True
  | const_ _, _ => True
  | sine arg, x => defined_at arg x
  | cosine arg, x => defined_at arg x
  | tangent arg, x => defined_at arg x ∧ Real.cos (eval arg x) ≠ 0
  | exponentiation arg, x => defined_at arg x
  | logarithm arg, x => defined_at arg x ∧ 0 < eval arg x

/-- The tree has no `tangent` node. -/
def tangent_free : expression → Prop
  | negation arg => tangent_free arg
  | addition lhs rhs => tangent_free lhs ∧ tangent_free rhs
  | subtraction lhs rhs => tangent_free lhs ∧ tangent_free rhs
  | multiplication lhs rhs => tangent_free lhs ∧ tangent_free rhs
  | division lhs rhs => tangent_free lhs ∧ tangent_free rhs
  | variable_ => True
  | const_ _ => True
  | sine arg => tangent_free arg
  | cosine arg => tangent_free arg
  | tangent _ => False
  | exponentiation arg => tangent_free arg
  | logarithm arg => tangent_free arg

/-- A tree already reduced by the arithmetic rules: outside the operands of
`sine`, `cosine`, `tangent` and `logarithm`, no `negation` or
`exponentiation` has a zero-constant operand, no `addition` or `subtraction`
has a zero-constant operand, no `multiplication` has a zero- or one-constant
operand, and no `division` has a zero-constant left operand or a
one-constant right operand. -/
def reduced : expression → Prop
  | negation arg => is_zero arg = false ∧ reduced arg
  | addition lhs rhs =>
      is_zero lhs = false ∧ is_zero rhs = false ∧ reduced lhs ∧ reduced rhs
  | subtraction lhs rhs =>
      is_zero lhs = false ∧ is_zero rhs = false ∧ reduced lhs ∧ reduced rhs
  | multiplication lhs rhs =>
      is_zero lhs = false ∧ is_one lhs = false ∧ is_zero rhs = false ∧ is_one rhs = false ∧
        reduced lhs ∧ reduced rhs
  | division lhs rhs =>
      is_zero lhs = false ∧ is_one rhs = false ∧ reduced lhs ∧ reduced rhs
  | variable_ => True
  | const_ _ => True
  | sine _ => True
  | cosine _ => True
  | tangent _ => True
  | exponentiation arg => is_zero arg = false ∧ reduced arg
  | logarithm _ => True

/-- The tree with `n` nested `negation` nodes around `e`. -/
def nested_negation : Nat → expression → expression
  | 0, e => e
  | n + 1, e => negation (nested_negation n e)

/-- At the point `x`, every denominator in the tree is nonzero. -/
def denominators_nonzero : expression → ℝ → Prop
  | negation arg, x => denominators_nonzero arg x
  | addition lhs rhs, x => denominators_nonzero lhs x ∧ denominators_nonzero rhs x
  | subtraction lhs rhs, x => denominators_nonzero lhs x ∧ denominators_nonzero rhs x
  | multiplication lhs rhs, x => denominators_nonzero lhs x ∧ denominators_nonzero rhs x
  | division lhs rhs, x =>
      denominators_nonzero lhs x ∧ denominators_nonzero rhs x ∧ eval rhs x ≠ 0
  | variable_, _ => True
  | const_ _, _ => True
  | sine arg, x => denominators_nonzero arg x
  | cosine arg, x => denominators_nonzero arg x
  | tangent arg, x => denominators_nonzero arg x
  | exponentiation arg, x => denominators_nonzero arg x
  | logarithm arg, x => denominators_nonzero arg x

open Classical in
/-- The value of a tree at the point `x`, when it has one: the tree denotes
a partial function, without a value where a denominator is zero, the operand
of a logarithm is not positive or the operand of a tangent has cosine zero. -/
noncomputable def value (e : expression) (x : ℝ) : Option ℝ :=
  if defined_at e x then some (eval e x) else none

/-! ## Structural facts -/

theorem identity_eq_self (e : expression) : identity e = e := by
  induction e <;> simp_all [identity]

theorem node_count_pos (e : expression) : 0 < node_count e := by
  cases e <;> simp [node_count]

theorem is_zero_iff (e : expression) : is_zero e = true ↔ e = const_ 0 := by
  cases e <;> simp [is_zero]

theorem is_one_iff (e : expression) : is_one e = true ↔ e = const_ 1 := by
  cases e <;> simp [is_one]

/-- One more unit of budget does not change a result already obtained. -/
theorem simplify_fuel_succ (n : Nat) :
    ∀ (e r : expression), simplify_fuel n e = some r → simplify_fuel (n + 1) e = some r := by
  induction n with
  | zero => intro e r h; simp [simplify_fuel] at h
  | succ n ih =>
    intro e r h
    cases e with
    | negation a =>
      rw [simplify_fuel] at h ⊢
      cases ha : simplify_fuel n a with
      | none => simp [ha] at h
      | some sa => rw [ih a sa ha]; simpa [ha] using h
    | addition a b =>
      rw [simplify_fuel] at h ⊢
      cases ha : simplify_fuel n a with
      | none => simp [ha] at h
      | some sa =>
        cases hb : simplify_fuel n b with
        | none => simp [ha, hb] at h
        | some sb => rw [ih a sa ha, ih b sb hb]; simpa [ha, hb] using h
    | subtraction a b =>
      rw [simplify_fuel] at h ⊢
      cases ha : simplify_fuel n a with
      | none => simp [ha] at h
      | some sa =>
        cases hb : simplify_fuel n b with
        | none => simp [ha, hb] at h
        | some sb =>
          rw [ih a sa ha, ih b sb hb]
          simp only [ha, hb] at h
          simp only
          split at h
          · rename_i hz; rw [if_pos hz]; exact ih _ _ h
          · rename_i hz; rw [if_neg hz]; exact h
    | multiplication a b =>
      rw [simplify_fuel] at h ⊢
      cases ha : simplify_fuel n a with
      | none => simp [ha] at h
      | some sa =>
        cases hb : simplify_fuel n b with
        | none => simp [ha, hb] at h
        | some sb => rw [ih a sa ha, ih b sb hb]; simpa [ha, hb] using h
    | division a b =>
      rw [simplify_fuel] at h ⊢
      cases ha : simplify_fuel n a with
      | none => simp [ha] at h
      | some sa =>
        cases hb : simplify_fuel n b with
        | none => simp [ha, hb] at h
        | some sb => rw [ih a sa ha, ih b sb hb]; simpa [ha, hb] using h
    | exponentiation a =>
      rw [simplify_fuel] at h ⊢
      cases ha : simplify_fuel n a with
      | none => simp [ha] at h
      | some sa => rw [ih a sa ha]; simpa [ha] using h
    | variable_ => simpa [simplify_fuel] using h
    | const_ v => simpa [simplify_fuel] using h
    | sine a => simpa [simplify_fuel] using h
    | cosine a => simpa [simplify_fuel] using h
    | tangent a => simpa [simplify_fuel] using h
    | logarithm a => simpa [simplify_fuel] using h

theorem simplify_fuel_mono {n m : Nat} (hnm : n ≤ m) (e r : expression)
    (h : simplify_fuel n e = some r) : simplify_fuel m e = some r := by
  induction hnm with
  | refl => exact h
  | step _ ih => exact simplify_fuel_succ _ e r ih

/-- A budget of one unit per node is enough, and the result has no more nodes
than the receiver. -/
theorem simplify_fuel_node_count (n : Nat) :
    ∀ e : expression, node_count e ≤ n →
      ∃ r, simplify_fuel n e = some r ∧ node_count r ≤ node_count e := by
  induction n with
  | zero => intro e h; have := node_count_pos e; omega
  | succ n ih =>
    intro e h
    cases e with
    | negation a =>
      simp only [node_count] at h ⊢
      obtain ⟨sa, ha, hsa⟩ := ih a (by omega)
      rw [simplify_fuel, ha]
      by_cases hz : is_zero sa = true
      · exact ⟨const_ 0, by simp [hz], by simp [node_count]⟩
      · exact ⟨negation sa, by simp [hz], by simp [node_count]; omega⟩
    | addition a b =>
      simp only [node_count] at h ⊢
      obtain ⟨sa, ha, hsa⟩ := ih a (by omega)
      obtain ⟨sb, hb, hsb⟩ := ih b (by omega)
      rw [simplify_fuel, ha, hb]
      by_cases hz : is_zero sa = true
      · exact ⟨sb, by simp [hz], by omega⟩
      · by_cases hz2 : is_zero sb = true
        · exact ⟨sa, by simp [hz, hz2], by omega⟩
        · exact ⟨addition sa sb, by simp [hz, hz2], by simp [node_count]; omega⟩
    | subtraction a b =>
      simp only [node_count] at h ⊢
      obtain ⟨sa, ha, hsa⟩ := ih a (by omega)
      obtain ⟨sb, hb, hsb⟩ := ih b (by omega)
      rw [simplify_fuel, ha, hb]
      by_cases hz : is_zero sa = true
      · have hpa := node_count_pos a
        obtain ⟨r, hr, hsr⟩ := ih (negation sb) (by simp [node_count]; omega)
        exact ⟨r, by simp [hz, hr], by simp [node_count] at hsr; omega⟩
      · by_cases hz2 : is_zero sb = true
        · exact ⟨sa, by simp [hz, hz2], by omega⟩
        · exact ⟨subtraction sa sb, by simp [hz, hz2], by simp [node_count]; omega⟩
    | multiplication a b =>
      simp only [node_count] at h ⊢
      obtain ⟨sa, ha, hsa⟩ := ih a (by omega)
      obtain ⟨sb, hb, hsb⟩ := ih b (by omega)
      rw [simplify_fuel, ha, hb]
      by_cases hz : is_zero sa = true
      · exact ⟨const_ 0, by simp [hz], by simp [node_count]⟩
      · by_cases ho : is_one sa = true
        · exact ⟨sb, by simp [hz, ho], by omega⟩
        · by_cases hz2 : is_zero sb = true
          · exact ⟨const_ 0, by simp [hz, ho, hz2], by simp [node_count]⟩
          · by_cases ho2 : is_one sb = true
            · exact ⟨sa, by simp [hz, ho, hz2, ho2], by omega⟩
            · exact ⟨multiplication sa sb, by simp [hz, ho, hz2, ho2],
                by simp [node_count]; omega⟩
    | division a b =>
      simp only [node_count] at h ⊢
      obtain ⟨sa, ha, hsa⟩ := ih a (by omega)
      obtain ⟨sb, hb, hsb⟩ := ih b (by omega)
      rw [simplify_fuel, ha, hb]
      by_cases hz : is_zero sa = true
      · exact ⟨const_ 0, by simp [hz], by simp [node_count]⟩
      · by_cases ho2 : is_one sb = true
        · exact ⟨sa, by simp [hz, ho2], by omega⟩
        · exact ⟨division sa sb, by simp [hz, ho2], by simp [node_count]; omega⟩
    | exponentiation a =>
      simp only [node_count] at h ⊢
      obtain ⟨sa, ha, hsa⟩ := ih a (by omega)
      rw [simplify_fuel, ha]
      by_cases hz : is_zero sa = true
      · exact ⟨const_ 1, by simp [hz], by simp [node_count]⟩
      · exact ⟨exponentiation sa, by simp [hz], by simp [node_count]; omega⟩
    | variable_ => exact ⟨variable_, by simp [simplify_fuel, identity], le_refl _⟩
    | const_ v => exact ⟨const_ v, by simp [simplify_fuel, identity], le_refl _⟩
    | sine a => exact ⟨sine a, by simp [simplify_fuel, identity_eq_self], le_refl _⟩
    | cosine a => exact ⟨cosine a, by simp [simplify_fuel, identity_eq_self], le_refl _⟩
    | tangent a => exact ⟨tangent a, by simp [simplify_fuel, identity_eq_self], le_refl _⟩
    | logarithm a => exact ⟨logarithm a, by simp [simplify_fuel, identity_eq_self], le_refl _⟩

/-- With enough budget the budgeted version returns what `simplify` returns. -/
theorem simplify_fuel_eq_simplify {n : Nat} {e : expression} (h : node_count e ≤ n) :
    simplify_fuel n e = some (simplify e) := by
  obtain ⟨r, hr, _⟩ := simplify_fuel_node_count (node_count e) e (le_refl _)
  have h1 : simplify e = r := by simp [simplify, hr]
  rw [h1]
  exact simplify_fuel_mono h e r hr

theorem node_count_simplify_le (e : expression) : node_count (simplify e) ≤ node_count e := by
  obtain ⟨r, hr, hle⟩ := simplify_fuel_node_count (node_count e) e (le_refl _)
  have h1 : simplify e = r := by simp [simplify, hr]
  rw [h1]; exact hle

/-- Unfolding one call of `simplify` on a node with `fuel + 1 = node_count`. -/
theorem simplify_unfold (e : expression) :
    some (simplify e) = simplify_fuel (node_count e - 1 + 1) e := by
  have := node_count_pos e
  rw [simplify_fuel_eq_simplify (by omega)]

/-! ### The body of each `simplify` override -/

theorem simplify_negation (a : expression) :
    simplify (negation a) =
      if is_zero (simplify a) then const_ 0 else negation (simplify a) := by
  have h := simplify_unfold (negation a)
  rw [simplify_fuel, simplify_fuel_eq_simplify (by simp [node_count])] at h
  simp only at h
  split_ifs at h ⊢ <;> exact Option.some.inj h

theorem simplify_addition (a b : expression) :
    simplify (addition a b) =
      if is_zero (simplify a) then simplify b
      else if is_zero (simplify b) then simplify a
      else addition (simplify a) (simplify b) := by
  have h := simplify_unfold (addition a b)
  rw [simplify_fuel, simplify_fuel_eq_simplify (by simp [node_count]),
    simplify_fuel_eq_simplify (by simp [node_count])] at h
  simp only at h
  split_ifs at h ⊢ <;> exact Option.some.inj h

theorem simplify_subtraction (a b : expression) :
    simplify (subtraction a b) =
      if is_zero (simplify a) then simplify (negation (simplify b))
      else if is_zero (simplify b) then simplify a
      else subtraction (simplify a) (simplify b) := by
  have h := simplify_unfold (subtraction a b)
  rw [simplify_fuel, simplify_fuel_eq_simplify (by simp [node_count]),
    simplify_fuel_eq_simplify (by simp [node_count])] at h
  simp only at h
  split_ifs at h ⊢
  · have hb := node_count_simplify_le b
    have ha := node_count_pos a
    rw [simplify_fuel_eq_simplify (by simp [node_count]; omega)] at h
    simpa using h
  · simpa using h
  · simpa using h

theorem simplify_multiplication (a b : expression) :
    simplify (multiplication a b) =
      if is_zero (simplify a) then const_ 0
      else if is_one (simplify a) then simplify b
      else if is_zero (simplify b) then const_ 0
      else if is_one (simplify b) then simplify a
      else multiplication (simplify a) (simplify b) := by
  have h := simplify_unfold (multiplication a b)
  rw [simplify_fuel, simplify_fuel_eq_simplify (by simp [node_count]),
    simplify_fuel_eq_simplify (by simp [node_count])] at h
  simp only at h
  split_ifs at h ⊢ <;> exact Option.some.inj h

theorem simplify_division (a b : expression) :
    simplify (division a b) =
      if is_zero (simplify a) then const_ 0
      else if is_one (simplify b) then simplify a
      else division (simplify a) (simplify b) := by
  have h := simplify_unfold (division a b)
  rw [simplify_fuel, simplify_fuel_eq_simplify (by simp [node_count]),
    simplify_fuel_eq_simplify (by simp [node_count])] at h
  simp only at h
  split_ifs at h ⊢ <;> exact Option.some.inj h

theorem simplify_exponentiation (a : expression) :
    simplify (exponentiation a) =
      if is_zero (simplify a) then const_ 1 else exponentiation (simplify a) := by
  have h := simplify_unfold (exponentiation a)
  rw [simplify_fuel, simplify_fuel_eq_simplify (by simp [node_count])] at h
  simp only at h
  split_ifs at h ⊢ <;> exact Option.some.inj h

theorem simplify_variable : simplify variable_ = variable_ := by
  simp [simplify, node_count, simplify_fuel, identity]

theorem simplify_const (v : ℚ) : simplify (const_ v) = const_ v := by
  simp [simplify, node_count, simplify_fuel, identity]

theorem simplify_sine (a : expression) : simplify (sine a) = sine a := by
  simp [simplify, node_count, simplify_fuel, identity_eq_self]

theorem simplify_cosine (a : expression) : simplify (cosine a) = cosine a := by
  simp [simplify, node_count, simplify_fuel, identity_eq_self]

theorem simplify_tangent (a : expression) : simplify (tangent a) = tangent a := by
  simp [simplify, node_count, simplify_fuel, identity_eq_self]

theorem simplify_logarithm (a : expression) : simplify (logarithm a) = logarithm a := by
  simp [simplify, node_count, simplify_fuel, identity_eq_self]

/-- Simplifying a second time changes nothing. -/
theorem simplify_simplify (e : expression) : simplify (simplify e) = simplify e := by
  induction e with
  | negation a iha =>
    rw [simplify_negation]
    split_ifs with hz
    · exact simplify_const 0
    · rw [simplify_negation, iha, if_neg hz]
  | addition a b iha ihb =>
    rw [simplify_addition]
    split_ifs with hz hz2
    · exact ihb
    · exact iha
    · rw [simplify_addition, iha, ihb, if_neg hz, if_neg hz2]
  | subtraction a b iha ihb =>
    rw [simplify_subtraction]
    split_ifs with hz hz2
    · rw [simplify_negation, ihb]
      split_ifs with hz3
      · exact simplify_const 0
      · rw [simplify_negation, ihb, if_neg hz3]
    · exact iha
    · rw [simplify_subtraction, iha, ihb, if_neg hz, if_neg hz2]
  | multiplication a b iha ihb =>
    rw [simplify_multiplication]
    split_ifs with hz ho hz2 ho2
    · exact simplify_const 0
    · exact ihb
    · exact simplify_const 0
    · exact iha
    · rw [simplify_multiplication, iha, ihb, if_neg hz, if_neg ho, if_neg hz2, if_neg ho2]
  | division a b iha ihb =>
    rw [simplify_division]
    split_ifs with hz ho2
    · exact simplify_const 0
    · exact iha
    · rw [simplify_division, iha, ihb, if_neg hz, if_neg ho2]
  | exponentiation a iha =>
    rw [simplify_exponentiation]
    split_ifs with hz
    · exact simplify_const 1
    · rw [simplify_exponentiation, iha, if_neg hz]
  | variable_ => rw [simplify_variable, simplify_variable]
  | const_ v => rw [simplify_const, simplify_const]
  | sine a _ => rw [simplify_sine, simplify_sine]
  | cosine a _ => rw [simplify_cosine, simplify_cosine]
  | tangent a _ => rw [simplify_tangent, simplify_tangent]
  | logarithm a _ => rw [simplify_logarithm, simplify_logarithm]

/-! ## The recursion budget of the parser -/

theorem parse_fuel_succ (n : Nat) :
    (∀ s, parse_addition n s ≠ .error .out_of_budget →
      parse_addition (n + 1) s = parse_addition n s) ∧
    (∀ lhs s, addition_loop n lhs s ≠ .error .out_of_budget →
      addition_loop (n + 1) lhs s = addition_loop n lhs s) ∧
    (∀ s, parse_multiplication n s ≠ .error .out_of_budget →
      parse_multiplication (n + 1) s = parse_multiplication n s) ∧
    (∀ lhs s, multiplication_loop n lhs s ≠ .error .out_of_budget →
      multiplication_loop (n + 1) lhs s = multiplication_loop n lhs s) ∧
    (∀ s, parse_unary n s ≠ .error .out_of_budget →
      parse_unary (n + 1) s = parse_unary n s) ∧
    (∀ s, parse_parenthesis n s ≠ .error .out_of_budget →
      parse_parenthesis (n + 1) s = parse_parenthesis n s) := by
  induction n with
  | zero =>
    refine ⟨?_, ?_, ?_, ?_, ?_, ?_⟩ <;> intros <;>
      simp_all [parse_addition, addition_loop, parse_multiplication, multiplication_loop,
        parse_unary, parse_parenthesis]
  | succ n ih =>
    obtain ⟨iha, ihal, ihm, ihml, ihu, ihp⟩ := ih
    refine ⟨?_, ?_, ?_, ?_, ?_, ?_⟩
    · intro s h
      rw [parse_addition] at h
      rw [parse_addition, parse_addition]
      cases hm : parse_multiplication n s with
      | error err =>
        rw [hm] at h
        rw [ihm s (by rw [hm]; exact h), hm]
      | ok p =>
        obtain ⟨lhs, s1⟩ := p
        rw [hm] at h
        rw [ihm s (by rw [hm]; simp), hm]
        exact ihal lhs s1 h
    · intro lhs s h
      rw [addition_loop] at h
      rw [addition_loop, addition_loop]
      split_ifs at h ⊢ with h1 h2 h3
      · rfl
      · cases hm : parse_multiplication n (advance s) with
        | error err =>
          rw [hm] at h
          rw [ihm _ (by rw [hm]; exact h), hm]
        | ok p =>
          obtain ⟨rhs, s1⟩ := p
          rw [hm] at h
          rw [ihm _ (by rw [hm]; simp), hm]
          exact ihal _ s1 h
      · cases hm : parse_multiplication n (advance s) with
        | error err =>
          rw [hm] at h
          rw [ihm _ (by rw [hm]; exact h), hm]
        | ok p =>
          obtain ⟨rhs, s1⟩ := p
          rw [hm] at h
          rw [ihm _ (by rw [hm]; simp), hm]
          exact ihal _ s1 h
      · rfl
    · intro s h
      rw [parse_multiplication] at h
      rw [parse_multiplication, parse_multiplication]
      cases hm : parse_unary n s with
      | error err =>
        rw [hm] at h
        rw [ihu s (by rw [hm]; exact h), hm]
      | ok p =>
        obtain ⟨lhs, s1⟩ := p
        rw [hm] at h
        rw [ihu s (by rw [hm]; simp), hm]
        exact ihml lhs s1 h
    · intro lhs s h
      rw [multiplication_loop] at h
      rw [multiplication_loop, multiplication_loop]
      split_ifs at h ⊢ with h1 h2 h3
      · rfl
      · cases hm : parse_unary n (advance s) with
        | error err =>
          rw [hm] at h
          rw [ihu _ (by rw [hm]; exact h), hm]
        | ok p =>
          obtain ⟨rhs, s1⟩ := p
          rw [hm] at h
          rw [ihu _ (by rw [hm]; simp), hm]
          exact ihml _ s1 h
      · cases hm : parse_unary n (advance s) with
        | error err =>
          rw [hm] at h
          rw [ihu _ (by rw [hm]; exact h), hm]
        | ok p =>
          obtain ⟨rhs, s1⟩ := p
          rw [hm] at h
          rw [ihu _ (by rw [hm]; simp), hm]
          exact ihml _ s1 h
      · rfl
    · intro s h
      rw [parse_unary] at h
      conv_lhs => rw [parse_unary]
      conv_rhs => rw [parse_unary]
      have sub : ∀ (t : List Char) (f : expression → expression),
          (match parse_unary n t with
            | .error err => (Except.error err : parse_result)
            | .ok (arg, s1) => .ok (f arg, s1)) ≠ .error .out_of_budget →
          (match parse_unary (n + 1) t with
            | .error err => (Except.error err : parse_result)
            | .ok (arg, s1) => .ok (f arg, s1)) =
          (match parse_unary n t with
            | .error err => (Except.error err : parse_result)
            | .ok (arg, s1) => .ok (f arg, s1)) := by
        intro t f h
        cases hm : parse_unary n t with
        | error err =>
          rw [hm] at h
          rw [ihu _ (by rw [hm]; exact h), hm]
        | ok p =>
          obtain ⟨rhs, s1⟩ := p
          rw [ihu _ (by rw [hm]; simp), hm]
      by_cases h1 : eof s = true
      · simp only [h1, ↓reduceIte, Bool.false_eq_true]
      simp only [h1, ↓reduceIte, Bool.false_eq_true] at h ⊢
      by_cases h2 : peek s = '('
      · simp only [h2, ↓reduceIte, Bool.false_eq_true] at h ⊢; exact ihp s h
      simp only [h2, ↓reduceIte, Bool.false_eq_true] at h ⊢
      by_cases h3 : peek s = '+'
      · simp only [h3, ↓reduceIte, Bool.false_eq_true] at h ⊢; exact ihu _ h
      simp only [h3, ↓reduceIte, Bool.false_eq_true] at h ⊢
      by_cases h4 : peek s = '-'
      · simp only [h4, ↓reduceIte, Bool.false_eq_true] at h ⊢; exact sub _ _ h
      simp only [h4, ↓reduceIte, Bool.false_eq_true] at h ⊢
      by_cases h5 : (peek s).isAlpha = true
      · simp only [h5, ↓reduceIte, Bool.false_eq_true] at h ⊢
        by_cases i1 : (parse_identifier s).1 = ['x']
        · simp only [i1, ↓reduceIte, Bool.false_eq_true]
        simp only [i1, ↓reduceIte, Bool.false_eq_true] at h ⊢
        by_cases i2 : (parse_identifier s).1 = ['s', 'i', 'n']
        · simp only [i2, ↓reduceIte, Bool.false_eq_true] at h ⊢; exact sub _ _ h
        simp only [i2, ↓reduceIte, Bool.false_eq_true] at h ⊢
        by_cases i3 : (parse_identifier s).1 = ['c', 'o', 's']
        · simp only [i3, ↓reduceIte, Bool.false_eq_true] at h ⊢; exact sub _ _ h
        simp only [i3, ↓reduceIte, Bool.false_eq_true] at h ⊢
        by_cases i4 : (parse_identifier s).1 = ['t', 'a', 'n']
        · simp only [i4, ↓reduceIte, Bool.false_eq_true] at h ⊢; exact sub _ _ h
        simp only [i4, ↓reduceIte, Bool.false_eq_true] at h ⊢
        by_cases i5 : (parse_identifier s).1 = ['e', 'x', 'p']
        · simp only [i5, ↓reduceIte, Bool.false_eq_true] at h ⊢; exact sub _ _ h
        simp only [i5, ↓reduceIte, Bool.false_eq_true] at h ⊢
        by_cases i6 : (parse_identifier s).1 = ['l', 'o', 'g']
        · simp only [i6, ↓reduceIte, Bool.false_eq_true] at h ⊢; exact sub _ _ h
        simp only [i6, ↓reduceIte, Bool.false_eq_true] at h ⊢
      · simp only [h5, ↓reduceIte, Bool.false_eq_true] at h ⊢
    · intro s h
      rw [parse_parenthesis] at h
      rw [parse_parenthesis, parse_parenthesis]
      cases hm : parse_addition n (advance s) with
      | error err =>
        rw [hm] at h
        rw [iha _ (by rw [hm]; exact h), hm]
      | ok p =>
        obtain ⟨inner, s1⟩ := p
        rw [iha _ (by rw [hm]; simp), hm]

/-- A larger budget does not change a result obtained within the budget. -/
theorem parse_addition_mono {n m : Nat} (hnm : n ≤ m) (s : List Char)
    (h : parse_addition n s ≠ .error .out_of_budget) :
    parse_addition m s = parse_addition n s := by
  induction hnm with
  | refl => rfl
  | step _ ih => rw [(parse_fuel_succ _).1 s (by rw [ih]; exact h), ih]

theorem addition_loop_mono {n m : Nat} (hnm : n ≤ m) (lhs : expression) (s : List Char)
    (h : addition_loop n lhs s ≠ .error .out_of_budget) :
    addition_loop m lhs s = addition_loop n lhs s := by
  induction hnm with
  | refl => rfl
  | step _ ih => rw [(parse_fuel_succ _).2.1 lhs s (by rw [ih]; exact h), ih]

theorem parse_multiplication_mono {n m : Nat} (hnm : n ≤ m) (s : List Char)
    (h : parse_multiplication n s ≠ .error .out_of_budget) :
    parse_multiplication m s = parse_multiplication n s := by
  induction hnm with
  | refl => rfl
  | step _ ih => rw [(parse_fuel_succ _).2.2.1 s (by rw [ih]; exact h), ih]

theorem multiplication_loop_mono {n m : Nat} (hnm : n ≤ m) (lhs : expression)
    (s : List Char) (h : multiplication_loop n lhs s ≠ .error .out_of_budget) :
    multiplication_loop m lhs s = multiplication_loop n lhs s := by
  induction hnm with
  | refl => rfl
  | step _ ih => rw [(parse_fuel_succ _).2.2.2.1 lhs s (by rw [ih]; exact h), ih]

theorem parse_unary_mono {n m : Nat} (hnm : n ≤ m) (s : List Char)
    (h : parse_unary n s ≠ .error .out_of_budget) :
    parse_unary m s = parse_unary n s := by
  induction hnm with
  | refl => rfl
  | step _ ih => rw [(parse_fuel_succ _).2.2.2.2.1 s (by rw [ih]; exact h), ih]

theorem parse_parenthesis_mono {n m : Nat} (hnm : n ≤ m) (s : List Char)
    (h : parse_parenthesis n s ≠ .error .out_of_budget) :
    parse_parenthesis m s = parse_parenthesis n s := by
  induction hnm with
  | refl => rfl
  | step _ ih => rw [(parse_fuel_succ _).2.2.2.2.2 s (by rw [ih]; exact h), ih]

/-! ### One step of each parser function -/

/-- The body of `parse_unary`, the five function names folded into
`function_node`. -/
theorem parse_unary_succ (n : Nat) (s : List Char) :
    parse_unary (n + 1) s =
      if eof s = true then .error (.runtime_error "unexcepted eof")
      else if peek s = '(' then parse_parenthesis n s
      else if peek s = '+' then parse_unary n (advance s)
      else if peek s = '-' then apply_node negation (parse_unary n (advance s))
      else if (peek s).isAlpha = true then
        if (parse_identifier s).1 = ['x'] then .ok (variable_, (parse_identifier s).2)
        else match function_node (parse_identifier s).1 with
          | some f => apply_node f (parse_unary n (parse_identifier s).2)
          | none => .error (.runtime_error "syntax error")
      else if is_digit_or_dot (peek s) = true then
        match lexical_cast (parse_literal s).1 with
        | none => .error .bad_lexical_cast
        | some value => .ok (const_ value, (parse_literal s).2)
      else .error (.runtime_error "syntax error") := by
  rw [parse_unary]
  by_cases h1 : eof s = true
  · simp only [h1, ↓reduceIte]
  simp only [h1, ↓reduceIte, Bool.false_eq_true]
  by_cases h2 : peek s = '('
  · simp only [h2, ↓reduceIte]
  simp only [h2, ↓reduceIte]
  by_cases h3 : peek s = '+'
  · simp only [h3, ↓reduceIte]
  simp only [h3, ↓reduceIte]
  by_cases h4 : peek s = '-'
  · simp only [h4, ↓reduceIte]; rfl
  simp only [h4, ↓reduceIte]
  by_cases h5 : (peek s).isAlpha = true
  · simp only [h5, ↓reduceIte]
    by_cases i1 : (parse_identifier s).1 = ['x']
    · simp only [i1, ↓reduceIte]
    simp only [i1, ↓reduceIte]
    unfold function_node
    by_cases i2 : (parse_identifier s).1 = ['s', 'i', 'n']
    · simp only [i2, ↓reduceIte]; rfl
    simp only [i2, ↓reduceIte]
    by_cases i3 : (parse_identifier s).1 = ['c', 'o', 's']
    · simp only [i3, ↓reduceIte]; rfl
    simp only [i3, ↓reduceIte]
    by_cases i4 : (parse_identifier s).1 = ['t', 'a', 'n']
    · simp only [i4, ↓reduceIte]; rfl
    simp only [i4, ↓reduceIte]
    by_cases i5 : (parse_identifier s).1 = ['e', 'x', 'p']
    · simp only [i5, ↓reduceIte]; rfl
    simp only [i5, ↓reduceIte]
    by_cases i6 : (parse_identifier s).1 = ['l', 'o', 'g']
    · simp only [i6, ↓reduceIte]; rfl
    simp only [i6, ↓reduceIte]
  · simp only [h5, ↓reduceIte, Bool.false_eq_true]

theorem apply_node_ok {f : expression → expression} {r : parse_result} {e : expression}
    {s : List Char} (h : apply_node f r = .ok (e, s)) :
    ∃ arg, r = .ok (arg, s) ∧ e = f arg := by
  cases r with
  | error err => simp [apply_node] at h
  | ok p =>
    obtain ⟨arg, s1⟩ := p
    simp only [apply_node, Except.ok.injEq, Prod.mk.injEq] at h
    exact ⟨arg, by rw [h.2], h.1.symm⟩

theorem apply_node_budget {f : expression → expression} {r : parse_result} :
    apply_node f r = .error .out_of_budget ↔ r = .error .out_of_budget := by
  cases r with
  | error err => simp [apply_node]
  | ok p => simp [apply_node]

/-! ### Positions only move forward -/

theorem length_skip_ws_le (s : List Char) : (skip_ws s).length ≤ s.length := by
  induction s with
  | nil => simp [skip_ws]
  | cons c s ih =>
    rw [skip_ws]
    split_ifs
    · simp only [List.length_cons]; omega
    · exact le_refl _

theorem eof_iff (s : List Char) : eof s = true ↔ skip_ws s = [] := by
  simp [eof]

theorem length_advance_le (s : List Char) : (advance s).length ≤ s.length := by
  have := length_skip_ws_le s
  simp only [advance, List.length_tail]
  omega

theorem length_advance_lt {s : List Char} (h : eof s ≠ true) :
    (advance s).length < s.length := by
  have := length_skip_ws_le s
  rw [Ne, eof_iff] at h
  have hpos : 0 < (skip_ws s).length := List.length_pos.2 h
  simp only [advance, List.length_tail]
  omega

theorem length_identifier_loop_le (s : List Char) :
    (identifier_loop s).2.length ≤ s.length := by
  induction s with
  | nil => simp [identifier_loop]
  | cons c s ih =>
    rw [identifier_loop]
    split_ifs
    · simp only [List.length_cons]; omega
    · exact le_refl _

theorem length_literal_loop_le (s : List Char) :
    (literal_loop s).2.length ≤ s.length := by
  induction s with
  | nil => simp [literal_loop]
  | cons c s ih =>
    rw [literal_loop]
    split_ifs
    · simp only [List.length_cons]; omega
    · exact le_refl _

theorem length_parse_identifier_lt {s : List Char} (h1 : eof s ≠ true)
    (h2 : (peek s).isAlpha = true) : (parse_identifier s).2.length < s.length := by
  have hle := length_skip_ws_le s
  rw [Ne, eof_iff] at h1
  unfold parse_identifier
  unfold peek at h2
  cases hs : skip_ws s with
  | nil => exact absurd hs h1
  | cons c t =>
    rw [hs] at h2 hle
    simp only [List.headD_cons] at h2
    rw [identifier_loop, if_pos h2]
    have := length_identifier_loop_le t
    simp only [List.length_cons] at hle ⊢
    omega

theorem length_parse_literal_le (s : List Char) :
    (parse_literal s).2.length ≤ s.length := by
  have hle := length_skip_ws_le s
  have := length_literal_loop_le (skip_ws s)
  unfold parse_literal
  omega

theorem parse_length_le (n : Nat) :
    (∀ s e s1, parse_addition n s = .ok (e, s1) → s1.length ≤ s.length) ∧
    (∀ lhs s e s1, addition_loop n lhs s = .ok (e, s1) → s1.length ≤ s.length) ∧
    (∀ s e s1, parse_multiplication n s = .ok (e, s1) → s1.length ≤ s.length) ∧
    (∀ lhs s e s1, multiplication_loop n lhs s = .ok (e, s1) → s1.length ≤ s.length) ∧
    (∀ s e s1, parse_unary n s = .ok (e, s1) → s1.length ≤ s.length) ∧
    (∀ s e s1, parse_parenthesis n s = .ok (e, s1) → s1.length ≤ s.length) := by
  induction n with
  | zero =>
    refine ⟨?_, ?_, ?_, ?_, ?_, ?_⟩ <;> intros <;>
      simp_all [parse_addition, addition_loop, parse_multiplication, multiplication_loop,
        parse_unary, parse_parenthesis]
  | succ n ih =>
    obtain ⟨iha, ihal, ihm, ihml, ihu, ihp⟩ := ih
    refine ⟨?_, ?_, ?_, ?_, ?_, ?_⟩
    · intro s e s1 h
      rw [parse_addition] at h
      cases hm : parse_multiplication n s with
      | error err => rw [hm] at h; simp at h
      | ok p =>
        obtain ⟨lhs, s2⟩ := p
        rw [hm] at h
        have := ihm _ _ _ hm
        have := ihal _ _ _ _ h
        omega
    · intro lhs s e s1 h
      rw [addition_loop] at h
      have hsk := length_skip_ws_le s
      have hadv := length_advance_le s
      split_ifs at h with h1 h2 h3
      · simp only [Except.ok.injEq, Prod.mk.injEq] at h; rw [← h.2]; exact hsk
      · cases hm : parse_multiplication n (advance s) with
        | error err => rw [hm] at h; simp at h
        | ok p =>
          obtain ⟨rhs, s2⟩ := p
          rw [hm] at h
          have := ihm _ _ _ hm
          have := ihal _ _ _ _ h
          omega
      · cases hm : parse_multiplication n (advance s) with
        | error err => rw [hm] at h; simp at h
        | ok p =>
          obtain ⟨rhs, s2⟩ := p
          rw [hm] at h
          have := ihm _ _ _ hm
          have := ihal _ _ _ _ h
          omega
      · simp only [Except.ok.injEq, Prod.mk.injEq] at h; rw [← h.2]; exact hsk
    · intro s e s1 h
      rw [parse_multiplication] at h
      cases hm : parse_unary n s with
      | error err => rw [hm] at h; simp at h
      | ok p =>
        obtain ⟨lhs, s2⟩ := p
        rw [hm] at h
        have := ihu _ _ _ hm
        have := ihml _ _ _ _ h
        omega
    · intro lhs s e s1 h
      rw [multiplication_loop] at h
      have hsk := length_skip_ws_le s
      have hadv := length_advance_le s
      split_ifs at h with h1 h2 h3
      · simp only [Except.ok.injEq, Prod.mk.injEq] at h; rw [← h.2]; exact hsk
      · cases hm : parse_unary n (advance s) with
        | error err => rw [hm] at h; simp at h
        | ok p =>
          obtain ⟨rhs, s2⟩ := p
          rw [hm] at h
          have := ihu _ _ _ hm
          have := ihml _ _ _ _ h
          omega
      · cases hm : parse_unary n (advance s) with
        | error err => rw [hm] at h; simp at h
        | ok p =>
          obtain ⟨rhs, s2⟩ := p
          rw [hm] at h
          have := ihu _ _ _ hm
          have := ihml _ _ _ _ h
          omega
      · simp only [Except.ok.injEq, Prod.mk.injEq] at h; rw [← h.2]; exact hsk
    · intro s e s1 h
      rw [parse_unary_succ] at h
      have hadv := length_advance_le s
      split_ifs at h with h1 h2 h3 h4 h5 h6 h7
      · exact ihp _ _ _ h
      · have := ihu _ _ _ h; omega
      · obtain ⟨arg, harg, _⟩ := apply_node_ok h
        have := ihu _ _ _ harg; omega
      · simp only [Except.ok.injEq, Prod.mk.injEq] at h
        rw [← h.2]; exact le_of_lt (length_parse_identifier_lt h1 h5)
      · have hid := length_parse_identifier_lt h1 h5
        cases hf : function_node (parse_identifier s).1 with
        | none => rw [hf] at h; simp at h
        | some f =>
          rw [hf] at h
          obtain ⟨arg, harg, _⟩ := apply_node_ok h
          have := ihu _ _ _ harg; omega
      · cases hl : lexical_cast (parse_literal s).1 with
        | none => rw [hl] at h; simp at h
        | some v =>
          rw [hl] at h
          simp only [Except.ok.injEq, Prod.mk.injEq] at h
          rw [← h.2]; exact length_parse_literal_le s
    · intro s e s1 h
      rw [parse_parenthesis] at h
      have hadv := length_advance_le s
      cases hm : parse_addition n (advance s) with
      | error err => rw [hm] at h; simp at h
      | ok p =>
        obtain ⟨inner, s2⟩ := p
        rw [hm] at h
        have := iha _ _ _ hm
        have hadv2 := length_advance_le s2
        simp only at h
        split_ifs at h
        simp only [Except.ok.injEq, Prod.mk.injEq] at h
        rw [← h.2]; omega

/-! ### The budget of `parse` is never used up -/

theorem parse_in_budget (n : Nat) :
    (∀ s, 4 * s.length + 3 ≤ n → parse_addition n s ≠ .error .out_of_budget) ∧
    (∀ lhs s, 4 * s.length + 1 ≤ n → addition_loop n lhs s ≠ .error .out_of_budget) ∧
    (∀ s, 4 * s.length + 2 ≤ n → parse_multiplication n s ≠ .error .out_of_budget) ∧
    (∀ lhs s, 4 * s.length + 1 ≤ n →
      multiplication_loop n lhs s ≠ .error .out_of_budget) ∧
    (∀ s, 4 * s.length + 1 ≤ n → parse_unary n s ≠ .error .out_of_budget) ∧
    (∀ s, eof s ≠ true → 4 * s.length ≤ n →
      parse_parenthesis n s ≠ .error .out_of_budget) := by
  induction n with
  | zero =>
    refine ⟨?_, ?_, ?_, ?_, ?_, ?_⟩
    · intro s h; omega
    · intro _ s h; omega
    · intro s h; omega
    · intro _ s h; omega
    · intro s h; omega
    · intro s he h
      have := length_advance_lt he
      omega
  | succ n ih =>
    obtain ⟨iha, ihal, ihm, ihml, ihu, ihp⟩ := ih
    refine ⟨?_, ?_, ?_, ?_, ?_, ?_⟩
    · intro s hn
      rw [parse_addition]
      cases hm : parse_multiplication n s with
      | error err =>
        have := ihm s (by omega)
        rw [hm] at this
        exact this
      | ok p =>
        obtain ⟨lhs, s1⟩ := p
        have := (parse_length_le n).2.2.1 _ _ _ hm
        exact ihal _ _ (by omega)
    · intro lhs s hn
      rw [addition_loop]
      split_ifs with h1 h2 h3
      · simp
      · have hadv := length_advance_lt h1
        cases hm : parse_multiplication n (advance s) with
        | error err =>
          have := ihm (advance s) (by omega)
          rw [hm] at this
          exact this
        | ok p =>
          obtain ⟨rhs, s1⟩ := p
          have := (parse_length_le n).2.2.1 _ _ _ hm
          exact ihal _ _ (by omega)
      · have hadv := length_advance_lt h1
        cases hm : parse_multiplication n (advance s) with
        | error err =>
          have := ihm (advance s) (by omega)
          rw [hm] at this
          exact this
        | ok p =>
          obtain ⟨rhs, s1⟩ := p
          have := (parse_length_le n).2.2.1 _ _ _ hm
          exact ihal _ _ (by omega)
      · simp
    · intro s hn
      rw [parse_multiplication]
      cases hm : parse_unary n s with
      | error err =>
        have := ihu s (by omega)
        rw [hm] at this
        exact this
      | ok p =>
        obtain ⟨lhs, s1⟩ := p
        have := (parse_length_le n).2.2.2.2.1 _ _ _ hm
        exact ihml _ _ (by omega)
    · intro lhs s hn
      rw [multiplication_loop]
      split_ifs with h1 h2 h3
      · simp
      · have hadv := length_advance_lt h1
        cases hm : parse_unary n (advance s) with
        | error err =>
          have := ihu (advance s) (by omega)
          rw [hm] at this
          exact this
        | ok p =>
          obtain ⟨rhs, s1⟩ := p
          have := (parse_length_le n).2.2.2.2.1 _ _ _ hm
          exact ihml _ _ (by omega)
      · have hadv := length_advance_lt h1
        cases hm : parse_unary n (advance s) with
        | error err =>
          have := ihu (advance s) (by omega)
          rw [hm] at this
          exact this
        | ok p =>
          obtain ⟨rhs, s1⟩ := p
          have := (parse_length_le n).2.2.2.2.1 _ _ _ hm
          exact ihml _ _ (by omega)
      · simp
    · intro s hn
      rw [parse_unary_succ]
      split_ifs with h1 h2 h3 h4 h5 h6 h7
      · simp
      · exact ihp s h1 (by omega)
      · have hadv := length_advance_lt h1
        exact ihu _ (by omega)
      · have hadv := length_advance_lt h1
        rw [Ne, apply_node_budget]
        exact ihu _ (by omega)
      · simp
      · have hid := length_parse_identifier_lt h1 h5
        cases hf : function_node (parse_identifier s).1 with
        | none => simp
        | some f =>
          simp only
          rw [Ne, apply_node_budget]
          exact ihu _ (by omega)
      · cases hl : lexical_cast (parse_literal s).1 <;> simp
      · simp
    · intro s he hn
      rw [parse_parenthesis]
      have hadv := length_advance_lt he
      cases hm : parse_addition n (advance s) with
      | error err =>
        have := iha (advance s) (by omega)
        rw [hm] at this
        exact this
      | ok p =>
        obtain ⟨inner, s1⟩ := p
        simp only
        split_ifs <;> simp

theorem parse_addition_in_budget (s : List Char) :
    parse_addition (parse_budget s) s ≠ .error .out_of_budget :=
  (parse_in_budget _).1 s (by unfold parse_budget; omega)

/-- A result obtained within some budget is the result within the budget of
`parse`. -/
theorem parse_addition_budget_eq {n : Nat} {s : List Char} {r : parse_result}
    (h : parse_addition n s = r) (hr : r ≠ .error .out_of_budget) :
    parse_addition (parse_budget s) s = r := by
  have h1 := parse_addition_mono (le_max_left n (parse_budget s)) s (by rw [h]; exact hr)
  have h2 := parse_addition_mono (le_max_right n (parse_budget s)) s
    (parse_addition_in_budget s)
  rw [← h2, h1, h]

theorem parse_of_parse_addition {n : Nat} {s : String} {e : expression} {s1 : List Char}
    (h : parse_addition n s.toList = .ok (e, s1)) (hs : eof s1 = true) :
    parse s = .ok e := by
  unfold parse
  rw [parse_addition_budget_eq h (by simp)]
  simp [hs]

/-- `parse` returns a tree or one of the program's exceptions, never the
marker of an exhausted budget. -/
theorem parse_ne_out_of_budget (s : String) : parse s ≠ .error .out_of_budget := by
  unfold parse
  have h := parse_addition_in_budget s.toList
  cases hp : parse_addition (parse_budget s.toList) s.toList with
  | error err =>
    rw [hp] at h
    simpa using h
  | ok p =>
    obtain ⟨r, s1⟩ := p
    simp only
    split_ifs <;> simp

/-! ### Reading the position -/

@[simp] theorem skip_ws_nil : skip_ws [] = [] := rfl

@[simp] theorem skip_ws_blank (s : List Char) : skip_ws (' ' :: s) = skip_ws s := by
  simp [skip_ws]

theorem skip_ws_cons {c : Char} (h : c ≠ ' ') (s : List Char) : skip_ws (c :: s) = c :: s := by
  simp [skip_ws, h]

theorem skip_ws_head_ne (s : List Char) : ∀ c ∈ (skip_ws s).head?, c ≠ ' ' := by
  induction s with
  | nil => simp
  | cons c s ih =>
    rw [skip_ws]
    split_ifs with h
    · exact ih
    · simpa using h

@[simp] theorem skip_ws_skip_ws (s : List Char) : skip_ws (skip_ws s) = skip_ws s := by
  have h := skip_ws_head_ne s
  cases hs : skip_ws s with
  | nil => rfl
  | cons c t =>
    rw [hs] at h
    exact skip_ws_cons (h c (by simp)) t

@[simp] theorem skip_ws_replicate (k : Nat) (s : List Char) :
    skip_ws (List.replicate k ' ' ++ s) = skip_ws s := by
  induction k with
  | zero => simp
  | succ k ih => simp [List.replicate_succ, ih]

@[simp] theorem eof_skip_ws (s : List Char) : eof (skip_ws s) = eof s := by simp [eof]

@[simp] theorem peek_skip_ws (s : List Char) : peek (skip_ws s) = peek s := by simp [peek]

@[simp] theorem advance_skip_ws (s : List Char) : advance (skip_ws s) = advance s := by
  simp [advance]

@[simp] theorem parse_identifier_skip_ws (s : List Char) :
    parse_identifier (skip_ws s) = parse_identifier s := by simp [parse_identifier]

@[simp] theorem parse_literal_skip_ws (s : List Char) :
    parse_literal (skip_ws s) = parse_literal s := by simp [parse_literal]

theorem eof_cons {c : Char} (h : c ≠ ' ') (s : List Char) : eof (c :: s) = false := by
  simp [eof, skip_ws_cons h]

theorem peek_cons {c : Char} (h : c ≠ ' ') (s : List Char) : peek (c :: s) = c := by
  simp [peek, skip_ws_cons h]

theorem advance_cons {c : Char} (h : c ≠ ' ') (s : List Char) : advance (c :: s) = s := by
  simp [advance, skip_ws_cons h]

/-- No parser function distinguishes a position from the one after the
blanks that follow it. -/
theorem parse_skip_ws (n : Nat) (s : List Char) :
    parse_unary n (skip_ws s) = parse_unary n s ∧
    parse_parenthesis n (skip_ws s) = parse_parenthesis n s ∧
    parse_multiplication n (skip_ws s) = parse_multiplication n s ∧
    parse_addition n (skip_ws s) = parse_addition n s ∧
    (∀ lhs, multiplication_loop n lhs (skip_ws s) = multiplication_loop n lhs s) ∧
    (∀ lhs, addition_loop n lhs (skip_ws s) = addition_loop n lhs s) := by
  have hu : ∀ m, parse_unary m (skip_ws s) = parse_unary m s := by
    intro m
    cases m with
    | zero => simp [parse_unary]
    | succ m =>
      have hp : parse_parenthesis m (skip_ws s) = parse_parenthesis m s := by
        cases m with
        | zero => simp [parse_parenthesis]
        | succ m => rw [parse_parenthesis, parse_parenthesis, advance_skip_ws]
      rw [parse_unary_succ, parse_unary_succ]
      simp only [eof_skip_ws, peek_skip_ws, advance_skip_ws, parse_identifier_skip_ws,
        parse_literal_skip_ws, hp]
  have hm : ∀ m, parse_multiplication m (skip_ws s) = parse_multiplication m s := by
    intro m
    cases m with
    | zero => simp [parse_multiplication]
    | succ m => rw [parse_multiplication, parse_multiplication, hu]
  refine ⟨hu n, ?_, hm n, ?_, ?_, ?_⟩
  · cases n with
    | zero => simp [parse_parenthesis]
    | succ m => rw [parse_parenthesis, parse_parenthesis, advance_skip_ws]
  · cases n with
    | zero => simp [parse_addition]
    | succ m => rw [parse_addition, parse_addition, hm]
  · intro lhs
    cases n with
    | zero => simp [multiplication_loop]
    | succ m =>
      rw [multiplication_loop, multiplication_loop]
      simp only [eof_skip_ws, peek_skip_ws, advance_skip_ws, skip_ws_skip_ws]
  · intro lhs
    cases n with
    | zero => simp [addition_loop]
    | succ m =>
      rw [addition_loop, addition_loop]
      simp only [eof_skip_ws, peek_skip_ws, advance_skip_ws, skip_ws_skip_ws]

/-! ### Rules for the parser functions, free of the budget -/

theorem isAlpha_of_isDigit (c : Char) (h : c.isDigit = true) : c.isAlpha = false := by
  simp only [Char.isAlpha, Char.isUpper, Char.isLower, Char.isDigit] at h ⊢
  simp only [Bool.and_eq_true, decide_eq_true_eq, ge_iff_le] at h
  simp only [Bool.or_eq_false_iff, Bool.and_eq_false_imp, decide_eq_true_eq,
    decide_eq_false_iff_not]
  simp only [ge_iff_le, UInt32.le_def, Fin.le_def] at h ⊢
  have e1 : (UInt32.toBitVec 48).toNat = 48 := rfl
  have e2 : (UInt32.toBitVec 57).toNat = 57 := rfl
  have e3 : (UInt32.toBitVec 65).toNat = 65 := rfl
  have e4 : (UInt32.toBitVec 90).toNat = 90 := rfl
  have e5 : (UInt32.toBitVec 97).toNat = 97 := rfl
  have e6 : (UInt32.toBitVec 122).toNat = 122 := rfl
  constructor <;> intro _ <;> bv_omega

theorem unary_parses_skip_ws {s : List Char} {e : expression} {s1 : List Char} :
    unary_parses (skip_ws s) e s1 ↔ unary_parses s e s1 := by
  unfold unary_parses
  simp only [(parse_skip_ws _ s).1]

theorem multiplication_parses_skip_ws {s : List Char} {e : expression} {s1 : List Char} :
    multiplication_parses (skip_ws s) e s1 ↔ multiplication_parses s e s1 := by
  unfold multiplication_parses
  simp only [(parse_skip_ws _ s).2.2.1]

theorem addition_parses_skip_ws {s : List Char} {e : expression} {s1 : List Char} :
    addition_parses (skip_ws s) e s1 ↔ addition_parses s e s1 := by
  unfold addition_parses
  simp only [(parse_skip_ws _ s).2.2.2.1]

theorem multiplication_loop_parses_skip_ws {lhs : expression} {s : List Char}
    {e : expression} {s1 : List Char} :
    multiplication_loop_parses lhs (skip_ws s) e s1 ↔ multiplication_loop_parses lhs s e s1 := by
  unfold multiplication_loop_parses
  simp only [(parse_skip_ws _ s).2.2.2.2.1]

theorem addition_loop_parses_skip_ws {lhs : expression} {s : List Char}
    {e : expression} {s1 : List Char} :
    addition_loop_parses lhs (skip_ws s) e s1 ↔ addition_loop_parses lhs s e s1 := by
  unfold addition_loop_parses
  simp only [(parse_skip_ws _ s).2.2.2.2.2]

theorem parse_unary_ok_mono {n m : Nat} {s : List Char} {p : expression × List Char}
    (h : parse_unary n s = .ok p) (hnm : n ≤ m) : parse_unary m s = .ok p := by
  rw [parse_unary_mono hnm s (by rw [h]; simp), h]

theorem parse_multiplication_ok_mono {n m : Nat} {s : List Char}
    {p : expression × List Char}
    (h : parse_multiplication n s = .ok p) (hnm : n ≤ m) :
    parse_multiplication m s = .ok p := by
  rw [parse_multiplication_mono hnm s (by rw [h]; simp), h]

theorem parse_addition_ok_mono {n m : Nat} {s : List Char} {p : expression × List Char}
    (h : parse_addition n s = .ok p) (hnm : n ≤ m) : parse_addition m s = .ok p := by
  rw [parse_addition_mono hnm s (by rw [h]; simp), h]

theorem multiplication_loop_ok_mono {n m : Nat} {lhs : expression} {s : List Char}
    {p : expression × List Char}
    (h : multiplication_loop n lhs s = .ok p) (hnm : n ≤ m) :
    multiplication_loop m lhs s = .ok p := by
  rw [multiplication_loop_mono hnm lhs s (by rw [h]; simp), h]

theorem addition_loop_ok_mono {n m : Nat} {lhs : expression} {s : List Char}
    {p : expression × List Char}
    (h : addition_loop n lhs s = .ok p) (hnm : n ≤ m) :
    addition_loop m lhs s = .ok p := by
  rw [addition_loop_mono hnm lhs s (by rw [h]; simp), h]

/-- `parse_multiplication`: a `parse_unary`, then the loop. -/
theorem multiplication_parses_intro {s s1 s2 : List Char} {lhs e : expression}
    (h1 : unary_parses s lhs s1) (h2 : multiplication_loop_parses lhs s1 e s2) :
    multiplication_parses s e s2 := by
  obtain ⟨n1, h1⟩ := h1
  obtain ⟨n2, h2⟩ := h2
  refine ⟨max n1 n2 + 1, ?_⟩
  rw [parse_multiplication, parse_unary_ok_mono h1 (le_max_left _ _)]
  exact multiplication_loop_ok_mono h2 (le_max_right _ _)

/-- `parse_addition`: a `parse_multiplication`, then the loop. -/
theorem addition_parses_intro {s s1 s2 : List Char} {lhs e : expression}
    (h1 : multiplication_parses s lhs s1) (h2 : addition_loop_parses lhs s1 e s2) :
    addition_parses s e s2 := by
  obtain ⟨n1, h1⟩ := h1
  obtain ⟨n2, h2⟩ := h2
  refine ⟨max n1 n2 + 1, ?_⟩
  rw [parse_addition, parse_multiplication_ok_mono h1 (le_max_left _ _)]
  exact addition_loop_ok_mono h2 (le_max_right _ _)

/-- The loop of `parse_multiplication` returns at the end of the text and at
a character other than `*` and `/`. -/
theorem multiplication_loop_stop (lhs : expression) {s : List Char}
    (h : stops_multiplication s) : multiplication_loop_parses lhs s lhs (skip_ws s) := by
  refine ⟨1, ?_⟩
  rw [multiplication_loop]
  rcases h with h | ⟨h1, h2⟩
  · rw [if_pos h]
  · simp only [h1, h2, ↓reduceIte, ite_self]

/-- The loop of `parse_addition` returns at the end of the text and at a
character other than `+` and `-`. -/
theorem addition_loop_stop (lhs : expression) {s : List Char}
    (h : stops_addition s) : addition_loop_parses lhs s lhs (skip_ws s) := by
  refine ⟨1, ?_⟩
  rw [addition_loop]
  rcases h with h | ⟨h1, h2⟩
  · rw [if_pos h]
  · simp only [h1, h2, ↓reduceIte, ite_self]

/-- One turn of the loop of `parse_multiplication` at a `*`. -/
theorem multiplication_loop_times {lhs rhs e : expression} {s s1 s2 : List Char}
    (he : eof s = false) (hp : peek s = '*')
    (h1 : unary_parses (advance s) rhs s1)
    (h2 : multiplication_loop_parses (multiplication lhs rhs) s1 e s2) :
    multiplication_loop_parses lhs s e s2 := by
  obtain ⟨n1, h1⟩ := h1
  obtain ⟨n2, h2⟩ := h2
  refine ⟨max n1 n2 + 1, ?_⟩
  rw [multiplication_loop]
  simp only [he, hp, ↓reduceIte, Bool.false_eq_true]
  rw [parse_unary_ok_mono h1 (le_max_left _ _)]
  exact multiplication_loop_ok_mono h2 (le_max_right _ _)

/-- One turn of the loop of `parse_multiplication` at a `/`. -/
theorem multiplication_loop_over {lhs rhs e : expression} {s s1 s2 : List Char}
    (he : eof s = false) (hp : peek s = '/')
    (h1 : unary_parses (advance s) rhs s1)
    (h2 : multiplication_loop_parses (division lhs rhs) s1 e s2) :
    multiplication_loop_parses lhs s e s2 := by
  obtain ⟨n1, h1⟩ := h1
  obtain ⟨n2, h2⟩ := h2
  refine ⟨max n1 n2 + 1, ?_⟩
  rw [multiplication_loop]
  have hne : ('/' : Char) ≠ '*' := by decide
  simp only [he, hp, hne, ↓reduceIte, Bool.false_eq_true]
  rw [parse_unary_ok_mono h1 (le_max_left _ _)]
  exact multiplication_loop_ok_mono h2 (le_max_right _ _)

/-- One turn of the loop of `parse_addition` at a `+`. -/
theorem addition_loop_plus {lhs rhs e : expression} {s s1 s2 : List Char}
    (he : eof s = false) (hp : peek s = '+')
    (h1 : multiplication_parses (advance s) rhs s1)
    (h2 : addition_loop_parses (addition lhs rhs) s1 e s2) :
    addition_loop_parses lhs s e s2 := by
  obtain ⟨n1, h1⟩ := h1
  obtain ⟨n2, h2⟩ := h2
  refine ⟨max n1 n2 + 1, ?_⟩
  rw [addition_loop]
  simp only [he, hp, ↓reduceIte, Bool.false_eq_true]
  rw [parse_multiplication_ok_mono h1 (le_max_left _ _)]
  exact addition_loop_ok_mono h2 (le_max_right _ _)

/-- One turn of the loop of `parse_addition` at a `-`. -/
theorem addition_loop_minus {lhs rhs e : expression} {s s1 s2 : List Char}
    (he : eof s = false) (hp : peek s = '-')
    (h1 : multiplication_parses (advance s) rhs s1)
    (h2 : addition_loop_parses (subtraction lhs rhs) s1 e s2) :
    addition_loop_parses lhs s e s2 := by
  obtain ⟨n1, h1⟩ := h1
  obtain ⟨n2, h2⟩ := h2
  refine ⟨max n1 n2 + 1, ?_⟩
  rw [addition_loop]
  have hne : ('-' : Char) ≠ '+' := by decide
  simp only [he, hp, hne, ↓reduceIte, Bool.false_eq_true]
  rw [parse_multiplication_ok_mono h1 (le_max_left _ _)]
  exact addition_loop_ok_mono h2 (le_max_right _ _)

/-- `parse_unary` at a `(`: an addition and the closing parenthesis. -/
theorem unary_parses_parenthesis {s s1 : List Char} {inner : expression}
    (he : eof s = false) (hp : peek s = '(')
    (h1 : addition_parses (advance s) inner s1)
    (he1 : eof s1 = false) (hp1 : peek s1 = ')') :
    unary_parses s inner (advance s1) := by
  obtain ⟨n1, h1⟩ := h1
  refine ⟨n1 + 2, ?_⟩
  rw [parse_unary_succ]
  simp only [he, hp, ↓reduceIte, Bool.false_eq_true]
  rw [parse_parenthesis, h1]
  simp [he1, hp1]

/-- `parse_unary` at a `+`. -/
theorem unary_parses_plus {s s1 : List Char} {arg : expression}
    (he : eof s = false) (hp : peek s = '+')
    (h1 : unary_parses (advance s) arg s1) : unary_parses s arg s1 := by
  obtain ⟨n1, h1⟩ := h1
  refine ⟨n1 + 1, ?_⟩
  rw [parse_unary_succ]
  have hne : ('+' : Char) ≠ '(' := by decide
  simp only [he, hp, hne, ↓reduceIte, Bool.false_eq_true]
  exact h1

/-- `parse_unary` at a `-`. -/
theorem unary_parses_minus {s s1 : List Char} {arg : expression}
    (he : eof s = false) (hp : peek s = '-')
    (h1 : unary_parses (advance s) arg s1) : unary_parses s (negation arg) s1 := by
  obtain ⟨n1, h1⟩ := h1
  refine ⟨n1 + 1, ?_⟩
  rw [parse_unary_succ]
  have hne : ('-' : Char) ≠ '(' := by decide
  have hne2 : ('-' : Char) ≠ '+' := by decide
  simp only [he, hp, hne, hne2, ↓reduceIte, Bool.false_eq_true, h1, apply_node]

/-- `parse_unary` at the identifier `x`. -/
theorem unary_parses_variable {s : List Char}
    (he : eof s = false) (hp : (peek s).isAlpha = true)
    (hid : (parse_identifier s).1 = ['x']) :
    unary_parses s variable_ (parse_identifier s).2 := by
  refine ⟨1, ?_⟩
  rw [parse_unary_succ]
  have h1 : peek s ≠ '(' := by intro h; rw [h] at hp; revert hp; decide
  have h2 : peek s ≠ '+' := by intro h; rw [h] at hp; revert hp; decide
  have h3 : peek s ≠ '-' := by intro h; rw [h] at hp; revert hp; decide
  simp only [he, hp, h1, h2, h3, hid, ↓reduceIte, Bool.false_eq_true]

/-- `parse_unary` at a function name. -/
theorem unary_parses_function {s s1 : List Char} {arg : expression}
    {f : expression → expression}
    (he : eof s = false) (hp : (peek s).isAlpha = true)
    (hx : (parse_identifier s).1 ≠ ['x'])
    (hid : function_node (parse_identifier s).1 = some f)
    (h1 : unary_parses (parse_identifier s).2 arg s1) :
    unary_parses s (f arg) s1 := by
  obtain ⟨n1, h1⟩ := h1
  refine ⟨n1 + 1, ?_⟩
  rw [parse_unary_succ]
  have h1' : peek s ≠ '(' := by intro h; rw [h] at hp; revert hp; decide
  have h2 : peek s ≠ '+' := by intro h; rw [h] at hp; revert hp; decide
  have h3 : peek s ≠ '-' := by intro h; rw [h] at hp; revert hp; decide
  simp only [he, hp, h1', h2, h3, hx, hid, ↓reduceIte, Bool.false_eq_true, h1, apply_node]

/-- `parse_unary` at a literal. -/
theorem unary_parses_literal {s : List Char} {value : ℚ}
    (he : eof s = false) (hp : is_digit_or_dot (peek s) = true)
    (hv : lexical_cast (parse_literal s).1 = some value) :
    unary_parses s (const_ value) (parse_literal s).2 := by
  refine ⟨1, ?_⟩
  rw [parse_unary_succ]
  have h1 : peek s ≠ '(' := by intro h; rw [h] at hp; revert hp; decide
  have h2 : peek s ≠ '+' := by intro h; rw [h] at hp; revert hp; decide
  have h3 : peek s ≠ '-' := by intro h; rw [h] at hp; revert hp; decide
  have h4 : (peek s).isAlpha = false := by
    unfold is_digit_or_dot at hp
    simp only [Bool.or_eq_true, decide_eq_true_eq] at hp
    rcases hp with hp | hp
    · exact isAlpha_of_isDigit _ hp
    · rw [hp]; decide
  simp only [he, hp, h1, h2, h3, h4, hv, ↓reduceIte, Bool.false_eq_true]

/-! ### Identifiers and literals -/

theorem unary_parses_blank {s : List Char} {e : expression} {s1 : List Char} :
    unary_parses (' ' :: s) e s1 ↔ unary_parses s e s1 := by
  rw [← unary_parses_skip_ws, skip_ws_blank, unary_parses_skip_ws]

theorem multiplication_parses_blank {s : List Char} {e : expression} {s1 : List Char} :
    multiplication_parses (' ' :: s) e s1 ↔ multiplication_parses s e s1 := by
  rw [← multiplication_parses_skip_ws, skip_ws_blank, multiplication_parses_skip_ws]

theorem token_end_nil : token_end [] := by simp [token_end]

theorem token_end_cons {c : Char} (h1 : c.isAlpha = false) (h2 : is_digit_or_dot c = false)
    (s : List Char) : token_end (c :: s) := by
  simp [token_end, h1, h2]

theorem identifier_loop_token_end {rest : List Char} (h : token_end rest) :
    identifier_loop rest = ([], rest) := by
  cases rest with
  | nil => rfl
  | cons c s =>
    have := (h c (by simp)).1
    simp [identifier_loop, this]

theorem literal_loop_token_end {rest : List Char} (h : token_end rest) :
    literal_loop rest = ([], rest) := by
  cases rest with
  | nil => rfl
  | cons c s =>
    have := (h c (by simp)).2
    simp [literal_loop, this]

theorem literal_loop_append {lit rest : List Char}
    (hl : ∀ c ∈ lit, is_digit_or_dot c = true) (h : token_end rest) :
    literal_loop (lit ++ rest) = (lit, rest) := by
  induction lit with
  | nil => simpa using literal_loop_token_end h
  | cons c t ih =>
    have hc := hl c (by simp)
    have ht := ih (fun d hd => hl d (by simp [hd]))
    simp [literal_loop, hc, ht]

theorem is_digit_or_dot_ne_blank {c : Char} (h : is_digit_or_dot c = true) : c ≠ ' ' := by
  intro hc; rw [hc] at h; revert h; decide

theorem is_digit_or_dot_of_isDigit {c : Char} (h : c.isDigit = true) :
    is_digit_or_dot c = true := by
  simp [is_digit_or_dot, h]

theorem all_of_takeWhile_eq {p : Char → Bool} {l : List Char} :
    ∀ c ∈ l.takeWhile p, p c = true := by
  intro c hc
  exact (List.mem_takeWhile_imp hc)

/-- A text accepted by the numeric conversion is a non-empty run of digits
and dots. -/
theorem lexical_cast_some {lit : List Char} {value : ℚ} (h : lexical_cast lit = some value) :
    lit ≠ [] ∧ ∀ c ∈ lit, is_digit_or_dot c = true := by
  unfold lexical_cast at h
  have hsplit : lit.takeWhile Char.isDigit ++ lit.dropWhile Char.isDigit = lit :=
    List.takeWhile_append_dropWhile _ _
  cases hd : lit.dropWhile Char.isDigit with
  | nil =>
    rw [hd] at h hsplit
    simp only at h
    split_ifs at h with h0
    rw [List.append_nil] at hsplit
    refine ⟨by rw [← hsplit]; exact h0, ?_⟩
    intro c hc
    rw [← hsplit] at hc
    exact is_digit_or_dot_of_isDigit (all_of_takeWhile_eq c hc)
  | cons d frac =>
    rw [hd] at h hsplit
    simp only at h
    split_ifs at h with h0
    obtain ⟨hdot, hfrac, _⟩ := h0
    refine ⟨by rw [← hsplit]; simp, ?_⟩
    intro c hc
    rw [← hsplit] at hc
    rcases List.mem_append.1 hc with hc | hc
    · exact is_digit_or_dot_of_isDigit (all_of_takeWhile_eq c hc)
    · rcases List.mem_cons.1 hc with hc | hc
      · rw [hc, hdot]; decide
      · exact is_digit_or_dot_of_isDigit (List.all_eq_true.1 hfrac c hc)

/-- A literal followed by a text that cannot extend it is read as a constant. -/
theorem unary_parses_literal_text {lit rest : List Char} {value : ℚ}
    (hv : lexical_cast lit = some value) (h : token_end rest) :
    unary_parses (lit ++ rest) (const_ value) rest := by
  obtain ⟨hne, hall⟩ := lexical_cast_some hv
  cases lit with
  | nil => exact absurd rfl hne
  | cons c t =>
    have hc := hall c (by simp)
    have hb := is_digit_or_dot_ne_blank hc
    have hlit : parse_literal ((c :: t) ++ rest) = (c :: t, rest) := by
      unfold parse_literal
      rw [List.cons_append, skip_ws_cons hb, ← List.cons_append]
      exact literal_loop_append hall h
    have := @unary_parses_literal ((c :: t) ++ rest) value
      (by rw [List.cons_append]; exact eof_cons hb _)
      (by rw [List.cons_append, peek_cons hb]; exact hc)
      (by rw [hlit]; exact hv)
    rw [hlit] at this
    exact this

/-- The identifier `x` followed by a text that cannot extend it. -/
theorem unary_parses_x {rest : List Char} (h : token_end rest) :
    unary_parses ('x' :: rest) variable_ rest := by
  have hb : ('x' : Char) ≠ ' ' := by decide
  have hid : parse_identifier ('x' :: rest) = (['x'], rest) := by
    unfold parse_identifier
    rw [skip_ws_cons hb, identifier_loop, identifier_loop_token_end h]
    simp
  have := unary_parses_variable (s := 'x' :: rest) (eof_cons hb _)
    (by rw [peek_cons hb]; decide) (by rw [hid])
  rw [hid] at this
  exact this

/-- A function name, a blank and an operand. -/
theorem unary_parses_name {a b c : Char} {f : expression → expression} {s s1 : List Char}
    {arg : expression}
    (ha : a.isAlpha = true) (hb : b.isAlpha = true) (hc : c.isAlpha = true)
    (hf : function_node [a, b, c] = some f)
    (h : unary_parses s arg s1) :
    unary_parses (a :: b :: c :: ' ' :: s) (f arg) s1 := by
  have hne : a ≠ ' ' := by intro h0; rw [h0] at ha; revert ha; decide
  have hx : [a, b, c] ≠ ['x'] := by simp
  have hid : parse_identifier (a :: b :: c :: ' ' :: s) = ([a, b, c], ' ' :: s) := by
    unfold parse_identifier
    rw [skip_ws_cons hne]
    have hblank : (' ' : Char).isAlpha = false := by decide
    simp [identifier_loop, ha, hb, hc, hblank]
  have := @unary_parses_function (a :: b :: c :: ' ' :: s) s1 arg f
    (eof_cons hne _) (by rw [peek_cons hne]; exact ha) (by rw [hid]; exact hx)
    (by rw [hid]; exact hf) (by rw [hid]; exact unary_parses_blank.2 h)
  exact this

/-! ### Parsing a printed tree -/

theorem token_end_blank (s : List Char) : token_end (' ' :: s) :=
  token_end_cons (by decide) (by decide) s

theorem token_end_close (s : List Char) : token_end (')' :: s) :=
  token_end_cons (by decide) (by decide) s

/-- A parenthesized printed tree is read by `parse_unary`. -/
theorem unary_parses_wrapped {a : expression} (ha : reads_back a) (rest : List Char) :
    unary_parses ('(' :: (print a ++ ')' :: rest)) a rest := by
  have hopen : ('(' : Char) ≠ ' ' := by decide
  have hclose : (')' : Char) ≠ ' ' := by decide
  have hstop : stops_multiplication (')' :: rest) := by
    right; rw [peek_cons hclose]; exact ⟨by decide, by decide⟩
  have hstop2 : stops_addition (')' :: rest) := by
    right; rw [peek_cons hclose]; exact ⟨by decide, by decide⟩
  have h1 := ha.2.2 (')' :: rest) a (skip_ws (')' :: rest)) (token_end_close rest) hstop
    (addition_loop_stop a hstop2)
  rw [skip_ws_cons hclose] at h1
  have := unary_parses_parenthesis (s := '(' :: (print a ++ ')' :: rest))
    (eof_cons hopen _) (peek_cons hopen _) (by rw [advance_cons hopen]; exact h1)
    (eof_cons hclose _) (peek_cons hclose _)
  rw [advance_cons hclose] at this
  exact this

/-- From `parse_unary` to `parse_multiplication` and `parse_addition`. -/
theorem reads_back_of_unary {e : expression}
    (h : ∀ rest, token_end rest → unary_parses (print e ++ rest) e rest) :
    reads_back e := by
  have hm : ∀ rest e1 s1, token_end rest → multiplication_loop_parses e rest e1 s1 →
      multiplication_parses (print e ++ rest) e1 s1 :=
    fun rest e1 s1 ht hl => multiplication_parses_intro (h rest ht) hl
  refine ⟨fun _ => h, fun _ => hm, ?_⟩
  intro rest e1 s1 ht hs hl
  exact addition_parses_intro (hm rest e (skip_ws rest) ht (multiplication_loop_stop e hs))
    (addition_loop_parses_skip_ws.2 hl)

/-- From `parse_multiplication` to `parse_addition`. -/
theorem reads_back_of_multiplication {e : expression}
    (hp : get_precedence e = .multiplication)
    (hm : ∀ rest e1 s1, token_end rest → multiplication_loop_parses e rest e1 s1 →
      multiplication_parses (print e ++ rest) e1 s1) :
    reads_back e := by
  refine ⟨fun h => (by rw [hp] at h; cases h), fun _ => hm, ?_⟩
  intro rest e1 s1 ht hs hl
  exact addition_parses_intro (hm rest e (skip_ws rest) ht (multiplication_loop_stop e hs))
    (addition_loop_parses_skip_ws.2 hl)

/-- The operand of a negation or of a function, as `print_lhs` writes it. -/
theorem unary_parses_operand {a : expression} (ha : reads_back a) {rest : List Char}
    (ht : token_end rest) (parent : expression) (hp : get_precedence parent = .unary) :
    unary_parses (print_lhs (print a) a (get_precedence parent) ++ rest) a rest := by
  unfold print_lhs
  rw [hp]
  by_cases h : (get_precedence a).rank < precedence.unary.rank
  · rw [if_pos h]
    simpa using unary_parses_wrapped ha rest
  · rw [if_neg h]
    have hu : get_precedence a = .unary := by
      revert h; cases get_precedence a <;> simp [precedence.rank]
    exact ha.1 hu rest ht

/-- The right operand of a multiplication or division, as `print_rhs` writes it. -/
theorem unary_parses_rhs {b : expression} (hb : reads_back b) {rest : List Char}
    (ht : token_end rest) :
    unary_parses (print_rhs (print b) b .multiplication ++ rest) b rest := by
  unfold print_rhs
  by_cases h : (get_precedence b).rank ≤ precedence.multiplication.rank
  · rw [if_pos h]
    simpa using unary_parses_wrapped hb rest
  · rw [if_neg h]
    have hu : get_precedence b = .unary := by
      revert h; cases get_precedence b <;> simp [precedence.rank]
    exact hb.1 hu rest ht

/-- The right operand of an addition or subtraction, as `print_rhs` writes it. -/
theorem multiplication_parses_rhs {b : expression} (hb : reads_back b) {rest : List Char}
    (ht : token_end rest) (hs : stops_multiplication rest) :
    multiplication_parses (print_rhs (print b) b .addition ++ rest) b (skip_ws rest) := by
  unfold print_rhs
  by_cases h : (get_precedence b).rank ≤ precedence.addition.rank
  · rw [if_pos h]
    have := unary_parses_wrapped hb rest
    exact multiplication_parses_intro (by simpa using this) (multiplication_loop_stop b hs)
  · rw [if_neg h]
    have hu : get_precedence b ≠ .addition := by
      revert h; cases get_precedence b <;> simp [precedence.rank]
    exact hb.2.1 hu rest b (skip_ws rest) ht (multiplication_loop_stop b hs)

/-- The left operand of a multiplication or division, as `print_lhs` writes
it, followed by the rest of the loop. -/
theorem multiplication_parses_lhs {a : expression} (ha : reads_back a) {rest : List Char}
    {e1 : expression} {s1 : List Char}
    (ht : token_end rest) (hl : multiplication_loop_parses a rest e1 s1) :
    multiplication_parses (print_lhs (print a) a .multiplication ++ rest) e1 s1 := by
  unfold print_lhs
  by_cases h : (get_precedence a).rank < precedence.multiplication.rank
  · rw [if_pos h]
    have := unary_parses_wrapped ha rest
    exact multiplication_parses_intro (by simpa using this) hl
  · rw [if_neg h]
    have hu : get_precedence a ≠ .addition := by
      revert h; cases get_precedence a <;> simp [precedence.rank]
    exact ha.2.1 hu rest e1 s1 ht hl

theorem print_lhs_addition (text : List Char) (a : expression) :
    print_lhs text a .addition = text := by
  simp [print_lhs, precedence.rank]

theorem reads_back_negation {a : expression} (ha : reads_back a) :
    reads_back (negation a) := by
  apply reads_back_of_unary
  intro rest ht
  have hm : ('-' : Char) ≠ ' ' := by decide
  have h := unary_parses_operand ha ht (negation a) rfl
  have := unary_parses_minus (s := '-' :: (print_lhs (print a) a
    (get_precedence (negation a)) ++ rest)) (eof_cons hm _) (peek_cons hm _)
    (by rw [advance_cons hm]; exact h)
  simpa [print] using this

theorem reads_back_function {a : expression} (ha : reads_back a)
    (node : expression → expression) (c1 c2 c3 : Char)
    (hprec : get_precedence (node a) = .unary)
    (hprint : print (node a) =
      [c1, c2, c3, ' '] ++ print_lhs (print a) a (get_precedence (node a)))
    (h1 : c1.isAlpha = true) (h2 : c2.isAlpha = true) (h3 : c3.isAlpha = true)
    (hf : function_node [c1, c2, c3] = some node) :
    reads_back (node a) := by
  apply reads_back_of_unary
  intro rest ht
  have h := unary_parses_operand ha ht (node a) hprec
  have := unary_parses_name h1 h2 h3 hf h
  rw [hprint]
  simpa using this

theorem reads_back_additive {a b : expression} (ha : reads_back a) (hb : reads_back b)
    (node : expression → expression → expression) (op : Char)
    (hop : op = '+' ∧ node = addition ∨ op = '-' ∧ node = subtraction)
    (hprec : get_precedence (node a b) = .addition)
    (hprint : print (node a b) =
      print_lhs (print a) a .addition ++ [' ', op, ' '] ++ print_rhs (print b) b .addition) :
    reads_back (node a b) := by
  refine ⟨fun h => (by rw [hprec] at h; cases h), fun h => absurd hprec h, ?_⟩
  intro rest e1 s1 ht hs hl
  have hopb : op ≠ ' ' := by rcases hop with ⟨h, _⟩ | ⟨h, _⟩ <;> rw [h] <;> decide
  have hstar : op ≠ '*' := by rcases hop with ⟨h, _⟩ | ⟨h, _⟩ <;> rw [h] <;> decide
  have hslash : op ≠ '/' := by rcases hop with ⟨h, _⟩ | ⟨h, _⟩ <;> rw [h] <;> decide
  have hrhs := multiplication_parses_rhs hb ht hs
  have hl2 : addition_loop_parses (node a b) (skip_ws rest) e1 s1 :=
    addition_loop_parses_skip_ws.2 hl
  have hloop : addition_loop_parses a
      (' ' :: op :: ' ' :: (print_rhs (print b) b .addition ++ rest)) e1 s1 := by
    rw [← addition_loop_parses_skip_ws, skip_ws_blank, skip_ws_cons hopb]
    rcases hop with ⟨h, hn⟩ | ⟨h, hn⟩
    · subst h
      rw [hn] at hl2
      exact addition_loop_plus (eof_cons hopb _) (peek_cons hopb _)
        (by rw [advance_cons hopb]; exact multiplication_parses_blank.2 hrhs) hl2
    · subst h
      rw [hn] at hl2
      exact addition_loop_minus (eof_cons hopb _) (peek_cons hopb _)
        (by rw [advance_cons hopb]; exact multiplication_parses_blank.2 hrhs) hl2
  have hstop : stops_multiplication
      (' ' :: op :: ' ' :: (print_rhs (print b) b .addition ++ rest)) := by
    right
    have : peek (' ' :: op :: ' ' :: (print_rhs (print b) b .addition ++ rest)) = op := by
      rw [← peek_skip_ws, skip_ws_blank, peek_skip_ws, peek_cons hopb]
    rw [this]
    exact ⟨hstar, hslash⟩
  have := ha.2.2 _ e1 s1 (token_end_blank _) hstop hloop
  rw [hprint, print_lhs_addition]
  simpa using this

theorem reads_back_multiplicative {a b : expression} (ha : reads_back a) (hb : reads_back b)
    (node : expression → expression → expression) (op : Char)
    (hop : op = '*' ∧ node = multiplication ∨ op = '/' ∧ node = division)
    (hprec : get_precedence (node a b) = .multiplication)
    (hprint : print (node a b) =
      print_lhs (print a) a .multiplication ++ [' ', op, ' '] ++
        print_rhs (print b) b .multiplication) :
    reads_back (node a b) := by
  apply reads_back_of_multiplication hprec
  intro rest e1 s1 ht hl
  have hopb : op ≠ ' ' := by rcases hop with ⟨h, _⟩ | ⟨h, _⟩ <;> rw [h] <;> decide
  have hrhs := unary_parses_rhs hb ht
  have hloop : multiplication_loop_parses a
      (' ' :: op :: ' ' :: (print_rhs (print b) b .multiplication ++ rest)) e1 s1 := by
    rw [← multiplication_loop_parses_skip_ws, skip_ws_blank, skip_ws_cons hopb]
    rcases hop with ⟨h, hn⟩ | ⟨h, hn⟩
    · subst h
      rw [hn] at hl
      exact multiplication_loop_times (eof_cons hopb _) (peek_cons hopb _)
        (by rw [advance_cons hopb]; exact unary_parses_blank.2 hrhs) hl
    · subst h
      rw [hn] at hl
      exact multiplication_loop_over (eof_cons hopb _) (peek_cons hopb _)
        (by rw [advance_cons hopb]; exact unary_parses_blank.2 hrhs) hl
  have := multiplication_parses_lhs ha (token_end_blank _) hloop
  rw [hprint]
  simpa using this

/-- Every tree whose constants are printable is read back from its printed
form by each parser function that can return it. -/
theorem reads_back_of_all_printable (e : expression) (h : all_printable e) :
    reads_back e := by
  induction e with
  | negation a iha => exact reads_back_negation (iha h)
  | addition a b iha ihb =>
    exact reads_back_additive (iha h.1) (ihb h.2) addition '+' (Or.inl ⟨rfl, rfl⟩) rfl rfl
  | subtraction a b iha ihb =>
    exact reads_back_additive (iha h.1) (ihb h.2) subtraction '-' (Or.inr ⟨rfl, rfl⟩) rfl rfl
  | multiplication a b iha ihb =>
    exact reads_back_multiplicative (iha h.1) (ihb h.2) multiplication '*'
      (Or.inl ⟨rfl, rfl⟩) rfl rfl
  | division a b iha ihb =>
    exact reads_back_multiplicative (iha h.1) (ihb h.2) division '/'
      (Or.inr ⟨rfl, rfl⟩) rfl rfl
  | variable_ =>
    apply reads_back_of_unary
    intro rest ht
    exact unary_parses_x ht
  | const_ v =>
    apply reads_back_of_unary
    intro rest ht
    exact unary_parses_literal_text h ht
  | sine a iha =>
    exact reads_back_function (iha h) sine 's' 'i' 'n' rfl rfl (by decide) (by decide)
      (by decide) rfl
  | cosine a iha =>
    exact reads_back_function (iha h) cosine 'c' 'o' 's' rfl rfl (by decide) (by decide)
      (by decide) rfl
  | tangent a iha =>
    exact reads_back_function (iha h) tangent 't' 'a' 'n' rfl rfl (by decide) (by decide)
      (by decide) rfl
  | exponentiation a iha =>
    exact reads_back_function (iha h) exponentiation 'e' 'x' 'p' rfl rfl (by decide)
      (by decide) (by decide) rfl
  | logarithm a iha =>
    exact reads_back_function (iha h) logarithm 'l' 'o' 'g' rfl rfl (by decide) (by decide)
      (by decide) rfl

/-- Parsing the printed form of a tree whose constants are printable gives
the tree back. -/
theorem parse_print (e : expression) (h : all_printable e) :
    parse (String.mk (print e)) = .ok e := by
  have hr := reads_back_of_all_printable e h
  have hstop : stops_multiplication [] := Or.inl rfl
  have hstop2 : stops_addition [] := Or.inl rfl
  obtain ⟨n, hn⟩ := hr.2.2 [] e (skip_ws []) token_end_nil hstop (addition_loop_stop e hstop2)
  rw [List.append_nil] at hn
  exact parse_of_parse_addition (s := String.mk (print e)) hn rfl

/-! ### Function names -/

theorem identifier_loop_stop {rest : List Char} (h : ∀ c ∈ rest.head?, c.isAlpha = false) :
    identifier_loop rest = ([], rest) := by
  cases rest with
  | nil => rfl
  | cons c s =>
    have := h c (by simp)
    simp [identifier_loop, this]

/-- `parse_unary` at a three-letter function name followed by a character
that is not a letter: the operand is what one more `parse_unary` reads. -/
theorem parse_unary_name {a b c : Char} {f : expression → expression}
    (ha : a.isAlpha = true) (hb : b.isAlpha = true) (hc : c.isAlpha = true)
    (hf : function_node [a, b, c] = some f) (n : Nat) {rest : List Char}
    (h : ∀ d ∈ rest.head?, d.isAlpha = false) :
    parse_unary (n + 1) (a :: b :: c :: rest) = apply_node f (parse_unary n rest) := by
  have hne : a ≠ ' ' := by intro h0; rw [h0] at ha; revert ha; decide
  have h1 : a ≠ '(' := by intro h0; rw [h0] at ha; revert ha; decide
  have h2 : a ≠ '+' := by intro h0; rw [h0] at ha; revert ha; decide
  have h3 : a ≠ '-' := by intro h0; rw [h0] at ha; revert ha; decide
  have hx : [a, b, c] ≠ ['x'] := by simp
  have hid : parse_identifier (a :: b :: c :: rest) = ([a, b, c], rest) := by
    unfold parse_identifier
    rw [skip_ws_cons hne]
    simp [identifier_loop, ha, hb, hc, identifier_loop_stop h]
  rw [parse_unary_succ]
  simp only [eof_cons hne, peek_cons hne, h1, h2, h3, ha, hid, hx, hf, ↓reduceIte,
    Bool.false_eq_true]

/-! ### Chains of operands -/

theorem lexical_cast_digits {digits : List Char} (hne : digits ≠ [])
    (hd : ∀ c ∈ digits, c.isDigit = true) :
    lexical_cast digits = round_to_double (digits_value digits) 1 := by
  unfold lexical_cast
  have h1 : digits.takeWhile Char.isDigit = digits := List.takeWhile_eq_self_iff.2 hd
  have h2 : digits.dropWhile Char.isDigit = [] := List.dropWhile_eq_nil_iff.2 hd
  simp only [h1, h2, hne, ↓reduceIte]

theorem unary_parses_operand_token {t : operand_token} (ht : t.well_formed)
    {rest : List Char} (hr : token_end rest) :
    unary_parses (t.text ++ rest) t.tree rest := by
  cases t with
  | x => exact unary_parses_x hr
  | literal digits =>
    obtain ⟨_, _, hsome⟩ := ht
    obtain ⟨v, hv⟩ := Option.isSome_iff_exists.1 hsome
    have htree : (operand_token.literal digits).tree = const_ v := by
      simp [operand_token.tree, hv]
    rw [htree]
    exact unary_parses_literal_text hv hr

theorem unary_parses_blanks (k : Nat) {s : List Char} {e : expression} {s1 : List Char}
    (h : unary_parses s e s1) : unary_parses (List.replicate k ' ' ++ s) e s1 := by
  rw [← unary_parses_skip_ws, skip_ws_replicate, unary_parses_skip_ws]
  exact h

theorem multiplication_parses_blanks (k : Nat) {s : List Char} {e : expression}
    {s1 : List Char} (h : multiplication_parses s e s1) :
    multiplication_parses (List.replicate k ' ' ++ s) e s1 := by
  rw [← multiplication_parses_skip_ws, skip_ws_replicate, multiplication_parses_skip_ws]
  exact h

/-- An operator character. -/
theorem token_end_op {c : Char} (h : c = '+' ∨ c = '-' ∨ c = '*' ∨ c = '/')
    (s : List Char) : token_end (c :: s) := by
  rcases h with h | h | h | h <;> rw [h] <;> exact token_end_cons (by decide) (by decide) s

theorem op_ne_blank {c : Char} (h : c = '+' ∨ c = '-' ∨ c = '*' ∨ c = '/') : c ≠ ' ' := by
  rcases h with h | h | h | h <;> rw [h] <;> decide

theorem token_end_items {items : List chain_item} {rest : List Char}
    (hops : ∀ it ∈ items, it.op = '+' ∨ it.op = '-' ∨ it.op = '*' ∨ it.op = '/')
    (hr : token_end rest) : token_end (items_text items ++ rest) := by
  cases items with
  | nil => exact hr
  | cons it items =>
    have hop := hops it (by simp)
    simp only [items_text, List.append_assoc, List.singleton_append]
    cases hb : it.before with
    | zero => simpa using token_end_op hop _
    | succ k => simpa [List.replicate_succ] using token_end_blank _

theorem peek_items (it : chain_item) (items : List chain_item) (rest : List Char)
    (hop : it.op ≠ ' ') :
    skip_ws (items_text (it :: items) ++ rest) =
      it.op :: (List.replicate it.after ' ' ++ (it.operand.text ++
        (items_text items ++ rest))) := by
  simp only [items_text, List.append_assoc, List.singleton_append, skip_ws_replicate,
    List.cons_append]
  exact skip_ws_cons hop _

/-- The loop of `parse_multiplication` on a chain of `*` and `/`. -/
theorem multiplication_loop_items (items : List chain_item) :
    ∀ (lhs : expression) (rest : List Char),
      (∀ it ∈ items, it.operand.well_formed) →
      (∀ it ∈ items, it.op = '*' ∨ it.op = '/') →
      token_end rest → stops_multiplication rest →
      multiplication_loop_parses lhs (items_text items ++ rest) (chain_tree lhs items)
        (skip_ws rest) := by
  induction items with
  | nil =>
    intro lhs rest _ _ _ hs
    exact multiplication_loop_stop lhs hs
  | cons it items ih =>
    intro lhs rest hwf hops hr hs
    have hop := hops it (by simp)
    have hop4 : it.op = '+' ∨ it.op = '-' ∨ it.op = '*' ∨ it.op = '/' := by
      rcases hop with h | h <;> simp [h]
    have hb := op_ne_blank hop4
    have hops2 : ∀ i ∈ items, i.op = '*' ∨ i.op = '/' := fun i hi => hops i (by simp [hi])
    have hops4 : ∀ i ∈ items, i.op = '+' ∨ i.op = '-' ∨ i.op = '*' ∨ i.op = '/' := by
      intro i hi; rcases hops2 i hi with h | h <;> simp [h]
    have hte := token_end_items hops4 hr
    have hu := unary_parses_blanks it.after
      (unary_parses_operand_token (hwf it (by simp)) hte)
    have hrec := ih (binary_node it.op lhs it.operand.tree) rest
      (fun i hi => hwf i (by simp [hi])) hops2 hr hs
    rw [← multiplication_loop_parses_skip_ws, peek_items it items rest hb, chain_tree]
    have hplus : ('*' : Char) ≠ '+' := by decide
    have hminus : ('*' : Char) ≠ '-' := by decide
    have hplus2 : ('/' : Char) ≠ '+' := by decide
    have hminus2 : ('/' : Char) ≠ '-' := by decide
    have hstar : ('/' : Char) ≠ '*' := by decide
    rcases hop with h | h
    · simp only [binary_node, h, hplus, hminus, ↓reduceIte] at hrec ⊢
      exact multiplication_loop_times (eof_cons (by decide) _) (peek_cons (by decide) _)
        (by rw [advance_cons (by decide)]; exact hu) hrec
    · simp only [binary_node, h, hplus2, hminus2, hstar, ↓reduceIte] at hrec ⊢
      exact multiplication_loop_over (eof_cons (by decide) _) (peek_cons (by decide) _)
        (by rw [advance_cons (by decide)]; exact hu) hrec

theorem stops_multiplication_items {items : List chain_item} {rest : List Char}
    (hops : ∀ it ∈ items, it.op = '+' ∨ it.op = '-')
    (hs : stops_multiplication rest) : stops_multiplication (items_text items ++ rest) := by
  cases items with
  | nil => exact hs
  | cons it items =>
    have hop := hops it (by simp)
    have hb : it.op ≠ ' ' := by rcases hop with h | h <;> rw [h] <;> decide
    right
    unfold peek
    rw [peek_items it items rest hb]
    simp only [List.headD_cons]
    rcases hop with h | h <;> rw [h] <;> exact ⟨by decide, by decide⟩

/-- The loop of `parse_addition` on a chain of `+` and `-`. -/
theorem addition_loop_items (items : List chain_item) :
    ∀ (lhs : expression) (rest : List Char),
      (∀ it ∈ items, it.operand.well_formed) →
      (∀ it ∈ items, it.op = '+' ∨ it.op = '-') →
      token_end rest → stops_multiplication rest → stops_addition rest →
      addition_loop_parses lhs (items_text items ++ rest) (chain_tree lhs items)
        (skip_ws rest) := by
  induction items with
  | nil =>
    intro lhs rest _ _ _ _ hs
    exact addition_loop_stop lhs hs
  | cons it items ih =>
    intro lhs rest hwf hops hr hsm hsa
    have hop := hops it (by simp)
    have hop4 : it.op = '+' ∨ it.op = '-' ∨ it.op = '*' ∨ it.op = '/' := by
      rcases hop with h | h <;> simp [h]
    have hb := op_ne_blank hop4
    have hops2 : ∀ i ∈ items, i.op = '+' ∨ i.op = '-' := fun i hi => hops i (by simp [hi])
    have hops4 : ∀ i ∈ items, i.op = '+' ∨ i.op = '-' ∨ i.op = '*' ∨ i.op = '/' := by
      intro i hi; rcases hops2 i hi with h | h <;> simp [h]
    have hte := token_end_items hops4 hr
    have hu := unary_parses_operand_token (hwf it (by simp)) hte
    have hm : multiplication_parses
        (List.replicate it.after ' ' ++ (it.operand.text ++ (items_text items ++ rest)))
        it.operand.tree (skip_ws (items_text items ++ rest)) :=
      multiplication_parses_blanks it.after
        (multiplication_parses_intro hu
          (multiplication_loop_stop _ (stops_multiplication_items hops2 hsm)))
    have hrec := ih (binary_node it.op lhs it.operand.tree) rest
      (fun i hi => hwf i (by simp [hi])) hops2 hr hsm hsa
    rw [← addition_loop_parses_skip_ws] at hrec ⊢
    rw [peek_items it items rest hb, chain_tree]
    have hplus : ('-' : Char) ≠ '+' := by decide
    rcases hop with h | h
    · simp only [binary_node, h, ↓reduceIte] at hrec ⊢
      exact addition_loop_plus (eof_cons (by decide) _) (peek_cons (by decide) _)
        (by rw [advance_cons (by decide)]; exact hm) hrec
    · simp only [binary_node, h, hplus, ↓reduceIte] at hrec ⊢
      exact addition_loop_minus (eof_cons (by decide) _) (peek_cons (by decide) _)
        (by rw [advance_cons (by decide)]; exact hm) hrec

/-! ### The derivative rules against calculus -/

/-- Every rule of `derivative` other than the one for `tangent` is the rule
of calculus: on a tree without `tangent`, the value of the derivative tree
is the derivative of the denoted function. -/
theorem hasDerivAt_eval_of_tangent_free (e : expression) (x0 : ℝ)
    (hfree : tangent_free e) (hdef : defined_at e x0) :
    HasDerivAt (eval e) (eval (derivative e) x0) x0 := by
  induction e with
  | negation a iha =>
    exact (iha hfree hdef).neg
  | addition a b iha ihb =>
    exact (iha hfree.1 hdef.1).add (ihb hfree.2 hdef.2)
  | subtraction a b iha ihb =>
    exact (iha hfree.1 hdef.1).sub (ihb hfree.2 hdef.2)
  | multiplication a b iha ihb =>
    have h := (iha hfree.1 hdef.1).mul (ihb hfree.2 hdef.2)
    simpa [derivative, eval, identity_eq_self] using h
  | division a b iha ihb =>
    have h := (iha hfree.1 hdef.1).div (ihb hfree.2 hdef.2.1) hdef.2.2
    have heq : eval (derivative (division a b)) x0 =
        (eval (derivative a) x0 * eval b x0 - eval a x0 * eval (derivative b) x0) /
          eval b x0 ^ 2 := by
      simp only [derivative, eval, identity_eq_self]
      ring
    rw [heq]
    exact h
  | variable_ =>
    simpa [derivative, eval] using hasDerivAt_id x0
  | const_ v =>
    simpa [derivative, eval] using hasDerivAt_const x0 (v : ℝ)
  | sine a iha =>
    have h := (Real.hasDerivAt_sin (eval a x0)).comp x0 (iha hfree hdef)
    simpa [derivative, eval, identity_eq_self] using h
  | cosine a iha =>
    have h := (Real.hasDerivAt_cos (eval a x0)).comp x0 (iha hfree hdef)
    simpa [derivative, eval, identity_eq_self] using h
  | tangent a _ => exact absurd hfree id
  | exponentiation a iha =>
    have h := (Real.hasDerivAt_exp (eval a x0)).comp x0 (iha hfree hdef)
    simpa [derivative, eval, identity_eq_self] using h
  | logarithm a iha =>
    have h := (Real.hasDerivAt_log (ne_of_gt hdef.2)).comp x0 (iha hfree hdef.1)
    have heq : eval (derivative (logarithm a)) x0 =
        (eval a x0)⁻¹ * eval (derivative a) x0 := by
      simp only [derivative, eval, identity_eq_self]
      simp
    rw [heq]
    exact h

/-! ### A closing parenthesis after the text -/

theorem skip_ws_append_close (s t : List Char) :
    skip_ws (s ++ ')' :: t) = skip_ws s ++ ')' :: t := by
  induction s with
  | nil => simp [skip_ws]
  | cons c s ih =>
    by_cases hc : c = ' '
    · subst hc; simpa using ih
    · rw [List.cons_append, skip_ws_cons hc, skip_ws_cons hc, List.cons_append]

theorem eof_append_close (s t : List Char) : eof (s ++ ')' :: t) = false := by
  simp [eof, skip_ws_append_close]

theorem peek_append_close {s : List Char} (h : eof s = false) (t : List Char) :
    peek (s ++ ')' :: t) = peek s := by
  unfold peek
  rw [skip_ws_append_close]
  cases hs : skip_ws s with
  | nil => simp [eof, hs] at h
  | cons c u => simp

theorem peek_append_close_eof {s : List Char} (h : eof s = true) (t : List Char) :
    peek (s ++ ')' :: t) = ')' := by
  unfold peek
  rw [skip_ws_append_close, (eof_iff s).1 h]
  simp

theorem advance_append_close {s : List Char} (h : eof s = false) (t : List Char) :
    advance (s ++ ')' :: t) = advance s ++ ')' :: t := by
  unfold advance
  rw [skip_ws_append_close]
  cases hs : skip_ws s with
  | nil => simp [eof, hs] at h
  | cons c u => simp

theorem identifier_loop_append_close (s t : List Char) :
    identifier_loop (s ++ ')' :: t) =
      ((identifier_loop s).1, (identifier_loop s).2 ++ ')' :: t) := by
  induction s with
  | nil =>
    have h : (')' : Char).isAlpha = false := by decide
    simp [identifier_loop, h]
  | cons c s ih =>
    by_cases hc : c.isAlpha = true
    · simp [identifier_loop, hc, ih]
    · simp [identifier_loop, hc]

theorem literal_loop_append_close (s t : List Char) :
    literal_loop (s ++ ')' :: t) =
      ((literal_loop s).1, (literal_loop s).2 ++ ')' :: t) := by
  induction s with
  | nil =>
    have h : is_digit_or_dot ')' = false := by decide
    simp [literal_loop, h]
  | cons c s ih =>
    by_cases hc : is_digit_or_dot c = true
    · simp [literal_loop, hc, ih]
    · simp [literal_loop, hc]

theorem parse_identifier_append_close (s t : List Char) :
    parse_identifier (s ++ ')' :: t) =
      ((parse_identifier s).1, (parse_identifier s).2 ++ ')' :: t) := by
  unfold parse_identifier
  rw [skip_ws_append_close, identifier_loop_append_close]

theorem parse_literal_append_close (s t : List Char) :
    parse_literal (s ++ ')' :: t) =
      ((parse_literal s).1, (parse_literal s).2 ++ ')' :: t) := by
  unfold parse_literal
  rw [skip_ws_append_close, literal_loop_append_close]

theorem apply_node_ok_intro (f : expression → expression) {r : parse_result}
    {arg : expression} {s : List Char} (h : r = .ok (arg, s)) :
    apply_node f r = .ok (f arg, s) := by
  rw [h]; rfl

/-- A successful run of a parser function is not changed by a closing
parenthesis and more text after its input: it returns the same tree and
stops before the added text. -/
theorem parse_append_close (t : List Char) (n : Nat) :
    (∀ s e s1, parse_addition n s = .ok (e, s1) →
      parse_addition n (s ++ ')' :: t) = .ok (e, s1 ++ ')' :: t)) ∧
    (∀ lhs s e s1, addition_loop n lhs s = .ok (e, s1) →
      addition_loop n lhs (s ++ ')' :: t) = .ok (e, s1 ++ ')' :: t)) ∧
    (∀ s e s1, parse_multiplication n s = .ok (e, s1) →
      parse_multiplication n (s ++ ')' :: t) = .ok (e, s1 ++ ')' :: t)) ∧
    (∀ lhs s e s1, multiplication_loop n lhs s = .ok (e, s1) →
      multiplication_loop n lhs (s ++ ')' :: t) = .ok (e, s1 ++ ')' :: t)) ∧
    (∀ s e s1, parse_unary n s = .ok (e, s1) →
      parse_unary n (s ++ ')' :: t) = .ok (e, s1 ++ ')' :: t)) ∧
    (∀ s e s1, eof s = false → parse_parenthesis n s = .ok (e, s1) →
      parse_parenthesis n (s ++ ')' :: t) = .ok (e, s1 ++ ')' :: t)) := by
  induction n with
  | zero =>
    refine ⟨?_, ?_, ?_, ?_, ?_, ?_⟩ <;> intros <;>
      simp_all [parse_addition, addition_loop, parse_multiplication, multiplication_loop,
        parse_unary, parse_parenthesis]
  | succ n ih =>
    obtain ⟨iha, ihal, ihm, ihml, ihu, ihp⟩ := ih
    have hclose1 : (')' : Char) ≠ '+' := by decide
    have hclose2 : (')' : Char) ≠ '-' := by decide
    have hclose3 : (')' : Char) ≠ '*' := by decide
    have hclose4 : (')' : Char) ≠ '/' := by decide
    refine ⟨?_, ?_, ?_, ?_, ?_, ?_⟩
    · intro s e s1 h
      rw [parse_addition] at h ⊢
      cases hm : parse_multiplication n s with
      | error err => rw [hm] at h; simp at h
      | ok p =>
        obtain ⟨lhs, s2⟩ := p
        rw [hm] at h
        rw [ihm _ _ _ hm]
        exact ihal _ _ _ _ h
    · intro lhs s e s1 h
      rw [addition_loop] at h ⊢
      by_cases h1 : eof s = true
      · simp only [h1, ↓reduceIte, Except.ok.injEq, Prod.mk.injEq] at h
        simp only [eof_append_close, peek_append_close_eof h1, hclose1, hclose2, ↓reduceIte,
          Bool.false_eq_true, skip_ws_append_close, h.1, h.2]
      · have h1' : eof s = false := by simpa using h1
        simp only [h1', ↓reduceIte, Bool.false_eq_true] at h
        simp only [eof_append_close, peek_append_close h1', advance_append_close h1',
          ↓reduceIte, Bool.false_eq_true, skip_ws_append_close]
        split_ifs at h ⊢ with h2 h3
        · cases hm : parse_multiplication n (advance s) with
          | error err => rw [hm] at h; simp at h
          | ok p =>
            obtain ⟨rhs, s2⟩ := p
            rw [hm] at h
            rw [ihm _ _ _ hm]
            exact ihal _ _ _ _ h
        · cases hm : parse_multiplication n (advance s) with
          | error err => rw [hm] at h; simp at h
          | ok p =>
            obtain ⟨rhs, s2⟩ := p
            rw [hm] at h
            rw [ihm _ _ _ hm]
            exact ihal _ _ _ _ h
        · simp only [Except.ok.injEq, Prod.mk.injEq] at h
          rw [h.1, h.2]
    · intro s e s1 h
      rw [parse_multiplication] at h ⊢
      cases hm : parse_unary n s with
      | error err => rw [hm] at h; simp at h
      | ok p =>
        obtain ⟨lhs, s2⟩ := p
        rw [hm] at h
        rw [ihu _ _ _ hm]
        exact ihml _ _ _ _ h
    · intro lhs s e s1 h
      rw [multiplication_loop] at h ⊢
      by_cases h1 : eof s = true
      · simp only [h1, ↓reduceIte, Except.ok.injEq, Prod.mk.injEq] at h
        simp only [eof_append_close, peek_append_close_eof h1, hclose3, hclose4, ↓reduceIte,
          Bool.false_eq_true, skip_ws_append_close, h.1, h.2]
      · have h1' : eof s = false := by simpa using h1
        simp only [h1', ↓reduceIte, Bool.false_eq_true] at h
        simp only [eof_append_close, peek_append_close h1', advance_append_close h1',
          ↓reduceIte, Bool.false_eq_true, skip_ws_append_close]
        split_ifs at h ⊢ with h2 h3
        · cases hm : parse_unary n (advance s) with
          | error err => rw [hm] at h; simp at h
          | ok p =>
            obtain ⟨rhs, s2⟩ := p
            rw [hm] at h
            rw [ihu _ _ _ hm]
            exact ihml _ _ _ _ h
        · cases hm : parse_unary n (advance s) with
          | error err => rw [hm] at h; simp at h
          | ok p =>
            obtain ⟨rhs, s2⟩ := p
            rw [hm] at h
            rw [ihu _ _ _ hm]
            exact ihml _ _ _ _ h
        · simp only [Except.ok.injEq, Prod.mk.injEq] at h
          rw [h.1, h.2]
    · intro s e s1 h
      rw [parse_unary_succ] at h ⊢
      by_cases h1 : eof s = true
      · simp [h1] at h
      have h1' : eof s = false := by simpa using h1
      simp only [h1', ↓reduceIte, Bool.false_eq_true] at h
      simp only [eof_append_close, peek_append_close h1', advance_append_close h1',
        parse_identifier_append_close, parse_literal_append_close, ↓reduceIte,
        Bool.false_eq_true]
      split_ifs at h ⊢ with h2 h3 h4 h5 h6 h7
      · exact ihp _ _ _ h1' h
      · exact ihu _ _ _ h
      · obtain ⟨arg, harg, he⟩ := apply_node_ok h
        rw [he]
        exact apply_node_ok_intro _ (ihu _ _ _ harg)
      · simp only [Except.ok.injEq, Prod.mk.injEq] at h
        rw [h.1, h.2]
      · cases hf : function_node (parse_identifier s).1 with
        | none => rw [hf] at h; simp at h
        | some f =>
          rw [hf] at h
          simp only at h ⊢
          obtain ⟨arg, harg, he⟩ := apply_node_ok h
          rw [he]
          exact apply_node_ok_intro _ (ihu _ _ _ harg)
      · cases hl : lexical_cast (parse_literal s).1 with
        | none => rw [hl] at h; simp at h
        | some v =>
          rw [hl] at h
          simp only [Except.ok.injEq, Prod.mk.injEq] at h ⊢
          rw [h.1, h.2]
          exact ⟨rfl, rfl⟩
    · intro s e s1 he h
      rw [parse_parenthesis] at h ⊢
      rw [advance_append_close he]
      cases hm : parse_addition n (advance s) with
      | error err => rw [hm] at h; simp at h
      | ok p =>
        obtain ⟨inner, s2⟩ := p
        rw [hm] at h
        rw [iha _ _ _ hm]
        simp only at h ⊢
        by_cases h2 : eof s2 = true
        · simp [h2] at h
        have h2' : eof s2 = false := by simpa using h2
        simp only [h2', Bool.false_or, eof_append_close, peek_append_close h2',
          advance_append_close h2'] at h ⊢
        split_ifs at h ⊢
        simp only [Except.ok.injEq, Prod.mk.injEq] at h ⊢
        rw [h.1, h.2]
        exact ⟨rfl, rfl⟩

/-! ### From the parser functions to `parse` -/

theorem parse_ok_iff (s : String) (e : expression) :
    parse s = .ok e ↔
      ∃ s1, parse_addition (parse_budget s.toList) s.toList = .ok (e, s1) ∧ eof s1 = true := by
  unfold parse
  cases hp : parse_addition (parse_budget s.toList) s.toList with
  | error err => simp
  | ok p =>
    obtain ⟨r, s1⟩ := p
    by_cases he : eof s1 = true
    · simp only [he, Bool.not_true, Bool.false_eq_true, ↓reduceIte, Except.ok.injEq,
        Prod.mk.injEq]
      constructor
      · intro h; exact ⟨s1, ⟨h, rfl⟩, he⟩
      · rintro ⟨_, ⟨h, _⟩, _⟩; exact h
    · have he' : eof s1 = false := by simpa using he
      simp only [he', Bool.not_false, ↓reduceIte, Except.ok.injEq, Prod.mk.injEq]
      constructor
      · intro h; cases h
      · rintro ⟨s2, ⟨_, h2⟩, h3⟩
        rw [← h2, he'] at h3
        cases h3

theorem parse_error_of_parse_addition {n : Nat} {s : String} {err : parse_error}
    (h : parse_addition n s.toList = .error err) (hb : err ≠ .out_of_budget) :
    parse s = .error err := by
  unfold parse
  rw [parse_addition_budget_eq h (by simpa using hb)]

theorem parse_trailing_of_parse_addition {n : Nat} {s : String} {e : expression}
    {s1 : List Char} (h : parse_addition n s.toList = .ok (e, s1)) (hs : eof s1 = false) :
    parse s = .error (.runtime_error "expected eof") := by
  unfold parse
  rw [parse_addition_budget_eq h (by simp)]
  simp [hs]

theorem parse_multiplication_error {n : Nat} {s : List Char} {err : parse_error}
    (h : parse_unary n s = .error err) : parse_multiplication (n + 1) s = .error err := by
  rw [parse_multiplication, h]

theorem parse_addition_error {n : Nat} {s : List Char} {err : parse_error}
    (h : parse_multiplication n s = .error err) : parse_addition (n + 1) s = .error err := by
  rw [parse_addition, h]

theorem parse_of_parse_unary_error {n : Nat} {s : String} {err : parse_error}
    (h : parse_unary n s.toList = .error err) (hb : err ≠ .out_of_budget) :
    parse s = .error err :=
  parse_error_of_parse_addition (parse_addition_error (parse_multiplication_error h)) hb

theorem parse_unary_eof (n : Nat) {s : List Char} (h : eof s = true) :
    parse_unary (n + 1) s = .error (.runtime_error "unexcepted eof") := by
  rw [parse_unary_succ, if_pos h]

theorem eof_replicate (k : Nat) : eof (List.replicate k ' ') = true := by
  have h := skip_ws_replicate k []
  rw [List.append_nil] at h
  simp [eof, h]

theorem advance_append_close_eof {s : List Char} (h : eof s = true) (t : List Char) :
    advance (s ++ ')' :: t) = t := by
  unfold advance
  rw [skip_ws_append_close, (eof_iff s).1 h]
  simp

/-- A text that `parse_addition` reads to its end, between parentheses, is
read by `parse_unary` to the same tree. -/
theorem unary_parses_enclosed {s s1 : List Char} {e : expression} {n : Nat}
    (h : parse_addition n s = .ok (e, s1)) (hs : eof s1 = true) (t : List Char) :
    unary_parses ('(' :: (s ++ ')' :: t)) e t := by
  have hopen : ('(' : Char) ≠ ' ' := by decide
  have h1 := (parse_append_close t n).1 s e s1 h
  have := @unary_parses_parenthesis ('(' :: (s ++ ')' :: t)) (s1 ++ ')' :: t) e
    (eof_cons hopen _) (peek_cons hopen _) (by rw [advance_cons hopen]; exact ⟨n, h1⟩)
    (eof_append_close s1 t) (peek_append_close_eof hs t)
  rw [advance_append_close_eof hs] at this
  exact this

/-- Minus signs before a text that `parse_unary` reads. -/
theorem unary_parses_minuses (n : Nat) {s s1 : List Char} {e : expression}
    (h : unary_parses s e s1) :
    unary_parses (List.replicate n '-' ++ s) (nested_negation n e) s1 := by
  induction n with
  | zero => simpa [nested_negation] using h
  | succ n ih =>
    have hm : ('-' : Char) ≠ ' ' := by decide
    rw [List.replicate_succ, List.cons_append]
    exact unary_parses_minus (eof_cons hm _) (peek_cons hm _)
      (by rw [advance_cons hm]; exact ih)

theorem identifier_loop_all {id : List Char} (h : ∀ c ∈ id, c.isAlpha = true) :
    identifier_loop id = (id, []) := by
  induction id with
  | nil => rfl
  | cons c t ih =>
    have hc := h c (by simp)
    have ht := ih (fun d hd => h d (by simp [hd]))
    simp [identifier_loop, hc, ht]

theorem function_node_none {id : List Char}
    (h : id ≠ ['s', 'i', 'n'] ∧ id ≠ ['c', 'o', 's'] ∧ id ≠ ['t', 'a', 'n'] ∧
      id ≠ ['e', 'x', 'p'] ∧ id ≠ ['l', 'o', 'g']) : function_node id = none := by
  obtain ⟨h1, h2, h3, h4, h5⟩ := h
  simp [function_node, h1, h2, h3, h4, h5]

theorem isAlpha_ne {c : Char} (h : c.isAlpha = true) :
    c ≠ ' ' ∧ c ≠ '(' ∧ c ≠ '+' ∧ c ≠ '-' := by
  refine ⟨?_, ?_, ?_, ?_⟩ <;> (intro h0; rw [h0] at h; revert h; decide)

/-- `parse_unary` on an identifier that is neither `x` nor a function name. -/
theorem parse_unary_unknown_identifier {id : List Char} (hne : id ≠ [])
    (halpha : ∀ c ∈ id, c.isAlpha = true) (hx : id ≠ ['x'])
    (hnames : id ≠ ['s', 'i', 'n'] ∧ id ≠ ['c', 'o', 's'] ∧ id ≠ ['t', 'a', 'n'] ∧
      id ≠ ['e', 'x', 'p'] ∧ id ≠ ['l', 'o', 'g']) :
    parse_unary 1 id = .error (.runtime_error "syntax error") := by
  cases id with
  | nil => exact absurd rfl hne
  | cons c t =>
    have hc := halpha c (by simp)
    obtain ⟨hb, h1, h2, h3⟩ := isAlpha_ne hc
    have hid : parse_identifier (c :: t) = (c :: t, []) := by
      unfold parse_identifier
      rw [skip_ws_cons hb]
      exact identifier_loop_all halpha
    rw [parse_unary_succ]
    simp only [eof_cons hb, peek_cons hb, h1, h2, h3, hc, hid, hx, function_node_none hnames,
      ↓reduceIte, Bool.false_eq_true]

/-- `parse_unary` at a character that starts no term. -/
theorem parse_unary_unrecognized {s rest : List Char} {c : Char}
    (hs : skip_ws s = c :: rest) (h1 : c ≠ '(') (h2 : c ≠ '+') (h3 : c ≠ '-')
    (h4 : c.isAlpha = false) (h5 : c.isDigit = false) (h6 : c ≠ '.') :
    parse_unary 1 s = .error (.runtime_error "syntax error") := by
  have he : eof s = false := by simp [eof, hs]
  have hp : peek s = c := by simp [peek, hs]
  have hd : is_digit_or_dot c = false := by simp [is_digit_or_dot, h5, h6]
  rw [parse_unary_succ]
  simp only [he, hp, h1, h2, h3, h4, hd, ↓reduceIte, Bool.false_eq_true]

/-- `parse_addition` fails when the operand after a `+` fails. -/
theorem parse_addition_error_after_plus {s s1 : List Char} {lhs : expression} {m : Nat}
    {err : parse_error} (h1 : multiplication_parses s lhs s1) (he : eof s1 = false)
    (hp : peek s1 = '+') (h2 : parse_multiplication m (advance s1) = .error err)
    (hb : err ≠ .out_of_budget) :
    ∃ n, parse_addition n s = .error err := by
  obtain ⟨n1, h1⟩ := h1
  refine ⟨(n1 + m) + 1 + 1, ?_⟩
  rw [parse_addition, parse_multiplication_ok_mono h1 (by omega : n1 ≤ n1 + m + 1)]
  simp only
  rw [addition_loop]
  simp only [he, hp, ↓reduceIte, Bool.false_eq_true]
  rw [parse_multiplication_mono (by omega : m ≤ n1 + m) _ (by rw [h2]; simpa using hb), h2]

/-! ### `simplify` and the denoted function -/

theorem eval_of_is_zero {e : expression} (h : is_zero e = true) (x : ℝ) : eval e x = 0 := by
  rw [(is_zero_iff e).1 h]; simp [eval]

theorem eval_of_is_one {e : expression} (h : is_one e = true) (x : ℝ) : eval e x = 1 := by
  rw [(is_one_iff e).1 h]; simp [eval]

/-- Where a tree has a value, the simplified tree has the same value. -/
theorem simplify_defined_eval (e : expression) (x : ℝ) (h : defined_at e x) :
    defined_at (simplify e) x ∧ eval (simplify e) x = eval e x := by
  induction e with
  | negation a iha =>
    obtain ⟨hd, he⟩ := iha h
    rw [simplify_negation]
    split_ifs with hz
    · exact ⟨trivial, by simp [eval, ← he, eval_of_is_zero hz]⟩
    · exact ⟨hd, by simp [eval, he]⟩
  | addition a b iha ihb =>
    obtain ⟨hda, hea⟩ := iha h.1
    obtain ⟨hdb, heb⟩ := ihb h.2
    rw [simplify_addition]
    split_ifs with hz hz2
    · exact ⟨hdb, by simp [eval, ← hea, eval_of_is_zero hz, heb]⟩
    · exact ⟨hda, by simp [eval, ← heb, eval_of_is_zero hz2, hea]⟩
    · exact ⟨⟨hda, hdb⟩, by simp [eval, hea, heb]⟩
  | subtraction a b iha ihb =>
    obtain ⟨hda, hea⟩ := iha h.1
    obtain ⟨hdb, heb⟩ := ihb h.2
    rw [simplify_subtraction]
    split_ifs with hz hz2
    · rw [simplify_negation, simplify_simplify]
      split_ifs with hz3
      · exact ⟨trivial, by simp [eval, ← hea, ← heb, eval_of_is_zero hz,
          eval_of_is_zero hz3]⟩
      · exact ⟨hdb, by simp [eval, ← hea, eval_of_is_zero hz, heb]⟩
    · exact ⟨hda, by simp [eval, ← heb, eval_of_is_zero hz2, hea]⟩
    · exact ⟨⟨hda, hdb⟩, by simp [eval, hea, heb]⟩
  | multiplication a b iha ihb =>
    obtain ⟨hda, hea⟩ := iha h.1
    obtain ⟨hdb, heb⟩ := ihb h.2
    rw [simplify_multiplication]
    split_ifs with hz ho hz2 ho2
    · exact ⟨trivial, by simp [eval, ← hea, eval_of_is_zero hz]⟩
    · exact ⟨hdb, by simp [eval, ← hea, eval_of_is_one ho, heb]⟩
    · exact ⟨trivial, by simp [eval, ← heb, eval_of_is_zero hz2]⟩
    · exact ⟨hda, by simp [eval, ← heb, eval_of_is_one ho2, hea]⟩
    · exact ⟨⟨hda, hdb⟩, by simp [eval, hea, heb]⟩
  | division a b iha ihb =>
    obtain ⟨hda, hea⟩ := iha h.1
    obtain ⟨hdb, heb⟩ := ihb h.2.1
    rw [simplify_division]
    split_ifs with hz ho2
    · exact ⟨trivial, by simp [eval, ← hea, eval_of_is_zero hz]⟩
    · exact ⟨hda, by simp [eval, ← heb, eval_of_is_one ho2, hea]⟩
    · exact ⟨⟨hda, hdb, by rw [heb]; exact h.2.2⟩, by simp [eval, hea, heb]⟩
  | variable_ => rw [simplify_variable]; exact ⟨trivial, rfl⟩
  | const_ v => rw [simplify_const]; exact ⟨trivial, rfl⟩
  | sine a _ => rw [simplify_sine]; exact ⟨h, rfl⟩
  | cosine a _ => rw [simplify_cosine]; exact ⟨h, rfl⟩
  | tangent a _ => rw [simplify_tangent]; exact ⟨h, rfl⟩
  | exponentiation a iha =>
    obtain ⟨hd, he⟩ := iha h
    rw [simplify_exponentiation]
    split_ifs with hz
    · exact ⟨trivial, by simp [eval, ← he, eval_of_is_zero hz]⟩
    · exact ⟨hd, by simp [eval, he]⟩
  | logarithm a _ => rw [simplify_logarithm]; exact ⟨h, rfl⟩

theorem value_of_defined {e : expression} {x : ℝ} (h : defined_at e x) :
    value e x = some (eval e x) := by
  simp [value, h]

theorem value_of_not_defined {e : expression} {x : ℝ} (h : ¬ defined_at e x) :
    value e x = none := by
  simp [value, h]

/-- On the total extensions of the functions, as `eval` takes them, the
simplified tree evaluates as the tree does at every point. -/
theorem eval_simplify (e : expression) (x : ℝ) : eval (simplify e) x = eval e x := by
  induction e with
  | negation a iha =>
    rw [simplify_negation]
    split_ifs with hz
    · simp [eval, ← iha, eval_of_is_zero hz]
    · simp [eval, iha]
  | addition a b iha ihb =>
    rw [simplify_addition]
    split_ifs with hz hz2
    · simp [eval, ← iha, eval_of_is_zero hz, ihb]
    · simp [eval, ← ihb, eval_of_is_zero hz2, iha]
    · simp [eval, iha, ihb]
  | subtraction a b iha ihb =>
    rw [simplify_subtraction]
    split_ifs with hz hz2
    · rw [simplify_negation, simplify_simplify]
      split_ifs with hz3
      · simp [eval, ← iha, ← ihb, eval_of_is_zero hz, eval_of_is_zero hz3]
      · simp [eval, ← iha, eval_of_is_zero hz, ihb]
    · simp [eval, ← ihb, eval_of_is_zero hz2, iha]
    · simp [eval, iha, ihb]
  | multiplication a b iha ihb =>
    rw [simplify_multiplication]
    split_ifs with hz ho hz2 ho2
    · simp [eval, ← iha, eval_of_is_zero hz]
    · simp [eval, ← iha, eval_of_is_one ho, ihb]
    · simp [eval, ← ihb, eval_of_is_zero hz2]
    · simp [eval, ← ihb, eval_of_is_one ho2, iha]
    · simp [eval, iha, ihb]
  | division a b iha ihb =>
    rw [simplify_division]
    split_ifs with hz ho2
    · simp [eval, ← iha, eval_of_is_zero hz]
    · simp [eval, ← ihb, eval_of_is_one ho2, iha]
    · simp [eval, iha, ihb]
  | variable_ => rw [simplify_variable]
  | const_ v => rw [simplify_const]
  | sine a _ => rw [simplify_sine]
  | cosine a _ => rw [simplify_cosine]
  | tangent a _ => rw [simplify_tangent]
  | exponentiation a iha =>
    rw [simplify_exponentiation]
    split_ifs with hz
    · simp [eval, ← iha, eval_of_is_zero hz]
    · simp [eval, iha]
  | logarithm a _ => rw [simplify_logarithm]

/-! ### Literals outside the exact range -/

/-- The conversion rounds: a literal closer to `1` than to the next double
is read as `1`, and one below half the smallest double as `0`. -/
theorem lexical_cast_rounds :
    lexical_cast "1.0000000000000000000000001".toList = some 1 ∧
    lexical_cast "0.1".toList = some (mkRat 3602879701896397 36028797018963968) ∧
    lexical_cast "9007199254740993".toList = some 9007199254740992 := by
  set_option maxRecDepth 4000 in
  refine ⟨by decide, by decide, by decide⟩

theorem digits_value_append_zeros (k : Nat) : ∀ acc : Nat,
    List.foldl (fun acc c => 10 * acc + (c.toNat - '0'.toNat)) acc (List.replicate k '0') =
      acc * 10 ^ k := by
  induction k with
  | zero => intro acc; simp
  | succ k ih =>
    intro acc
    rw [List.replicate_succ, List.foldl_cons, ih]
    have : ('0' : Char).toNat - ('0' : Char).toNat = 0 := by decide
    rw [this]
    ring

theorem digits_value_one_zeros (k : Nat) :
    digits_value ('1' :: List.replicate k '0') = 10 ^ k := by
  unfold digits_value
  rw [List.foldl_cons, digits_value_append_zeros]
  have : ('1' : Char).toNat - ('0' : Char).toNat = 1 := by decide
  rw [this]
  ring

/-- A one followed by four hundred zeros is beyond the range of a double. -/
theorem lexical_cast_overflow : lexical_cast ('1' :: List.replicate 400 '0') = none := by
  have hd : ∀ c ∈ '1' :: List.replicate 400 '0', c.isDigit = true := by
    intro c hc
    simp only [List.mem_cons, List.mem_replicate] at hc
    rcases hc with rfl | ⟨_, rfl⟩ <;> decide
  rw [lexical_cast_digits (List.cons_ne_nil _ _) hd, digits_value_one_zeros]
  set_option maxRecDepth 100000 in
  set_option exponentiation.threshold 5000 in
  decide

/-- `parse_unary` at a literal that the numeric conversion rejects. -/
theorem parse_unary_rejected_literal {lit : List Char} (hne : lit ≠ [])
    (hall : ∀ c ∈ lit, is_digit_or_dot c = true) (hv : lexical_cast lit = none) :
    parse_unary 1 lit = .error .bad_lexical_cast := by
  cases lit with
  | nil => exact absurd rfl hne
  | cons c t =>
    have hc := hall c (by simp)
    have hb := is_digit_or_dot_ne_blank hc
    have hlit : parse_literal (c :: t) = (c :: t, []) := by
      unfold parse_literal
      rw [skip_ws_cons hb]
      have := @literal_loop_append (c :: t) [] hall token_end_nil
      rwa [List.append_nil] at this
    have h1 : c ≠ '(' := by intro h; rw [h] at hc; revert hc; decide
    have h2 : c ≠ '+' := by intro h; rw [h] at hc; revert hc; decide
    have h3 : c ≠ '-' := by intro h; rw [h] at hc; revert hc; decide
    have h4 : c.isAlpha = false := by
      unfold is_digit_or_dot at hc
      simp only [Bool.or_eq_true, decide_eq_true_eq] at hc
      rcases hc with hc | hc
      · exact isAlpha_of_isDigit _ hc
      · rw [hc]; decide
    rw [parse_unary_succ]
    simp only [eof_cons hb, peek_cons hb, h1, h2, h3, h4, hc, hlit, hv, ↓reduceIte,
      Bool.false_eq_true]

/-! ## The claims -/

/-- C1: `derivative` returns, for every root variant, exactly the tree of the
rule table of section 4.2, the reused operands being structural copies. -/
theorem derivative_rule_table (a b : expression) (c : ℚ) :
    derivative (const_ c) = const_ 0 ∧
    derivative variable_ = const_ 1 ∧
    derivative (negation a) = negation (derivative a) ∧
    derivative (addition a b) = addition (derivative a) (derivative b) ∧
    derivative (subtraction a b) = subtraction (derivative a) (derivative b) ∧
    derivative (multiplication a b) =
      addition (multiplication (derivative a) b) (multiplication a (derivative b)) ∧
    derivative (division a b) =
      division (subtraction (multiplication (derivative a) b) (multiplication (derivative b) a))
               (multiplication b b) ∧
    derivative (sine a) = multiplication (cosine a) (derivative a) ∧
    derivative (cosine a) = multiplication (negation (sine a)) (derivative a) ∧
    derivative (tangent a) =
      multiplication (division (const_ 1) (multiplication a a)) (derivative a) ∧
    derivative (exponentiation a) = multiplication (exponentiation a) (derivative a) ∧
    derivative (logarithm a) = multiplication (division (const_ 1) a) (derivative a) := by
  simp [derivative, identity, identity_eq_self]

/-- C2, at the failing input `tan x` and the point `π`: the text parses to
`tangent variable_`, the point is in the
domain of the claim, the function denoted by `tangent variable_` has
derivative `1` there, the tree `derivative` returns is
`1 / (x * x) * 1` with value `1 / (π * π) * 1`, and that value is not the
derivative. -/
theorem derivative_tangent_not_derivative :
    parse "tan x" = .ok (tangent variable_) ∧
    defined_at (tangent variable_) Real.pi ∧
    derivative (tangent variable_) =
      multiplication (division (const_ 1) (multiplication variable_ variable_)) (const_ 1) ∧
    eval (derivative (tangent variable_)) Real.pi = 1 / (Real.pi * Real.pi) * 1 ∧
    HasDerivAt (eval (tangent variable_)) 1 Real.pi ∧
    ¬ HasDerivAt (eval (tangent variable_)) (eval (derivative (tangent variable_)) Real.pi)
        Real.pi := by
  have hcos : Real.cos Real.pi ≠ 0 := by rw [Real.cos_pi]; norm_num
  have hfun : eval (tangent variable_) = Real.tan := by
    funext x; simp [eval]
  have hval : eval (derivative (tangent variable_)) Real.pi = 1 / (Real.pi * Real.pi) * 1 := by
    simp [derivative, eval, identity]
  have hone : HasDerivAt (eval (tangent variable_)) 1 Real.pi := by
    rw [hfun]
    have h := Real.hasDerivAt_tan hcos
    rw [Real.cos_pi] at h
    simpa using h
  refine ⟨by decide, ⟨trivial, by simp [eval]⟩, by simp [derivative, identity], hval,
    hone, ?_⟩
  intro h
  have huniq := h.unique hone
  rw [hval] at huniq
  have hpi : (3 : ℝ) < Real.pi := Real.pi_gt_three
  have hpos : (0 : ℝ) < Real.pi * Real.pi := by positivity
  have hgt : (1 : ℝ) < Real.pi * Real.pi := by nlinarith
  have hlt : 1 / (Real.pi * Real.pi) * 1 < 1 := by
    rw [mul_one, div_lt_one hpos]
    exact hgt
  linarith

/-- C3: `simplify` on a multiplication, with `sa = simplify a` and
`sb = simplify b`: `const_ 0` when `sa` or `sb` is a zero constant, otherwise
`sb` when `sa` is the constant one, otherwise `sa` when `sb` is the constant
one, otherwise the multiplication of `sa` and `sb`; in particular `const_ 0`
when `sa` is the constant one and `sb` is a zero constant. -/
theorem simplify_multiplication_rule (a b : expression) :
    simplify (multiplication a b) =
      (if is_zero (simplify a) = true ∨ is_zero (simplify b) = true then const_ 0
       else if is_one (simplify a) = true then simplify b
       else if is_one (simplify b) = true then simplify a
       else multiplication (simplify a) (simplify b)) ∧
    (is_one (simplify a) = true → is_zero (simplify b) = true →
      simplify (multiplication a b) = const_ 0) := by
  have key : simplify (multiplication a b) =
      (if is_zero (simplify a) = true ∨ is_zero (simplify b) = true then const_ 0
       else if is_one (simplify a) = true then simplify b
       else if is_one (simplify b) = true then simplify a
       else multiplication (simplify a) (simplify b)) := by
    rw [simplify_multiplication]
    by_cases hz : is_zero (simplify a) = true
    · simp [hz]
    · by_cases hz2 : is_zero (simplify b) = true
      · have hb : simplify b = const_ 0 := (is_zero_iff _).1 hz2
        by_cases ho : is_one (simplify a) = true
        · simp [hz, ho, hz2, hb]
        · simp [hz, ho, hz2]
      · simp [hz, hz2]
  refine ⟨key, ?_⟩
  intro _ hz2
  rw [key, if_pos (Or.inr hz2)]

/-- C3, at the operands `1` and `0`. -/
theorem simplify_multiplication_rule_witness :
    is_one (simplify (const_ 1)) = true ∧ is_zero (simplify (const_ 0)) = true ∧
    simplify (multiplication (const_ 1) (const_ 0)) = const_ 0 :=
  have h1 : is_one (simplify (const_ 1)) = true := by decide
  have h0 : is_zero (simplify (const_ 0)) = true := by decide
  ⟨h1, h0, (simplify_multiplication_rule (const_ 1) (const_ 0)).2 h1 h0⟩

/-- C4: `simplify` on a subtraction: `simplify (negation b)` when
`simplify a` is a zero constant, otherwise `simplify a` when `simplify b` is
a zero constant, otherwise the subtraction of the two simplified operands;
`0 - 0` gives `const_ 0` and `0 - x` gives `negation variable_`. -/
theorem simplify_subtraction_rule (a b : expression) :
    simplify (subtraction a b) =
      (if is_zero (simplify a) = true then simplify (negation b)
       else if is_zero (simplify b) = true then simplify a
       else subtraction (simplify a) (simplify b)) ∧
    simplify (subtraction (const_ 0) (const_ 0)) = const_ 0 ∧
    simplify (subtraction (const_ 0) variable_) = negation variable_ := by
  refine ⟨?_, by decide, by decide⟩
  rw [simplify_subtraction]
  have h : simplify (negation (simplify b)) = simplify (negation b) := by
    rw [simplify_negation, simplify_negation, simplify_simplify]
  rw [h]

/-- C5: `simplify` leaves a `sine`, `cosine`, `tangent` or `logarithm` node
and its operand untouched, also when the operand is reducible; on an
`exponentiation` it simplifies the operand and returns `const_ 1` when that
is a zero constant; `variable_` and `const_` are returned as they are. -/
theorem simplify_function_nodes (a : expression) (c : ℚ) :
    simplify (sine a) = sine a ∧
    simplify (cosine a) = cosine a ∧
    simplify (tangent a) = tangent a ∧
    simplify (logarithm a) = logarithm a ∧
    simplify (sine (addition (const_ 0) variable_)) = sine (addition (const_ 0) variable_) ∧
    simplify (exponentiation a) =
      (if is_zero (simplify a) = true then const_ 1 else exponentiation (simplify a)) ∧
    simplify variable_ = variable_ ∧
    simplify (const_ c) = const_ c :=
  ⟨simplify_sine a, simplify_cosine a, simplify_tangent a, simplify_logarithm a,
   simplify_sine _, simplify_exponentiation a, simplify_variable, simplify_const c⟩

/-- C6, as stated, fails: a one followed by four hundred zeros is a run of
digits, the numeric conversion rejects it as beyond the range of a double,
and `parse` throws `bad_lexical_cast` instead of returning a tree, alone and
as the right operand of `x +`. -/
theorem parse_left_associative_counterexample :
    (∀ c ∈ '1' :: List.replicate 400 '0', c.isDigit = true) ∧
    lexical_cast ('1' :: List.replicate 400 '0') = none ∧
    parse (String.mk ('1' :: List.replicate 400 '0')) = .error .bad_lexical_cast ∧
    parse (String.mk ("x + ".toList ++ '1' :: List.replicate 400 '0')) =
      .error .bad_lexical_cast ∧
    ¬ (∃ e, parse (String.mk ('1' :: List.replicate 400 '0')) = .ok e) := by
  have hd : ∀ c ∈ '1' :: List.replicate 400 '0', c.isDigit = true := by
    intro c hc
    simp only [List.mem_cons, List.mem_replicate] at hc
    rcases hc with rfl | ⟨_, rfl⟩ <;> decide
  have hu := parse_unary_rejected_literal (List.cons_ne_nil _ _)
    (fun c hc => is_digit_or_dot_of_isDigit (hd c hc)) lexical_cast_overflow
  have hp : parse (String.mk ('1' :: List.replicate 400 '0')) = .error .bad_lexical_cast :=
    @parse_of_parse_unary_error 1 (String.mk ('1' :: List.replicate 400 '0')) _ hu (by simp)
  refine ⟨hd, lexical_cast_overflow, hp, ?_, ?_⟩
  · have hplus : ('+' : Char) ≠ ' ' := by decide
    have hstop : stops_multiplication (' ' :: '+' :: ' ' :: '1' :: List.replicate 400 '0') := by
      right
      rw [← peek_skip_ws, skip_ws_blank, peek_skip_ws, peek_cons hplus]
      exact ⟨by decide, by decide⟩
    have hm : multiplication_parses
        ('x' :: ' ' :: '+' :: ' ' :: '1' :: List.replicate 400 '0') variable_
        ('+' :: ' ' :: '1' :: List.replicate 400 '0') := by
      have := multiplication_parses_intro (unary_parses_x (token_end_blank _))
        (multiplication_loop_stop variable_ hstop)
      rwa [skip_ws_blank, skip_ws_cons hplus] at this
    have hu2 : parse_unary 1 (' ' :: '1' :: List.replicate 400 '0') =
        .error .bad_lexical_cast := by
      rw [← (parse_skip_ws 1 _).1, skip_ws_blank, (parse_skip_ws 1 _).1]
      exact hu
    obtain ⟨n, hn⟩ := parse_addition_error_after_plus hm (eof_cons hplus _)
      (peek_cons hplus _)
      (by rw [advance_cons hplus]; exact parse_multiplication_error hu2) (by simp)
    exact @parse_error_of_parse_addition n
      (String.mk ("x + ".toList ++ '1' :: List.replicate 400 '0')) _ hn (by simp)
  · rintro ⟨e, he⟩
    rw [hp] at he
    cases he

/-- C6, amended: `parse` is left-associative, `*` and `/` binding tighter
than `+` and `-`: operand tokens (`x` or a run of digits that the numeric
conversion accepts) joined by operators that are all `+` or `-`, or all `*`
or `/`, with any number of blanks around each operator, parse to the
left-nested tree, a literal standing for the constant of its converted
value; `x - x - x` is `(x - x) - x` and `x + x * 2` is `x + (x * 2)`. -/
theorem parse_left_associative (first : operand_token) (items : List chain_item)
    (hfirst : first.well_formed) (hitems : ∀ it ∈ items, it.operand.well_formed) :
    ((∀ it ∈ items, it.op = '+' ∨ it.op = '-') →
      parse (String.mk (first.text ++ items_text items)) =
        .ok (chain_tree first.tree items)) ∧
    ((∀ it ∈ items, it.op = '*' ∨ it.op = '/') →
      parse (String.mk (first.text ++ items_text items)) =
        .ok (chain_tree first.tree items)) ∧
    parse "x - x - x" = .ok (subtraction (subtraction variable_ variable_) variable_) ∧
    parse "x + x * 2" = .ok (addition variable_ (multiplication variable_ (const_ 2))) := by
  have hnil : stops_multiplication [] := Or.inl rfl
  have hnil2 : stops_addition [] := Or.inl rfl
  refine ⟨?_, ?_, by decide, by decide⟩
  · intro hops
    have hops4 : ∀ i ∈ items, i.op = '+' ∨ i.op = '-' ∨ i.op = '*' ∨ i.op = '/' := by
      intro i hi; rcases hops i hi with h | h <;> simp [h]
    have hloop := addition_loop_items items first.tree [] hitems hops token_end_nil hnil hnil2
    have hm := multiplication_parses_intro
      (unary_parses_operand_token hfirst (token_end_items hops4 token_end_nil))
      (multiplication_loop_stop first.tree (stops_multiplication_items hops hnil))
    obtain ⟨n, hn⟩ := addition_parses_intro hm (addition_loop_parses_skip_ws.2 hloop)
    rw [List.append_nil] at hn
    exact parse_of_parse_addition hn rfl
  · intro hops
    have hops4 : ∀ i ∈ items, i.op = '+' ∨ i.op = '-' ∨ i.op = '*' ∨ i.op = '/' := by
      intro i hi; rcases hops i hi with h | h <;> simp [h]
    have hloop := multiplication_loop_items items first.tree [] hitems hops token_end_nil hnil
    have hm := multiplication_parses_intro
      (unary_parses_operand_token hfirst (token_end_items hops4 token_end_nil)) hloop
    obtain ⟨n, hn⟩ := addition_parses_intro hm
      (addition_loop_stop (chain_tree first.tree items) (Or.inl (by simp [eof])))
    rw [List.append_nil] at hn
    exact parse_of_parse_addition hn (by simp [eof])

/-- C6, amended, at the chain `12+x -  3`. -/
theorem parse_left_associative_witness :
    (operand_token.literal "12".toList).well_formed ∧
    (∀ it ∈ [chain_item.mk 0 '+' 0 operand_token.x,
        chain_item.mk 1 '-' 2 (operand_token.literal "3".toList)],
      it.operand.well_formed) ∧
    (∀ it ∈ [chain_item.mk 0 '+' 0 operand_token.x,
        chain_item.mk 1 '-' 2 (operand_token.literal "3".toList)],
      it.op = '+' ∨ it.op = '-') ∧
    parse (String.mk ((operand_token.literal "12".toList).text ++
      items_text [chain_item.mk 0 '+' 0 operand_token.x,
        chain_item.mk 1 '-' 2 (operand_token.literal "3".toList)])) =
      .ok (chain_tree (operand_token.literal "12".toList).tree
        [chain_item.mk 0 '+' 0 operand_token.x,
          chain_item.mk 1 '-' 2 (operand_token.literal "3".toList)]) ∧
    String.mk ((operand_token.literal "12".toList).text ++
      items_text [chain_item.mk 0 '+' 0 operand_token.x,
        chain_item.mk 1 '-' 2 (operand_token.literal "3".toList)]) = "12+x -  3" ∧
    chain_tree (operand_token.literal "12".toList).tree
        [chain_item.mk 0 '+' 0 operand_token.x,
          chain_item.mk 1 '-' 2 (operand_token.literal "3".toList)] =
      subtraction (addition (const_ 12) variable_) (const_ 3) :=
  have h1 : (operand_token.literal "12".toList).well_formed :=
    ⟨by decide, by decide⟩
  have h2 : ∀ it ∈ [chain_item.mk 0 '+' 0 operand_token.x,
        chain_item.mk 1 '-' 2 (operand_token.literal "3".toList)],
      it.operand.well_formed := by
    intro it hit
    simp only [List.mem_cons, List.mem_singleton, List.not_mem_nil, or_false] at hit
    rcases hit with rfl | rfl
    · trivial
    · exact ⟨by decide, by decide⟩
  have h3 : ∀ it ∈ [chain_item.mk 0 '+' 0 operand_token.x,
        chain_item.mk 1 '-' 2 (operand_token.literal "3".toList)],
      it.op = '+' ∨ it.op = '-' := by
    intro it hit
    simp only [List.mem_cons, List.mem_singleton, List.not_mem_nil, or_false] at hit
    rcases hit with rfl | rfl
    · exact Or.inl rfl
    · exact Or.inr rfl
  ⟨h1, h2, h3, (parse_left_associative _ _ h1 h2).1 h3, by decide, by decide⟩

/-- C7: a function name takes the one `parse_unary` production that follows
it as its operand: after `sin`, `cos`, `tan`, `exp` or `log` and a character
that is not a letter, `parse_unary` returns what `parse_unary` returns
there, wrapped in the function's node.  `exp x` and `exp(x)` parse to the
same tree, and in `sin x + 1` the operand is `x`; likewise for the other
names. -/
theorem function_takes_one_unary (n : Nat) (rest : List Char)
    (h : ∀ d ∈ rest.head?, d.isAlpha = false) :
    (∀ node name, (node, name) ∈ [(sine, "sin"), (cosine, "cos"), (tangent, "tan"),
        (exponentiation, "exp"), (logarithm, "log")] →
      parse_unary (n + 1) (name.toList ++ rest) = apply_node node (parse_unary n rest)) ∧
    parse "exp x" = .ok (exponentiation variable_) ∧
    parse "exp(x)" = .ok (exponentiation variable_) ∧
    parse "sin x + 1" = .ok (addition (sine variable_) (const_ 1)) ∧
    parse "cos x + 1" = .ok (addition (cosine variable_) (const_ 1)) ∧
    parse "tan x + 1" = .ok (addition (tangent variable_) (const_ 1)) ∧
    parse "exp x + 1" = .ok (addition (exponentiation variable_) (const_ 1)) ∧
    parse "log x + 1" = .ok (addition (logarithm variable_) (const_ 1)) ∧
    parse "sin(x)" = parse "sin x" ∧ parse "cos(x)" = parse "cos x" ∧
    parse "tan(x)" = parse "tan x" ∧ parse "log(x)" = parse "log x" := by
  refine ⟨?_, by decide, by decide, by decide, by decide, by decide, by decide, by decide,
    by decide, by decide, by decide, by decide⟩
  intro node name hmem
  simp only [List.mem_cons, Prod.mk.injEq, List.mem_singleton, List.not_mem_nil,
    or_false] at hmem
  rcases hmem with ⟨rfl, rfl⟩ | ⟨rfl, rfl⟩ | ⟨rfl, rfl⟩ | ⟨rfl, rfl⟩ | ⟨rfl, rfl⟩
  · exact @parse_unary_name 's' 'i' 'n' sine (by decide) (by decide) (by decide) rfl n rest h
  · exact @parse_unary_name 'c' 'o' 's' cosine (by decide) (by decide) (by decide) rfl n rest h
  · exact @parse_unary_name 't' 'a' 'n' tangent (by decide) (by decide) (by decide) rfl n rest h
  · exact @parse_unary_name 'e' 'x' 'p' exponentiation (by decide) (by decide) (by decide) rfl n rest h
  · exact @parse_unary_name 'l' 'o' 'g' logarithm (by decide) (by decide) (by decide) rfl n rest h

/-- C7, at the text ` (x) * 2` after the name and with a budget of 6: the
operand of `sin` is `x`, and `parse_unary` stops before the `*`. -/
theorem function_takes_one_unary_witness :
    (∀ d ∈ " (x) * 2".toList.head?, d.isAlpha = false) ∧
    parse_unary 6 ("sin".toList ++ " (x) * 2".toList) =
      apply_node sine (parse_unary 5 " (x) * 2".toList) ∧
    parse_unary 6 ("sin".toList ++ " (x) * 2".toList) =
      .ok (sine variable_, " * 2".toList) :=
  have h : ∀ d ∈ " (x) * 2".toList.head?, d.isAlpha = false := by decide
  ⟨h, (function_takes_one_unary 5 " (x) * 2".toList h).1 sine "sin" (by simp), by decide⟩

/-- C8, as stated, fails: `1000000` is a literal and parses, the constant
prints as `1e+06`, and parsing that stops at the `e` with input left over. -/
theorem print_parse_round_trip_counterexample :
    arith_text "1000000" = true ∧
    parse "1000000" = .ok (const_ 1000000) ∧
    print (const_ 1000000) = "1e+06".toList ∧
    parse (String.mk (print (const_ 1000000))) = .error (.runtime_error "expected eof") ∧
    ¬ (∀ (s : String) (e : expression), arith_text s = true → parse s = .ok e →
        parse (String.mk (print e)) = .ok e) := by
  refine ⟨by decide, by decide, by decide, by decide, ?_⟩
  intro h
  have h1 := h "1000000" (const_ 1000000) (by decide) (by decide)
  revert h1
  decide

/-- C8, amended: for every text that uses only literals, `x`, `+ - * /`,
unary signs and parentheses and that parses to a tree `e` in which every
constant prints as a literal that converts back to it, parsing the printed
form of `e` succeeds with a tree equal to `e`, so with the same derivative. -/
theorem print_parse_round_trip (s : String) (e : expression)
    (_hs : arith_text s = true) (_hparse : parse s = .ok e) (hconst : all_printable e) :
    ∃ e1, parse (String.mk (print e)) = .ok e1 ∧ e1 = e ∧ derivative e1 = derivative e :=
  ⟨e, parse_print e hconst, rfl, rfl⟩

/-- C8, amended, at the text `(x + 2) / (x - 0.5)`. -/
theorem print_parse_round_trip_witness :
    arith_text "(x + 2) / (x - 0.5)" = true ∧
    parse "(x + 2) / (x - 0.5)" =
      .ok (division (addition variable_ (const_ 2))
        (subtraction variable_ (const_ (mkRat 1 2)))) ∧
    all_printable (division (addition variable_ (const_ 2))
        (subtraction variable_ (const_ (mkRat 1 2)))) ∧
    ∃ e1, parse (String.mk (print (division (addition variable_ (const_ 2))
        (subtraction variable_ (const_ (mkRat 1 2)))))) = .ok e1 ∧
      e1 = division (addition variable_ (const_ 2))
        (subtraction variable_ (const_ (mkRat 1 2))) ∧
      derivative e1 = derivative (division (addition variable_ (const_ 2))
        (subtraction variable_ (const_ (mkRat 1 2)))) :=
  have h1 : arith_text "(x + 2) / (x - 0.5)" = true := by decide
  have h2 : parse "(x + 2) / (x - 0.5)" =
      .ok (division (addition variable_ (const_ 2))
        (subtraction variable_ (const_ (mkRat 1 2)))) := by decide
  have h3 : all_printable (division (addition variable_ (const_ 2))
        (subtraction variable_ (const_ (mkRat 1 2)))) :=
    ⟨⟨trivial, (by decide : printable 2)⟩, trivial, (by decide : printable (mkRat 1 2))⟩
  ⟨h1, h2, h3, print_parse_round_trip _ _ h1 h2 h3⟩

/-- C9: a binary node prints its left operand, the operator between two
blanks and its right operand, the left operand between parentheses exactly
when its precedence class is strictly lower than the node's and the right
operand exactly when its class is lower than or equal to the node's; a
negation prints `-` and a function its name and a blank, followed by the
operand, between parentheses exactly when the operand is a binary node.
`x + (x + 2)` keeps its parentheses and the left operand of
`(a - b) - c` has none. -/
theorem print_contract (a b c : expression) :
    (∀ node op, (node, op) ∈ [(addition, '+'), (subtraction, '-'), (multiplication, '*'),
        (division, '/')] →
      print (node a b) =
        (if (get_precedence a).rank < (get_precedence (node a b)).rank
          then wrapped (print a) else print a) ++ [' ', op, ' '] ++
        (if (get_precedence b).rank ≤ (get_precedence (node a b)).rank
          then wrapped (print b) else print b)) ∧
    print (negation a) = "-".toList ++ (if is_binary a then wrapped (print a) else print a) ∧
    (∀ node name, (node, name) ∈ [(sine, "sin"), (cosine, "cos"), (tangent, "tan"),
        (exponentiation, "exp"), (logarithm, "log")] →
      print (node a) =
        name.toList ++ " ".toList ++ (if is_binary a then wrapped (print a) else print a)) ∧
    print (addition variable_ (addition variable_ (const_ 2))) = "x + (x + 2)".toList ∧
    print (subtraction (subtraction a b) c) =
      print (subtraction a b) ++ " - ".toList ++
        (if (get_precedence c).rank ≤ precedence.addition.rank
          then wrapped (print c) else print c) := by
  have hbin : ∀ e : expression,
      ((get_precedence e).rank < precedence.unary.rank) = (is_binary e = true) := by
    intro e; cases e <;> simp [get_precedence, precedence.rank, is_binary]
  refine ⟨?_, ?_, ?_, by decide, ?_⟩
  · intro node op h
    simp only [List.mem_cons, Prod.mk.injEq, List.mem_singleton, List.not_mem_nil,
      or_false] at h
    rcases h with ⟨rfl, rfl⟩ | ⟨rfl, rfl⟩ | ⟨rfl, rfl⟩ | ⟨rfl, rfl⟩ <;>
      simp [print, print_lhs, print_rhs, wrapped, get_precedence]
  · have hp : get_precedence (negation a) = precedence.unary := rfl
    simp only [print, print_lhs, hp, hbin]
    rfl
  · intro node name h
    simp only [List.mem_cons, Prod.mk.injEq, List.mem_singleton, List.not_mem_nil,
      or_false] at h
    have h1 : get_precedence (sine a) = precedence.unary := rfl
    have h2 : get_precedence (cosine a) = precedence.unary := rfl
    have h3 : get_precedence (tangent a) = precedence.unary := rfl
    have h4 : get_precedence (exponentiation a) = precedence.unary := rfl
    have h5 : get_precedence (logarithm a) = precedence.unary := rfl
    rcases h with ⟨rfl, rfl⟩ | ⟨rfl, rfl⟩ | ⟨rfl, rfl⟩ | ⟨rfl, rfl⟩ | ⟨rfl, rfl⟩ <;>
      simp only [print, print_lhs, h1, h2, h3, h4, h5, hbin] <;> rfl
  · simp [print, print_lhs, print_rhs, wrapped, get_precedence, precedence.rank]

/-- C10: the scenarios of section 8 run through `test` of `main.cpp`: for
`x + 5` the derivative prints `1 + 0` and the simplified derivative `1`; for
`x + x * 2` the simplified derivative prints `1 + 2`. -/
theorem test_scenarios :
    test "x + 5" = .ok ("x + 5".toList, "1 + 0".toList, "1".toList) ∧
    test "x + x * 2" =
      .ok ("x + x * 2".toList, "1 + (1 * 2 + x * 0)".toList, "1 + 2".toList) := by
  constructor <;> decide

/-- C11: a text that parses, followed by `)`, is rejected with the
`expected eof` error of `parse`: the same tree is read and the `)` is left
over; `x x` and `2x` are rejected with the same error. -/
theorem trailing_input_rejected (s : String) (e : expression) (h : parse s = .ok e) :
    parse (s ++ ")") = .error (.runtime_error "expected eof") ∧
    parse "x x" = .error (.runtime_error "expected eof") ∧
    parse "2x" = .error (.runtime_error "expected eof") := by
  refine ⟨?_, by decide, by decide⟩
  obtain ⟨s1, hp, _⟩ := (parse_ok_iff s e).1 h
  have h1 := (parse_append_close [] _).1 _ _ _ hp
  have hl : (s ++ ")").toList = s.toList ++ [')'] := by simp
  exact @parse_trailing_of_parse_addition _ (s ++ ")") e (s1 ++ [')'])
    (by rw [hl]; exact h1) (eof_append_close s1 [])

/-- C11, at the text `x + 5`. -/
theorem trailing_input_rejected_witness :
    parse "x + 5" = .ok (addition variable_ (const_ 5)) ∧
    parse ("x + 5" ++ ")") = .error (.runtime_error "expected eof") :=
  have h : parse "x + 5" = .ok (addition variable_ (const_ 5)) := by decide
  ⟨h, (trailing_input_rejected "x + 5" _ h).1⟩

/-- C13: where a term is expected and only blanks are left, `parse` fails
with the `unexcepted eof` error of `error_if_eof`: on a text `w` of `k`
blanks, and on `(`, `-`, `x +` and `sin` followed by `w`; `(` alone reports
this error, not a missing `)`. -/
theorem unexpected_end_rejected (k : Nat) :
    parse (String.mk (List.replicate k ' ')) = .error (.runtime_error "unexcepted eof") ∧
    parse ("(" ++ String.mk (List.replicate k ' ')) =
      .error (.runtime_error "unexcepted eof") ∧
    parse ("-" ++ String.mk (List.replicate k ' ')) =
      .error (.runtime_error "unexcepted eof") ∧
    parse ("x +" ++ String.mk (List.replicate k ' ')) =
      .error (.runtime_error "unexcepted eof") ∧
    parse ("sin" ++ String.mk (List.replicate k ' ')) =
      .error (.runtime_error "unexcepted eof") ∧
    parse "(" = .error (.runtime_error "unexcepted eof") := by
  have hw := eof_replicate k
  have hu : ∀ n, parse_unary (n + 1) (List.replicate k ' ') =
      .error (.runtime_error "unexcepted eof") := fun n => parse_unary_eof n hw
  have hopen : ('(' : Char) ≠ ' ' := by decide
  have hminus : ('-' : Char) ≠ ' ' := by decide
  have hplus : ('+' : Char) ≠ ' ' := by decide
  refine ⟨?_, ?_, ?_, ?_, ?_, by decide⟩
  · exact @parse_of_parse_unary_error 1 (String.mk (List.replicate k ' ')) _ (hu 0) (by simp)
  · have hpar : parse_parenthesis 4 ('(' :: List.replicate k ' ') =
        .error (.runtime_error "unexcepted eof") := by
      rw [parse_parenthesis, advance_cons hopen,
        parse_addition_error (parse_multiplication_error (hu 0))]
    have hun : parse_unary 5 ('(' :: List.replicate k ' ') =
        .error (.runtime_error "unexcepted eof") := by
      rw [parse_unary_succ]
      simp only [eof_cons hopen, peek_cons hopen, ↓reduceIte, Bool.false_eq_true]
      exact hpar
    exact @parse_of_parse_unary_error 5 ("(" ++ String.mk (List.replicate k ' ')) _
      (by simpa using hun) (by simp)
  · have hun : parse_unary 2 ('-' :: List.replicate k ' ') =
        .error (.runtime_error "unexcepted eof") := by
      rw [parse_unary_succ]
      have h1 : ('-' : Char) ≠ '(' := by decide
      have h2 : ('-' : Char) ≠ '+' := by decide
      simp only [eof_cons hminus, peek_cons hminus, advance_cons hminus, h1, h2, ↓reduceIte,
        Bool.false_eq_true, hu 0, apply_node]
    exact @parse_of_parse_unary_error 2 ("-" ++ String.mk (List.replicate k ' ')) _
      (by simpa using hun) (by simp)
  · have hstop : stops_multiplication (' ' :: '+' :: List.replicate k ' ') := by
      right
      rw [← peek_skip_ws, skip_ws_blank, peek_skip_ws, peek_cons hplus]
      exact ⟨by decide, by decide⟩
    have hm : multiplication_parses ('x' :: ' ' :: '+' :: List.replicate k ' ') variable_
        ('+' :: List.replicate k ' ') := by
      have := multiplication_parses_intro (unary_parses_x (token_end_blank _))
        (multiplication_loop_stop variable_ hstop)
      rwa [skip_ws_blank, skip_ws_cons hplus] at this
    obtain ⟨n, hn⟩ := parse_addition_error_after_plus hm (eof_cons hplus _)
      (peek_cons hplus _)
      (by rw [advance_cons hplus]; exact parse_multiplication_error (hu 0)) (by simp)
    exact @parse_error_of_parse_addition n ("x +" ++ String.mk (List.replicate k ' ')) _
      (by simpa using hn) (by simp)
  · have hhead : ∀ d ∈ (List.replicate k ' ').head?, d.isAlpha = false := by
      intro d hd
      cases k with
      | zero => simp at hd
      | succ k =>
        simp only [List.replicate_succ, List.head?_cons, Option.mem_def,
          Option.some.injEq] at hd
        rw [← hd]; decide
    have hun : parse_unary 2 ('s' :: 'i' :: 'n' :: List.replicate k ' ') =
        .error (.runtime_error "unexcepted eof") := by
      rw [@parse_unary_name 's' 'i' 'n' sine (by decide) (by decide) (by decide) rfl 1 _ hhead,
        hu 0]
      rfl
    exact @parse_of_parse_unary_error 2 ("sin" ++ String.mk (List.replicate k ' ')) _
      (by simpa using hun) (by simp)

/-- C14: where a term is expected, a run of letters other than `x`, `sin`,
`cos`, `tan`, `exp` and `log`, and a first non-blank character that is
neither `(`, `+`, `-`, a letter, a digit nor `.`, are rejected with the
`syntax error` error of `parse_unary`. -/
theorem syntax_error_rejected :
    (∀ id : List Char, id ≠ [] → (∀ c ∈ id, c.isAlpha = true) →
      id ∉ ["x".toList, "sin".toList, "cos".toList, "tan".toList, "exp".toList,
        "log".toList] →
      parse (String.mk id) = .error (.runtime_error "syntax error")) ∧
    (∀ (s : String) (c : Char) (rest : List Char), skip_ws s.toList = c :: rest →
      c ≠ '(' → c ≠ '+' → c ≠ '-' → c.isAlpha = false → c.isDigit = false → c ≠ '.' →
      parse s = .error (.runtime_error "syntax error")) ∧
    parse "y" = .error (.runtime_error "syntax error") ∧
    parse "X" = .error (.runtime_error "syntax error") ∧
    parse "xx" = .error (.runtime_error "syntax error") ∧
    parse "sinx" = .error (.runtime_error "syntax error") ∧
    parse ")" = .error (.runtime_error "syntax error") ∧
    parse "*x" = .error (.runtime_error "syntax error") ∧
    parse "\t" = .error (.runtime_error "syntax error") := by
  refine ⟨?_, ?_, by decide, by decide, by decide, by decide, by decide, by decide,
    by decide⟩
  · intro id hne halpha hmem
    have hx : id ≠ ['x'] := fun h => hmem (by rw [h]; decide)
    have h1 : id ≠ ['s', 'i', 'n'] := fun h => hmem (by rw [h]; decide)
    have h2 : id ≠ ['c', 'o', 's'] := fun h => hmem (by rw [h]; decide)
    have h3 : id ≠ ['t', 'a', 'n'] := fun h => hmem (by rw [h]; decide)
    have h4 : id ≠ ['e', 'x', 'p'] := fun h => hmem (by rw [h]; decide)
    have h5 : id ≠ ['l', 'o', 'g'] := fun h => hmem (by rw [h]; decide)
    exact @parse_of_parse_unary_error 1 (String.mk id) _
      (parse_unary_unknown_identifier hne halpha hx ⟨h1, h2, h3, h4, h5⟩) (by simp)
  · intro s c rest hs h1 h2 h3 h4 h5 h6
    exact parse_of_parse_unary_error (parse_unary_unrecognized hs h1 h2 h3 h4 h5 h6)
      (by simp)

/-- C14, at the identifier `sinx` and at the text ` ^2`. -/
theorem syntax_error_rejected_witness :
    parse (String.mk "sinx".toList) = .error (.runtime_error "syntax error") ∧
    parse " ^2" = .error (.runtime_error "syntax error") :=
  ⟨syntax_error_rejected.1 "sinx".toList (by decide) (by decide) (by decide),
   syntax_error_rejected.2.1 " ^2" '^' ['2'] (by decide) (by decide) (by decide) (by decide)
     (by decide) (by decide) (by decide)⟩

/-- C15: a text that parses, put between parentheses, parses to the same
tree, so to the same derivative and simplified derivative; `(x)` parses as
`x` does. -/
theorem parenthesized_same_tree (s : String) (e : expression) (h : parse s = .ok e) :
    parse ("(" ++ s ++ ")") = .ok e ∧
    (∀ e1, parse ("(" ++ s ++ ")") = .ok e1 →
      derivative e1 = derivative e ∧
      simplify (derivative e1) = simplify (derivative e)) ∧
    parse "(x)" = parse "x" := by
  obtain ⟨s1, hp, hs⟩ := (parse_ok_iff s e).1 h
  have hu := unary_parses_enclosed hp hs []
  have hnil : stops_multiplication [] := Or.inl rfl
  have hnil2 : stops_addition [] := Or.inl rfl
  obtain ⟨n, hn⟩ := addition_parses_intro
    (multiplication_parses_intro hu (multiplication_loop_stop e hnil))
    (addition_loop_parses_skip_ws.2 (addition_loop_stop e hnil2))
  have hl : ("(" ++ s ++ ")").toList = '(' :: (s.toList ++ [')']) := by simp
  have key : parse ("(" ++ s ++ ")") = .ok e :=
    @parse_of_parse_addition n ("(" ++ s ++ ")") e (skip_ws []) (by rw [hl]; exact hn) rfl
  refine ⟨key, ?_, by decide⟩
  intro e1 h1
  rw [key] at h1
  cases h1
  exact ⟨rfl, rfl⟩

/-- C15, at the text `x - 1`. -/
theorem parenthesized_same_tree_witness :
    parse "x - 1" = .ok (subtraction variable_ (const_ 1)) ∧
    parse ("(" ++ "x - 1" ++ ")") = .ok (subtraction variable_ (const_ 1)) :=
  have h : parse "x - 1" = .ok (subtraction variable_ (const_ 1)) := by decide
  ⟨h, (parenthesized_same_tree "x - 1" _ h).1⟩

/-- C16: `n` minus signs before the literal `5` parse to `n` nested
negations of the constant, none cancelled; `1-------5` is the subtraction
of six nested negations of `5` from `1`. -/
theorem unary_minus_nests (n : Nat) :
    parse (String.mk (List.replicate n '-' ++ ['5'])) = .ok (nested_negation n (const_ 5)) ∧
    parse "1-------5" = .ok (subtraction (const_ 1) (nested_negation 6 (const_ 5))) := by
  refine ⟨?_, by decide⟩
  have hlit : unary_parses (['5'] ++ []) (const_ 5) [] :=
    unary_parses_literal_text (by decide) token_end_nil
  have hu := unary_parses_minuses n hlit
  have hnil : stops_multiplication [] := Or.inl rfl
  have hnil2 : stops_addition [] := Or.inl rfl
  obtain ⟨m, hm⟩ := addition_parses_intro
    (multiplication_parses_intro hu (multiplication_loop_stop _ hnil))
    (addition_loop_parses_skip_ws.2 (addition_loop_stop _ hnil2))
  rw [List.append_nil] at hm
  exact parse_of_parse_addition hm rfl

/-- C17: `identity` returns a tree structurally equal to its receiver, which
therefore prints and differentiates as the receiver does. -/
theorem identity_is_copy (e : expression) :
    identity e = e ∧ print (identity e) = print e ∧
    derivative (identity e) = derivative e := by
  rw [identity_eq_self]
  exact ⟨rfl, rfl, rfl⟩

/-- C18: `simplify` returns an already reduced tree unchanged. -/
theorem simplify_of_reduced (e : expression) (h : reduced e) : simplify e = e := by
  induction e with
  | negation a iha =>
    rw [simplify_negation, iha h.2, h.1]; rfl
  | addition a b iha ihb =>
    obtain ⟨h1, h2, h3, h4⟩ := h
    rw [simplify_addition, iha h3, ihb h4, h1, h2]; rfl
  | subtraction a b iha ihb =>
    obtain ⟨h1, h2, h3, h4⟩ := h
    rw [simplify_subtraction, iha h3, ihb h4, h1, h2]; rfl
  | multiplication a b iha ihb =>
    obtain ⟨h1, h2, h3, h4, h5, h6⟩ := h
    rw [simplify_multiplication, iha h5, ihb h6, h1, h2, h3, h4]; rfl
  | division a b iha ihb =>
    obtain ⟨h1, h2, h3, h4⟩ := h
    rw [simplify_division, iha h3, ihb h4, h1, h2]; rfl
  | variable_ => exact simplify_variable
  | const_ v => exact simplify_const v
  | sine a _ => exact simplify_sine a
  | cosine a _ => exact simplify_cosine a
  | tangent a _ => exact simplify_tangent a
  | exponentiation a iha =>
    rw [simplify_exponentiation, iha h.2, h.1]; rfl
  | logarithm a _ => exact simplify_logarithm a

/-- C18, at the tree `(x + 2) * sin (0 + x)`, whose only reducible part is
the operand of the sine. -/
theorem simplify_of_reduced_witness :
    reduced (multiplication (addition variable_ (const_ 2))
      (sine (addition (const_ 0) variable_))) ∧
    simplify (multiplication (addition variable_ (const_ 2))
      (sine (addition (const_ 0) variable_))) =
      multiplication (addition variable_ (const_ 2))
        (sine (addition (const_ 0) variable_)) :=
  have h : reduced (multiplication (addition variable_ (const_ 2))
      (sine (addition (const_ 0) variable_))) := by
    simp [reduced, is_zero, is_one]
  ⟨h, simplify_of_reduced _ h⟩

/-- C19: `derivative` and `simplify` return a tree for every tree.  For
`simplify`, every budget of at least one unit per node gives the same tree,
which is the value of `simplify` and has no more nodes than the receiver;
this covers the call of `subtraction::simplify` on the freshly built
negation of the simplified right operand, which has no more nodes than the
subtraction has below its root. -/
theorem derivative_simplify_total (e : expression) :
    (∃ r, derivative e = r) ∧
    (∃ r, (∀ n, node_count e ≤ n → simplify_fuel n e = some r) ∧ simplify e = r ∧
      node_count r ≤ node_count e) ∧
    (∀ lhs rhs, node_count (negation (simplify rhs)) ≤ node_count lhs + node_count rhs ∧
      node_count lhs + node_count rhs < node_count (subtraction lhs rhs)) := by
  refine ⟨⟨derivative e, rfl⟩, ⟨simplify e, ?_, rfl, node_count_simplify_le e⟩, ?_⟩
  · intro n hn
    exact simplify_fuel_eq_simplify hn
  · intro lhs rhs
    have h1 := node_count_simplify_le rhs
    have h2 := node_count_pos lhs
    simp only [node_count]
    omega

/-- C20: simplifying a second time changes nothing, on every tree, also when
a `sine`, `cosine`, `tangent` or `logarithm` wraps a reducible operand. -/
theorem simplify_idempotent (e : expression) :
    simplify (simplify e) = simplify e ∧
    simplify (simplify (sine (addition (const_ 0) variable_))) =
      simplify (sine (addition (const_ 0) variable_)) :=
  ⟨simplify_simplify e, simplify_simplify _⟩

/-- C21, as stated, fails: `0 * log x` has no division, so no zero
denominator at any point; at the point `0` it has no value, the logarithm
being undefined there, while `simplify` returns the constant `0`, whose
value is `0`.  The same happens with `0 * tan x` at the point `π / 2`. -/
theorem simplify_preserves_value_counterexample :
    parse "0 * log x" = .ok (multiplication (const_ 0) (logarithm variable_)) ∧
    denominators_nonzero (multiplication (const_ 0) (logarithm variable_)) 0 ∧
    simplify (multiplication (const_ 0) (logarithm variable_)) = const_ 0 ∧
    value (simplify (multiplication (const_ 0) (logarithm variable_))) 0 = some 0 ∧
    value (multiplication (const_ 0) (logarithm variable_)) 0 = none ∧
    denominators_nonzero (multiplication (const_ 0) (tangent variable_)) (Real.pi / 2) ∧
    value (simplify (multiplication (const_ 0) (tangent variable_))) (Real.pi / 2) = some 0 ∧
    value (multiplication (const_ 0) (tangent variable_)) (Real.pi / 2) = none ∧
    ¬ (∀ (e : expression) (x0 : ℝ), denominators_nonzero e x0 →
        value (simplify e) x0 = value e x0) := by
  have hs : simplify (multiplication (const_ 0) (logarithm variable_)) = const_ 0 := by
    decide
  have hd : denominators_nonzero (multiplication (const_ 0) (logarithm variable_)) 0 :=
    ⟨trivial, trivial⟩
  have h1 : value (simplify (multiplication (const_ 0) (logarithm variable_))) 0 = some 0 := by
    rw [hs, value_of_defined (by trivial)]
    simp [eval]
  have h2 : value (multiplication (const_ 0) (logarithm variable_)) 0 = none := by
    apply value_of_not_defined
    intro h
    have := h.2.2
    simp [eval] at this
  have hs2 : simplify (multiplication (const_ 0) (tangent variable_)) = const_ 0 := by
    decide
  have h3 : value (simplify (multiplication (const_ 0) (tangent variable_))) (Real.pi / 2) =
      some 0 := by
    rw [hs2, value_of_defined (by trivial)]
    simp [eval]
  have h4 : value (multiplication (const_ 0) (tangent variable_)) (Real.pi / 2) = none := by
    apply value_of_not_defined
    intro h
    have := h.2.2
    simp [eval] at this
  refine ⟨by decide, hd, hs, h1, h2, ⟨trivial, trivial⟩, h3, h4, ?_⟩
  intro hall
  have := hall _ 0 hd
  rw [h1, h2] at this
  cases this

/-- C21, amended: at every point where every denominator in the tree is
nonzero, every operand of a logarithm is positive and every operand of a
tangent has a nonzero cosine, the simplified tree has a value and it is the
value of the tree. -/
theorem simplify_preserves_value (e : expression) (x0 : ℝ) (h : defined_at e x0) :
    value (simplify e) x0 = value e x0 ∧ value e x0 = some (eval e x0) := by
  obtain ⟨hd, he⟩ := simplify_defined_eval e x0 h
  rw [value_of_defined hd, value_of_defined h, he]
  exact ⟨rfl, rfl⟩

/-- C21, amended, at the tree `(0 + x) / (x - 0)` and the point `2`. -/
theorem simplify_preserves_value_witness :
    defined_at (division (addition (const_ 0) variable_)
      (subtraction variable_ (const_ 0))) 2 ∧
    simplify (division (addition (const_ 0) variable_)
      (subtraction variable_ (const_ 0))) = division variable_ variable_ ∧
    value (simplify (division (addition (const_ 0) variable_)
      (subtraction variable_ (const_ 0)))) 2 =
      value (division (addition (const_ 0) variable_)
        (subtraction variable_ (const_ 0))) 2 :=
  have h : defined_at (division (addition (const_ 0) variable_)
      (subtraction variable_ (const_ 0))) 2 :=
    ⟨⟨trivial, trivial⟩, ⟨trivial, trivial⟩, by simp [eval]⟩
  ⟨h, by decide, (simplify_preserves_value _ 2 h).1⟩

end Derivative
